import Mathlib

/-!
Verification of the byteserver storage engine against its specification.

This file gives a shallow embedding, in Lean, of the storage core of the
repository: the byte-level log and temp-file formats (`records.rs`,
`transaction.rs`), the helper codecs (`util.rs`, `tid.rs`), the position
index (`index.rs`), the lock manager (`lock.rs`) and the storage facade
(`storage.rs`).  Files are modelled as lists of bytes (`List Nat`, each
element < 256), maps as sorted association lists (the source uses
`BTreeMap`), and I/O as explicit state passing; fallible operations
return `Except`.  A Rust `assert!`/`assert_eq!` panic is modelled as an
`Except.error`.  Definitions mirror the source functions line by line and
keep the source names where possible.
-/

set_option maxRecDepth 10000

namespace ByteServer

/-- Files and byte strings are lists of byte values. -/
abbrev Bytes := List Nat

/-- 8-byte object identifier (`util::Oid`). -/
abbrev Oid := List Nat

/-- 8-byte transaction identifier (`util::Tid`). -/
abbrev Tid := List Nat

/-- A list is a valid byte string when every element is < 256. -/
def validBytes (l : List Nat) : Prop := ∀ b ∈ l, b < 256

/-- Big-endian byte encoding of `n` in `w` bytes (byteorder `BigEndian::write_uN`). -/
def beBytes : Nat → Nat → List Nat
  | 0, _ => []
  | w + 1, n => (n / 256 ^ w % 256) :: beBytes w n

/-- Little-endian byte encoding of `n` in `w` bytes (byteorder `LittleEndian::write_uN`). -/
def leBytes (w n : Nat) : List Nat := (beBytes w n).reverse

/-- Big-endian read of a byte list (byteorder `BigEndian::read_uN`). -/
def readBE (l : List Nat) : Nat := l.foldl (fun acc b => acc * 256 + b) 0

/-- Little-endian read of a byte list (byteorder `LittleEndian::read_uN`). -/
def readLE (l : List Nat) : Nat := readBE l.reverse

/-- Lexicographic strict comparison of byte strings: Rust's derived `<`
on `[u8; 8]`, `&[u8]` and `Vec<u8>`. -/
def lexLt : List Nat → List Nat → Bool
  | [], [] => false
  | [], _ :: _ => true
  | _ :: _, [] => false
  | a :: as, b :: bs =>
    if a < b then true
    else if b < a then false
    else lexLt as bs

/-- Rust `x > y` on byte arrays. -/
def lexGt (a b : List Nat) : Bool := lexLt b a

/-- Rust `x >= y` on byte arrays. -/
def lexGe (a b : List Nat) : Bool := ! lexLt a b

/-! ## util.rs -/

/-- `util::Z64`: the all-zero 8-byte identifier. -/
def Z64 : List Nat := List.replicate 8 0

/-- `util::p64`: encodes a `u64` as 8 bytes.  The source writes with
`LittleEndian::write_u64`. -/
def p64 (i : Nat) : List Nat := leBytes 8 (i % 2 ^ 64)

/-- `util::read_u64`: reads a `u64` from 8 bytes.  The source reads with
`read_u64::<LittleEndian>`. -/
def read_u64 (l : List Nat) : Nat := readLE (l.take 8)

/-! ## tid.rs -/

/-- `tid::next`: big-endian read of the TID, plus one (with `u64` wrap),
written back big-endian. -/
def next (tid : Tid) : Tid := beBytes 8 ((readBE tid + 1) % 2 ^ 64)

/-- `tid::later_than`: `new` if lexicographically greater than `old`,
else `next(old)`. -/
def later_than (new old : Tid) : Tid :=
  if lexGt new old then new else next old

/-- `FileStorage::new_tid`, with the wall clock (`tid::now_tid()`) passed in
explicitly: the new last TID is `later_than(now, last_tid)`. -/
def new_tid (now last_tid : Tid) : Tid := later_than now last_tid

/-! ## lock.rs: the lock manager

State as in the source: `locks` is a `HashSet<Oid>`, `waiting` maps an OID
to the FIFO queue (`VecDeque`) of TIDs waiting on it, and `locking` maps a
TID to its `Locking` record.  Sets and maps are association
lists; none of them is ever iterated by the source, so list order is
unobservable.  The `locked` callback is modelled by emitting the granted
TID into an event trace. -/

/-- `lock::Locking` (without the callback, whose firing is traced). -/
structure Locking where
  id : Tid
  want : List Oid
  got : List Oid
deriving Repr, DecidableEq

/-- Association-list lookup (HashMap `get`). -/
def alGet {κ α : Type} [DecidableEq κ] : List (κ × α) → κ → Option α
  | [], _ => none
  | (k', v) :: rest, k => if k' = k then some v else alGet rest k

/-- Association-list insert (HashMap `insert`: replaces an existing key). -/
def alInsert {κ α : Type} [DecidableEq κ] : List (κ × α) → κ → α → List (κ × α)
  | [], k, v => [(k, v)]
  | (k', v') :: rest, k, v =>
    if k' = k then (k, v) :: rest else (k', v') :: alInsert rest k v

/-- Association-list remove (HashMap `remove`). -/
def alRemove {κ α : Type} [DecidableEq κ] : List (κ × α) → κ → List (κ × α)
  | [], _ => []
  | (k', v') :: rest, k => if k' = k then rest else (k', v') :: alRemove rest k

/-- HashSet insert. -/
def setInsert (s : List Oid) (o : Oid) : List Oid := if o ∈ s then s else o :: s

/-- HashSet remove. -/
def setRemove (s : List Oid) (o : Oid) : List Oid := s.erase o

/-- `lock::LockManager`. -/
structure LockManager where
  locks : List Oid
  waiting : List (Oid × List Tid)
  locking : List (Tid × Locking)
deriving Repr, DecidableEq

/-- `LockManager::new`. -/
def LockManager.new : LockManager := ⟨[], [], []⟩

/-- Observable lock-manager events: a grant is the `locked` callback
firing; enqueue/dequeue are the source's `push_back`/`pop_front` on a
waiter queue. -/
inductive LockEv where
  | granted (id : Tid)
  | enqueued (id : Tid) (oid : Oid)
  | dequeued (id : Tid) (oid : Oid)
deriving Repr, DecidableEq

/-- The `while ! want.is_empty()` loop of `LockManager::lock_waiting`:
acquire OIDs from the tail of `want` until one is contended; returns the
updated lock set, `want`, `got`, and the contended OID if any. -/
def acquireLoop : Nat → List Oid → List Oid → List Oid →
    List Oid × List Oid × List Oid × Option Oid
  | 0, locks, want, got => (locks, want, got, none)
  | fuel + 1, locks, want, got =>
    match want.getLast? with
    | none => (locks, want, got, none)
    | some oid =>
      if oid ∈ locks then (locks, want, got, some oid)
      else
        acquireLoop fuel (setInsert locks oid) want.dropLast (got ++ [oid])

/-- Push a TID to the back of an OID's waiter queue, creating the queue
if absent (the `waiting.contains_key` branch of `lock_waiting`). -/
def pushWaiter (waiting : List (Oid × List Tid)) (oid : Oid) (id : Tid) :
    List (Oid × List Tid) :=
  match alGet waiting oid with
  | some q => alInsert waiting oid (q ++ [id])
  | none => alInsert waiting oid [id]

/-- `LockManager::lock_waiting`. -/
def lock_waiting (lm : LockManager) (lk : Locking) : LockManager × List LockEv :=
  let r := acquireLoop lk.want.length lm.locks lk.want lk.got
  match r.2.2.2 with
  | some oid =>
    (⟨r.1, pushWaiter lm.waiting oid lk.id,
      alInsert lm.locking lk.id ⟨lk.id, r.2.1, r.2.2.1⟩⟩,
     [.enqueued lk.id oid])
  | none =>
    (⟨r.1, lm.waiting,
      alInsert lm.locking lk.id ⟨lk.id, r.2.1, r.2.2.1⟩⟩,
     [.granted lk.id])

/-- `LockManager::lock`. -/
def LockManager.lock (lm : LockManager) (id : Tid) (want : List Oid) :
    LockManager × List LockEv :=
  lock_waiting lm ⟨id, want, []⟩

/-- One iteration body of the `while ! locking.got.is_empty()` loop of
`LockManager::release`, for the OID popped from the tail of `got`. -/
def releaseOid (lm : LockManager) (oid : Oid) : LockManager × List LockEv :=
  let lm1 : LockManager := ⟨setRemoved, lm.waiting, lm.locking⟩
  match alGet lm.waiting oid with
  | some q =>
    match q with
    | [] => (⟨setRemoved, alRemove lm.waiting oid, lm.locking⟩, [])
    | tid :: qrest =>
      let waiting' :=
        if qrest = [] then alRemove lm.waiting oid
        else alInsert lm.waiting oid qrest
      match alGet lm.locking tid with
      | some lk =>
        let (lm', evs) :=
          lock_waiting ⟨setRemoved, waiting', alRemove lm.locking tid⟩ lk
        (lm', .dequeued tid oid :: evs)
      | none => (⟨setRemoved, waiting', lm.locking⟩, [.dequeued tid oid])
  | none => (lm1, [])
where setRemoved : List Oid := setRemove lm.locks oid

/-- The release loop: pop OIDs from the tail of `got`, releasing each. -/
def releaseLoop : Nat → LockManager → List Oid → LockManager × List LockEv
  | 0, lm, _ => (lm, [])
  | fuel + 1, lm, got =>
    match got.getLast? with
    | none => (lm, [])
    | some oid =>
      let (lm1, evs1) := releaseOid lm oid
      let (lm2, evs2) := releaseLoop fuel lm1 got.dropLast
      (lm2, evs1 ++ evs2)

/-- `LockManager::release`. -/
def LockManager.release (lm : LockManager) (id : Tid) : LockManager × List LockEv :=
  match alGet lm.locking id with
  | none => (lm, [])
  | some lk =>
    releaseLoop lk.got.length ⟨lm.locks, lm.waiting, alRemove lm.locking id⟩ lk.got

/-! ## Byte-level file model

A file is a `List Nat` of bytes.  `writeAt` models `seek(Start(pos))`
followed by a write (zero-filling any gap past EOF, as POSIX does),
`readAt` models `seek` + `read`, `setLen` models `File::set_len`. -/

/-- Overwrite bytes of `f` at `pos` with `d`, zero-filling up to `pos`. -/
def writeAt (f : List Nat) (pos : Nat) (d : List Nat) : List Nat :=
  f.take pos ++ List.replicate (pos - f.length) 0 ++ d ++ f.drop (pos + d.length)

/-- Read `n` bytes of `f` at `pos` (short if EOF intervenes). -/
def readAt (f : List Nat) (pos n : Nat) : List Nat := (f.drop pos).take n

/-- `File::set_len`: truncate or zero-extend to `n` bytes. -/
def setLen (f : List Nat) (n : Nat) : List Nat :=
  f.take n ++ List.replicate (n - f.length) 0

/-- The main log file, modelled as a length plus a contents function
(positions outside `[0, size)` hold 0).  This avoids materializing the
4096-byte file header as a list. -/
structure FileBytes where
  size : Nat
  data : Nat → Nat

/-- The empty file. -/
def FileBytes.empty : FileBytes := ⟨0, fun _ => 0⟩

/-- `seek(Start(pos))` + write on the log (zero gap past EOF as
POSIX). -/
def FileBytes.writeAt (f : FileBytes) (pos : Nat) (d : List Nat) : FileBytes :=
  { size := max f.size (pos + d.length)
    data := fun i =>
      if pos ≤ i ∧ i < pos + d.length then d.getD (i - pos) 0
      else if i < f.size then f.data i else 0 }

/-- `seek` + read of `n` bytes on the log (short at EOF). -/
def FileBytes.readAt (f : FileBytes) (pos n : Nat) : List Nat :=
  (List.range (min n (f.size - pos))).map fun k => f.data (pos + k)

/-- `BTreeMap` insert for the OID → offset maps (`index::Index`), keeping
keys sorted in byte order. -/
def btInsert : List (Oid × Nat) → Oid → Nat → List (Oid × Nat)
  | [], k, v => [(k, v)]
  | (k', v') :: rest, k, v =>
    if lexLt k k' then (k, v) :: (k', v') :: rest
    else if k = k' then (k, v) :: rest
    else (k', v') :: btInsert rest k v

/-- `BTreeMap::keys`, in sorted order. -/
def btKeys (m : List (Oid × Nat)) : List Oid := m.map (·.1)

/-! ## records.rs constants and data-record header -/

def PADDING_MARKER : List Nat := [80, 80, 80, 80]

def TRANSACTION_MARKER : List Nat := [84, 84, 84, 84]

def HEADER_SIZE : Nat := 4096

def TRANSACTION_HEADER_LENGTH : Nat := 28

def DATA_HEADER_SIZE : Nat := 36

def DATA_TID_OFFSET : Nat := 12

def DATA_PREVIOUS_OFFSET : Nat := 20

/-- `records::DataHeader` (fields as numbers/bytes). -/
structure DataHeader where
  length : Nat
  id : Oid
  tid : Tid
  previous : Nat
  offset : Nat
deriving Repr, DecidableEq

/-- `records::DataHeader::read` at byte position `pos` of the log: a
36-byte header; `length` is u32 BE, `previous` and `offset` u64 BE. -/
def DataHeader.read (f : FileBytes) (pos : Nat) : DataHeader :=
  { length := readBE (f.readAt pos 4)
    id := f.readAt (pos + 4) 8
    tid := f.readAt (pos + 12) 8
    previous := readBE (f.readAt (pos + 20) 8)
    offset := readBE (f.readAt (pos + 28) 8) }

/-! ## transaction.rs -/

/-- `transaction::TransactionState` tags (the `Transitioning` marker is
transient within a call and never observable between operations). -/
inductive TState where
  | Saving
  | Voting
  | Voted
deriving Repr, DecidableEq

/-- `transaction::TransactionData`: the per-transaction temp file. -/
structure TransData where
  file : List Nat
  length : Nat
  header_length : Nat
  needs_to_be_packed : Bool
deriving Repr, DecidableEq

/-- `transaction::Transaction`. -/
structure Transaction where
  id : Tid
  state : TState
  tdata : TransData
  index : List (Oid × Nat)
deriving Repr, DecidableEq

/-- `Transaction::begin`: truncate the temp file and write the `PPPP`
marker, a 16-byte zero gap for length and TID, a zero count, the
user/desc/ext lengths (u16/u16/u32 BE) and bodies. -/
def Transaction.begin (id : Tid) (user desc ext : List Nat) : Transaction :=
  let file := PADDING_MARKER ++ List.replicate 16 0 ++ beBytes 4 0 ++
    beBytes 2 user.length ++ beBytes 2 desc.length ++ beBytes 4 ext.length ++
    user ++ desc ++ ext
  let length := 4 + TRANSACTION_HEADER_LENGTH +
    user.length + desc.length + ext.length
  { id := id, state := .Saving,
    tdata := { file := file, length := length, header_length := length,
               needs_to_be_packed := false },
    index := [] }

/-- `Transaction::save`: append a data record.  The `previous` and
`offset` fields are written with `util::write_u64`, i.e. little-endian in
the source. -/
def Transaction.save (t : Transaction) (oid : Oid) (serial : Tid)
    (data : List Nat) : Except String Transaction :=
  match t.state with
  | .Saving =>
    let td := t.tdata
    let file := td.file ++ beBytes 4 data.length ++ oid ++ serial ++
      leBytes 8 0 ++ leBytes 8 td.length ++ data
    let had := (alGet t.index oid).isSome
    .ok { t with
          tdata := { td with
                     file := file,
                     needs_to_be_packed := td.needs_to_be_packed || had,
                     length := td.length + DATA_HEADER_SIZE + data.length },
          index := btInsert t.index oid td.length }
  | _ => .error "Invalid trans state"

/-- `Transaction::lock_data`: the TID and the OIDs saved so far, sorted
(BTreeMap key order) and reversed. -/
def Transaction.lock_data (t : Transaction) : Except String (Tid × List Oid) :=
  match t.state with
  | .Saving => .ok (t.id, (btKeys t.index).reverse)
  | _ => .error "Invalid trans state"

/-- `Transaction::locked`: flush the writer and move Saving → Voting. -/
def Transaction.locked (t : Transaction) : Except String Transaction :=
  match t.state with
  | .Saving => .ok { t with state := .Voting }
  | _ => .error "Invalid trans state"

/-- `Transaction::unlocked`: rewind the writer and move Voting → Saving. -/
def Transaction.unlocked (t : Transaction) : Except String Transaction :=
  match t.state with
  | .Voting => .ok { t with state := .Saving }
  | _ => .error "Invalid trans state"

/-- The loop of `TransactionSerialIterator`: walk the data records from
`pos` to `length`; skip records whose local-index entry does not point at
the record (shadowed duplicates); yield (OID, stored TID) pairs. -/
def serialsLoop (file : List Nat) (index : List (Oid × Nat)) (length : Nat) :
    Nat → Nat → Except String (List (Oid × Tid))
  | _, 0 => .error "fuel exhausted"
  | pos, fuel + 1 =>
    if pos < length then
      let dlen := readBE (readAt file pos 4)
      let oid := readAt file (pos + 4) 8
      match alGet index oid with
      | none => .error "index fail in transaction"
      | some p =>
        if p ≠ pos then
          serialsLoop file index length (pos + DATA_HEADER_SIZE + dlen) fuel
        else
          match serialsLoop file index length (pos + DATA_HEADER_SIZE + dlen) fuel with
          | .error e => .error e
          | .ok rest => .ok ((oid, readAt file (pos + 12) 8) :: rest)
    else .ok []

/-- `Transaction::serials` (Voting only).  The fuel argument only bounds
the iteration count of the loop; `length` always suffices because each
data record occupies at least 36 bytes. -/
def Transaction.serials (t : Transaction) : Except String (List (Oid × Tid)) :=
  match t.state with
  | .Voting =>
    serialsLoop t.tdata.file t.index t.tdata.length t.tdata.header_length
      (t.tdata.length + 1)
  | _ => .error "Invalid trans state"

/-- `Transaction::get_data` (Voting only): the data bytes of the record
the local index holds for `oid`. -/
def Transaction.get_data (t : Transaction) (oid : Oid) :
    Except String (List Nat) :=
  match t.state with
  | .Voting =>
    match alGet t.index oid with
    | none => .error "trans index error"
    | some pos =>
      let dlen := readBE (readAt t.tdata.file pos 4)
      if dlen > 0 then
        .ok (readAt t.tdata.file (pos + DATA_HEADER_SIZE) dlen)
      else .ok []
  | _ => .error "Invalid trans state"

/-- `Transaction::set_previous` (Voting only): write the `previous`
field (u64 BE, `write_u64::<BigEndian>` in the source) of `oid`'s
record. -/
def Transaction.set_previous (t : Transaction) (oid : Oid) (previous : Nat) :
    Except String Transaction :=
  match t.state with
  | .Voting =>
    match alGet t.index oid with
    | none => .error "trans index error"
    | some pos =>
      .ok { t with tdata := { t.tdata with
            file := writeAt t.tdata.file (pos + DATA_PREVIOUS_OFFSET)
                      (beBytes 8 previous) } }
  | _ => .error "Invalid trans state"

/-- The dedup loop of `Transaction::pack`: walk records from `rpos`; a
record is live when the local index points at it; a live record is moved
down to `wpos` only when `rpos ≠ wpos` (and only then is `wpos`
advanced); the moved copy gets its `offset` field rewritten with
`util::write_u64` (little-endian). -/
def packLoop (length : Nat) :
    Nat → List Nat → List (Oid × Nat) → Nat → Nat →
    Except String (List Nat × List (Oid × Nat) × Nat)
  | 0, _, _, _, _ => .error "fuel exhausted"
  | fuel + 1, file, index, rpos, wpos =>
    if rpos < length then
      let buf := readAt file rpos 12
      let dlen := readBE (buf.take 4)
      let oid := readAt buf 4 8
      match alGet index oid with
      | none => .error "trans index get"
      | some oid_pos =>
        if oid_pos = rpos then
          if rpos ≠ wpos then
            let rest := readAt file (rpos + 12) (dlen + DATA_HEADER_SIZE - 12)
            let rest := writeAt rest 16 (leBytes 8 wpos)
            let file := writeAt file wpos (buf ++ rest)
            let index := btInsert index oid wpos
            packLoop length fuel file index (rpos + dlen + DATA_HEADER_SIZE)
              (wpos + dlen + DATA_HEADER_SIZE)
          else
            packLoop length fuel file index (rpos + dlen + DATA_HEADER_SIZE) wpos
        else
          packLoop length fuel file index (rpos + dlen + DATA_HEADER_SIZE) wpos
    else .ok (file, index, wpos)

/-- `Transaction::pack` (Voting only): dedup shadowed records when
needed, truncate, then write `full_length = length + 8` as the record
trailer and into the header length slot (both u64 BE). -/
def Transaction.pack (t : Transaction) : Except String Transaction :=
  match t.state with
  | .Voting =>
    let td := t.tdata
    match
      (if td.needs_to_be_packed then
        packLoop td.length (td.length + 1) td.file t.index
          td.header_length td.header_length
      else .ok (td.file, t.index, td.length)) with
    | .error e => .error e
    | .ok (file1, index1, wpos) =>
      let file2 := if td.needs_to_be_packed then setLen file1 wpos else file1
      let length2 := wpos
      let full_length := length2 + 8
      let file3 := writeAt file2 length2 (beBytes 8 full_length)
      let file4 := writeAt file3 4 (beBytes 8 full_length)
      .ok { t with
            tdata := { td with file := file4, length := length2 },
            index := index1 }
  | _ => .error "Invalid trans state"

/-- The record walk of `TransactionData::save_tid`: rewrite each data
record's TID field to `tid`. -/
def saveTidLoop (tid : Tid) (length : Nat) :
    Nat → List Nat → Nat → List Nat
  | 0, file, _ => file
  | fuel + 1, file, wpos =>
    if wpos < length then
      let dlen := readBE (readAt file wpos 4)
      let file := writeAt file (wpos + DATA_TID_OFFSET) tid
      saveTidLoop tid length fuel file (wpos + DATA_HEADER_SIZE + dlen)
    else file

/-- `TransactionData::save_tid`: write the TID and record count into the
commit header, then restamp every data record's TID. -/
def TransData.save_tid (td : TransData) (tid : Tid) (count : Nat) : TransData :=
  let file := writeAt td.file 12 tid
  let file := writeAt file 20 (beBytes 4 count)
  { td with file := saveTidLoop tid td.length (td.length + 1) file td.header_length }

/-- `Transaction::stage` (Voting only): restamp TIDs, append the whole
temp file to `out` (checking, as the source's `assert_eq!` does, that
exactly `length + 8` bytes were copied), truncate the temp file and move
to Voted.  Returns the new `out`, the transaction's index and the copied
length. -/
def Transaction.stage (t : Transaction) (tid : Tid) (out : FileBytes) :
    Except String (Transaction × List (Oid × Nat) × Nat × FileBytes) :=
  match t.state with
  | .Voting =>
    let td := t.tdata.save_tid tid t.index.length
    let newLength := td.length + 8
    let td2 : TransData := { td with file := [], length := newLength }
    let t2 : Transaction := { t with state := .Voted, tdata := td2, index := [] }
    if td.file.length = newLength then
      .ok (t2, t.index, newLength, out.writeAt out.size td.file)
    else .error "assert: copied length mismatch"
  | _ => .error "Invalid trans state"

/-! ## records.rs headers and storage.rs recovery scan -/

/-- `records::FileHeader::new().write(..)` to an empty file: magic
`fs2 `, u64 4096, u64 alignment 2^32, u16 zero-length previous name,
then the redundant u64 4096 at offset 4088 (zero gap in between). -/
def fileHeaderBytes : FileBytes :=
  (FileBytes.empty.writeAt 0
    ([102, 115, 50, 32] ++ beBytes 8 4096 ++ beBytes 8 (2 ^ 32) ++ beBytes 2 0)).writeAt
    4088 (beBytes 8 4096)

/-- `records::TransactionHeader`. -/
structure TransactionHeader where
  length : Nat
  id : Tid
  ndata : Nat
  luser : Nat
  ldesc : Nat
  lext : Nat
deriving Repr, DecidableEq

/-- `TransactionHeader::read` for the commit record whose 4-byte marker
is at `pos` (all integer fields big-endian). -/
def TransactionHeader.read (f : FileBytes) (pos : Nat) : TransactionHeader :=
  { length := readBE (f.readAt (pos + 4) 8)
    id := f.readAt (pos + 12) 8
    ndata := readBE (f.readAt (pos + 20) 4)
    luser := readBE (f.readAt (pos + 24) 2)
    ldesc := readBE (f.readAt (pos + 26) 2)
    lext := readBE (f.readAt (pos + 28) 4) }

/-- The data-record walk of `TransactionHeader::update_index`: insert
(OID, absolute record position) for each of the `n` data records and
track the largest OID. -/
def updateIndexLoop (f : FileBytes) :
    Nat → Nat → List (Oid × Nat) → Oid → List (Oid × Nat) × Oid
  | 0, _, index, last_oid => (index, last_oid)
  | n + 1, pos, index, last_oid =>
    let ldata := readBE (f.readAt pos 4)
    let oid := f.readAt (pos + 4) 8
    let index2 := btInsert index oid pos
    let last2 := if lexGt oid last_oid then oid else last_oid
    updateIndexLoop f n (pos + DATA_HEADER_SIZE + ldata) index2 last2

/-- `TransactionHeader::update_index`, with the reader positioned after
the header: skip the user/desc/ext bodies, then walk the data records. -/
def TransactionHeader.update_index (h : TransactionHeader) (f : FileBytes)
    (pos : Nat) (index : List (Oid × Nat)) (last_oid : Oid) :
    List (Oid × Nat) × Oid :=
  updateIndexLoop f h.ndata
    (pos + 4 + TRANSACTION_HEADER_LENGTH + h.luser + h.ldesc + h.lext)
    index last_oid

/-- The tail scan of `FileStorage::load_index`: from `pos` to `size`,
apply committed (`TTTT`) records to the index, consume `PPPP` padding
records, reject other markers, and check the redundant trailing length
with `util::read_u64` (little-endian in the source).  Rust `assert!` and
`assert_eq!` panics are errors here. -/
def scanLoop (file : FileBytes) (size : Nat) :
    Nat → Nat → List (Oid × Nat) → Tid → Oid →
    Except String (List (Oid × Nat) × Tid × Oid)
  | 0, _, _, _, _ => .error "fuel exhausted"
  | fuel + 1, pos, index, endTid, last_oid =>
    if pos < size then
      let marker := file.readAt pos 4
      if marker = TRANSACTION_MARKER then
        let header := TransactionHeader.read file pos
        let (index2, last2) := header.update_index file pos index last_oid
        if lexGt header.id endTid then
          let pos2 := pos + header.length
          if read_u64 (file.readAt (pos2 - 8) 8) = header.length then
            scanLoop file size fuel pos2 index2 header.id last2
          else .error "assert failed: trailing length"
        else .error "assert failed: header.id > end"
      else if marker = PADDING_MARKER then
        let length := readBE (file.readAt (pos + 4) 8)
        let pos2 := pos + length
        if read_u64 (file.readAt (pos2 - 8) 8) = length then
          scanLoop file size fuel pos2 index endTid last_oid
        else .error "assert failed: trailing length"
      else .error "Bad record marker"
    else .ok (index, endTid, last_oid)

/-- `FileStorage::load_index`: optionally validate and load the sidecar
(matching `segment_size`, start TID at `HEADER_SIZE + 12`, end TID at
`segment_size - 8`), then scan the tail into the index. -/
def load_index (sidecar : Option (List (Oid × Nat) × Nat × Tid × Tid))
    (file : FileBytes) (size : Nat) :
    Except String (List (Oid × Nat) × Tid × Oid) :=
  match
    (match sidecar with
     | some (idx, seg, start, endTid) =>
       if seg ≤ size then
         if file.readAt (HEADER_SIZE + 12) 8 = start then
           if file.readAt (seg - 8) 8 = endTid then
             Except.ok (idx, seg, endTid)
           else .error "Index bad end"
         else .error "Index bad start"
       else .error "Index bad segment length"
     | none => Except.ok (([] : List (Oid × Nat)), HEADER_SIZE, Z64)) with
  | .error e => .error e
  | .ok (index, segment_size, endTid) =>
    if segment_size < size then
      scanLoop file size (size + 1) segment_size index endTid Z64
    else .ok (index, endTid, Z64)

/-! ## storage.rs: FileStorage -/

/-- `storage::LoadBeforeResult`. -/
inductive LoadBeforeResult where
  | Loaded (data : List Nat) (tid : Tid) (next : Option Tid)
  | NoneBefore
  | PosKeyError
deriving Repr, DecidableEq

/-- `storage::Conflict`. -/
structure Conflict where
  oid : Oid
  serial : Tid
  committed : Tid
  data : List Nat
deriving Repr, DecidableEq

/-- `storage::Voted` (the client handle is reduced to a `finished`
flag). -/
structure Voted where
  id : Tid
  pos : Nat
  tid : Tid
  length : Nat
  index : List (Oid × Nat)
  finished : Bool
deriving Repr, DecidableEq

/-- `storage::FileStorage` (the client list and the file/temp pools are
outside the embedded core). -/
structure FileStorage where
  file : FileBytes
  index : List (Oid × Nat)
  last_tid : Tid
  committed_tid : Tid
  locker : LockManager
  voted : List Voted
  last_oid : Nat

/-- `FileStorage::new`: `last_oid` is the big-endian reading of the
largest OID seen. -/
def FileStorage.new (file : FileBytes) (index : List (Oid × Nat))
    (last_tid : Tid) (last_oid : Oid) : FileStorage :=
  { file := file, index := index, last_tid := last_tid,
    committed_tid := last_tid, locker := LockManager.new, voted := [],
    last_oid := readBE last_oid }

/-- `FileStorage::open`: an empty file gets the fresh header; otherwise
the header is read (its result is discarded by the source) and the index
is recovered by `load_index`. -/
def FileStorage.open (file : FileBytes)
    (sidecar : Option (List (Oid × Nat) × Nat × Tid × Tid)) :
    Except String FileStorage :=
  if file.size = 0 then
    .ok (FileStorage.new fileHeaderBytes [] Z64 Z64)
  else
    match load_index sidecar file file.size with
    | .error e => .error e
    | .ok (index, last_tid, last_oid) =>
      .ok (FileStorage.new file index last_tid last_oid)

/-- The `while &header.tid >= tid` walk of `FileStorage::load_before`,
with fuel (`none` = walk did not terminate within `fuel` steps; the
`previous` chain of a well-formed log strictly decreases, so any fuel
above the starting position is enough). -/
def loadBeforeWalk (f : FileBytes) (tid : Tid) :
    Nat → Nat → Option Tid → Option LoadBeforeResult
  | 0, _, _ => none
  | fuel + 1, pos, next =>
    let header := DataHeader.read f pos
    if lexGe header.tid tid then
      if header.previous = 0 then some .NoneBefore
      else loadBeforeWalk f tid fuel header.previous (some header.tid)
    else
      some (.Loaded (f.readAt (pos + DATA_HEADER_SIZE) header.length)
        header.tid next)

/-- `FileStorage::load_before`. -/
def FileStorage.load_before (fs : FileStorage) (oid : Oid) (tid : Tid) :
    Option LoadBeforeResult :=
  match alGet fs.index oid with
  | some pos => loadBeforeWalk fs.file tid (pos + 1) pos none
  | none => some .PosKeyError

/-- `FileStorage::new_oids`: 100 consecutive OIDs after `last_oid`. -/
def FileStorage.new_oids (fs : FileStorage) : FileStorage × List Oid :=
  ({ fs with last_oid := fs.last_oid + 100 },
   (List.range 100).map fun k => p64 (fs.last_oid + 1 + k))

/-- `FileStorage::tpc_begin`, with the wall clock passed explicitly:
allocates a TID via `new_tid` and begins a transaction. -/
def FileStorage.tpc_begin (fs : FileStorage) (user desc ext : List Nat)
    (now : Tid) : FileStorage × Transaction :=
  let tid := later_than now fs.last_tid
  ({ fs with last_tid := tid }, Transaction.begin tid user desc ext)

/-- `FileStorage::lock`: delegate `lock_data` to the lock manager. -/
def FileStorage.lock (fs : FileStorage) (t : Transaction) :
    Except String (FileStorage × List LockEv) :=
  match t.lock_data with
  | .error e => .error e
  | .ok (tid, oids) =>
    let r := fs.locker.lock tid oids
    .ok ({ fs with locker := r.1 }, r.2)

/-- The conflict-check loop of `FileStorage::stage`: for each
(OID, serial, index position), a present position means the committed
TID is the 8 bytes at `pos + 12`; a conflict is recorded exactly when it
differs from the serial, and the record's `previous` field is pointed at
`pos` either way.  A missing position with a non-zero serial aborts with
`POSError::Key(oid)` (the `Sum.inl` error). -/
def conflictLoop (file : FileBytes) :
    List (Oid × Tid × Option Nat) → Transaction → List Conflict →
    Except (Oid ⊕ String) (List Conflict × Transaction)
  | [], t, conflicts => .ok (conflicts, t)
  | (oid, serial, posop) :: rest, t, conflicts =>
    match posop with
    | some pos =>
      let committed := file.readAt (pos + 12) 8
      match
        (if committed ≠ serial then
          match t.get_data oid with
          | .error e => Except.error (Sum.inr e)
          | .ok data => Except.ok (conflicts ++ [⟨oid, serial, committed, data⟩])
        else Except.ok conflicts) with
      | .error e => .error e
      | .ok conflicts2 =>
        match t.set_previous oid pos with
        | .error e => .error (.inr e)
        | .ok t2 => conflictLoop file rest t2 conflicts2
    | none =>
      if serial ≠ Z64 then .error (.inl oid)
      else conflictLoop file rest t conflicts

/-- `FileStorage::stage`: check conflicts; on none, pack, allocate a
TID, append the staged bytes at the end of the log and enqueue a
`Voted` entry; on conflicts, rewind the transaction and release its
locks. -/
def FileStorage.stage (fs : FileStorage) (t : Transaction) (now : Tid) :
    Except (Oid ⊕ String) (FileStorage × Transaction × List Conflict) :=
  match t.serials with
  | .error e => .error (.inr e)
  | .ok oid_serials =>
    let oid_serial_pos := oid_serials.map fun p => (p.1, p.2, alGet fs.index p.1)
    match conflictLoop fs.file oid_serial_pos t [] with
    | .error e => .error e
    | .ok (conflicts, t1) =>
      if conflicts.length = 0 then
        match t1.pack with
        | .error e => .error (.inr e)
        | .ok t2 =>
          let tid := later_than now fs.last_tid
          let pos := fs.file.size
          match t2.stage tid fs.file with
          | .error e => .error (.inr e)
          | .ok (t3, index, length, file2) =>
            let fs2 : FileStorage :=
              { fs with
                last_tid := tid
                file := file2
                voted := fs.voted ++ [⟨t.id, pos, tid, length, index, false⟩] }
            .ok (fs2, t3, conflicts)
      else
        match t1.unlocked with
        | .error e => .error (.inr e)
        | .ok t2 =>
          let r := fs.locker.release t.id
          .ok ({ fs with locker := r.1 }, t2, conflicts)

/-- Mark the matching voted entry finished and report its log
position. -/
def markFinished : List Voted → Tid → List Voted × Option Nat
  | [], _ => ([], none)
  | v :: rest, id =>
    if v.id = id then ({ v with finished := true } :: rest, some v.pos)
    else
      let r := markFinished rest id
      (v :: r.1, r.2)

/-- `FileStorage::handle_finished_at_voted_head`: drain finished entries
from the head of the voted queue, merging each local index (shifted by
the entry's log position) into the storage index, advancing
`committed_tid` and releasing the entry's locks.  Client callbacks are
outside the embedded core. -/
def handleFinishedLoop : Nat → FileStorage → FileStorage
  | 0, fs => fs
  | fuel + 1, fs =>
    match fs.voted with
    | [] => fs
    | v :: rest =>
      if v.finished then
        let index := v.index.foldl (fun ix p => btInsert ix p.1 (p.2 + v.pos)) fs.index
        let locker := (fs.locker.release v.id).1
        handleFinishedLoop fuel
          { fs with
            index := index
            committed_tid := v.tid
            locker := locker
            voted := rest }
      else fs

/-- `FileStorage::tpc_finish`: flip the matching entry's marker bytes to
`TTTT` in the log, then drain the voted-queue head. -/
def FileStorage.tpc_finish (fs : FileStorage) (id : Tid) : FileStorage :=
  let r := markFinished fs.voted id
  let file2 :=
    match r.2 with
    | some pos => fs.file.writeAt pos TRANSACTION_MARKER
    | none => fs.file
  handleFinishedLoop (r.1.length + 1) { fs with voted := r.1, file := file2 }

/-- `FileStorage::tpc_abort`: drop any matching voted entries (releasing
locks per removed entry), release under the TID when nothing matched,
then drain the voted-queue head. -/
def FileStorage.tpc_abort (fs : FileStorage) (id : Tid) : FileStorage :=
  let hits := fs.voted.filter fun v => v.id = id
  let locker1 := hits.foldl (fun lk _ => (LockManager.release lk id).1) fs.locker
  let voted2 := fs.voted.filter fun v => ¬ v.id = id
  let locker2 :=
    if voted2.length = fs.voted.length then (LockManager.release locker1 id).1
    else locker1
  handleFinishedLoop (voted2.length + 1)
    { fs with locker := locker2, voted := voted2 }

/-- `FileStorage::last_transaction`. -/
def FileStorage.last_transaction (fs : FileStorage) : Tid := fs.committed_tid

/-- `storage::testing::MAXTID`. -/
def MAXTID : Tid := [127, 255, 255, 255, 255, 255, 255, 255]

/-! ## Claim C2: pack with duplicate saves -/

/-- A Voting transaction in which OID `p64 10` was saved once (data
`[97]`, i.e. `"a"`) before OID `p64 11` was saved twice (last data
`[99, 99]`), then packed.  `needs_to_be_packed` is set by the duplicate
save. -/
def dupPackedTrans : Except String Transaction := do
  let t0 := Transaction.begin (p64 1) [] [] []
  let t1 ← t0.save (p64 10) Z64 [97]
  let t2 ← t1.save (p64 11) Z64 [98, 98]
  let t3 ← t2.save (p64 11) Z64 [99, 99]
  let t4 ← t3.locked
  t4.pack

/-! ## Claims C1 and C3: commit, reopen, crash recovery -/

/-- A freshly opened storage in which one transaction saves OID `p64 3`
(data `"oooo" = [111,111,111,111]`, zero serial), locks, votes
(`stage`), and stops just before `tpc_finish`: the log now ends with a
voted (`PPPP`-marked) commit record. -/
def stagedStorage : Except (Oid ⊕ String) FileStorage := do
  let fs0 ← (FileStorage.open FileBytes.empty none).mapError Sum.inr
  let p := fs0.tpc_begin [] [] [] (beBytes 8 1)
  let t1 ← (p.2.save (p64 3) Z64 [111, 111, 111, 111]).mapError Sum.inr
  let q ← (p.1.lock t1).mapError Sum.inr
  let t2 ← t1.locked.mapError Sum.inr
  let r ← q.1.stage t2 (beBytes 8 2)
  pure r.1

/-- The same run continued through `tpc_finish`: the record's marker is
flipped to `TTTT` and the index updated. -/
def committedStorage : Except (Oid ⊕ String) FileStorage :=
  stagedStorage.map fun fs => fs.tpc_finish (beBytes 8 1)

/-! ## Claim C9: load_before with the all-zero TID -/

/-- The previous-chain invariant of the claim, rooted at one record: the
36-byte record header lies inside the file and its `previous` field is 0
or points to an earlier (smaller-position) record of the same OID that
again satisfies the invariant. -/
inductive ChainOk (f : FileBytes) : Nat → Prop where
  | last (pos : Nat) :
      pos + DATA_HEADER_SIZE ≤ f.size →
      (DataHeader.read f pos).previous = 0 →
      ChainOk f pos
  | prev (pos : Nat) :
      pos + DATA_HEADER_SIZE ≤ f.size →
      (DataHeader.read f pos).previous < pos →
      (DataHeader.read f ((DataHeader.read f pos).previous)).id =
        (DataHeader.read f pos).id →
      ChainOk f ((DataHeader.read f pos).previous) →
      ChainOk f pos

/-- A one-record storage for the C9 witness: OID `p64 9` at position 0
with TID `beBytes 8 7`, `previous = 0`. -/
def tinyFS : FileStorage :=
  { file := FileBytes.empty.writeAt 0
      (beBytes 4 4 ++ p64 9 ++ beBytes 8 7 ++ beBytes 8 0 ++ beBytes 8 0 ++
        [1, 2, 3, 4])
    index := [(p64 9, 0)]
    last_tid := Z64
    committed_tid := Z64
    locker := LockManager.new
    voted := []
    last_oid := 0 }

/-! ## Claim C5: conflict detection in stage -/

/-- `get_data` as a total function (the data bytes of `oid`'s record in
the transaction's temp file; `[]` when it fails). -/
def getDataD (t : Transaction) (oid : Oid) : List Nat :=
  match t.get_data oid with
  | .ok d => d
  | .error _ => []

/-- Every record of the transaction's local index lies within the temp
file. -/
def recordsInBounds (t : Transaction) : Prop :=
  ∀ o p, alGet t.index o = some p →
    p + DATA_HEADER_SIZE + readBE (readAt t.tdata.file p 4) ≤ t.tdata.file.length

/-- Records of distinct OIDs in the transaction's local index do not
overlap. -/
def recordsDisjoint (t : Transaction) : Prop :=
  ∀ o1 o2 p1 p2, o1 ≠ o2 →
    alGet t.index o1 = some p1 → alGet t.index o2 = some p2 →
    p1 + DATA_HEADER_SIZE + readBE (readAt t.tdata.file p1 4) ≤ p2 ∨
    p2 + DATA_HEADER_SIZE + readBE (readAt t.tdata.file p2 4) ≤ p1

/-- The conflict descriptors the claim expects: for every pair whose OID
the storage index maps to `pos`, a descriptor
(oid, serial, bytes at pos + 12, transaction data) exactly when the
committed TID at `pos + 12` differs from the serial. -/
def expectedConflicts (file : FileBytes) (ix : List (Oid × Nat))
    (t0 : Transaction) (pairs : List (Oid × Tid)) : List Conflict :=
  pairs.filterMap fun p =>
    match alGet ix p.1 with
    | some pos =>
      if file.readAt (pos + 12) 8 ≠ p.2 then
        some ⟨p.1, p.2, file.readAt (pos + 12) 8, getDataD t0 p.1⟩
      else none
    | none => none

/-- The conflict loop only rewrites `previous` fields, so the
transaction stays Voting with the same index, lengths, and per-record
length/data reads as the original `t0`. -/
def SimTo (t0 t : Transaction) : Prop :=
  t0.state = .Voting ∧ t.state = .Voting ∧ t.index = t0.index ∧
  t.tdata.length = t0.tdata.length ∧
  t.tdata.file.length = t0.tdata.file.length ∧
  ∀ o p, alGet t0.index o = some p →
    readAt t.tdata.file p 4 = readAt t0.tdata.file p 4 ∧
    readAt t.tdata.file (p + DATA_HEADER_SIZE)
        (readBE (readAt t0.tdata.file p 4)) =
      readAt t0.tdata.file (p + DATA_HEADER_SIZE)
        (readBE (readAt t0.tdata.file p 4))

/-- A small Voting transaction for the C5 witness: one save of OID
`p64 5` with data `[7, 7]`, then `locked`. -/
def c5t : Transaction :=
  (((Transaction.begin (p64 2) [] [] []).save (p64 5) Z64 [7, 7]).bind
    Transaction.locked).toOption.getD (Transaction.begin (p64 2) [] [] [])

/-! ## Claim C8: abort is effect-free on the log -/

/-- Begin, save one OID, lock (and flush via `locked`), then abort
without ever staging. -/
def abortAttempt (fs : FileStorage) (oid : Oid) (data : List Nat)
    (now1 : Tid) : Except String FileStorage := do
  let p := fs.tpc_begin [] [] [] now1
  let t1 ← p.2.save oid Z64 data
  let q ← p.1.lock t1
  let _ ← t1.locked
  pure (q.1.tpc_abort t1.id)

/-- The identical attempt carried through stage and finish. -/
def retryAttempt (fs : FileStorage) (oid : Oid) (data : List Nat)
    (now2 now3 : Tid) : Except (Oid ⊕ String) (FileStorage × List Conflict) := do
  let p := fs.tpc_begin [] [] [] now2
  let t1 ← (p.2.save oid Z64 data).mapError Sum.inr
  let q ← (p.1.lock t1).mapError Sum.inr
  let t2 ← t1.locked.mapError Sum.inr
  let r ← q.1.stage t2 now3
  pure (r.1.tpc_finish t1.id, r.2.2)

/-- The temp file of `Transaction::begin` with empty user/desc/ext. -/
def FbeginEmpty : List Nat :=
  PADDING_MARKER ++ List.replicate 16 0 ++ beBytes 4 0 ++ beBytes 2 0 ++
    beBytes 2 0 ++ beBytes 4 0 ++ [] ++ [] ++ []

/-- The temp file after one `save(oid, 0, data)`. -/
def c8file1 (oid : Oid) (data : List Nat) : List Nat :=
  FbeginEmpty ++ beBytes 4 data.length ++ oid ++ Z64 ++ leBytes 8 0 ++
    leBytes 8 32 ++ data

/-- The temp file after `pack` (trailer and header length written). -/
def c8packedFile (oid : Oid) (data : List Nat) : List Nat :=
  writeAt (writeAt (c8file1 oid data) (68 + data.length)
    (beBytes 8 (68 + data.length + 8))) 4 (beBytes 8 (68 + data.length + 8))

/-- The temp file after `save_tid tid 1` inside `Transaction::stage`. -/
def c8stagedFile (oid : Oid) (data : List Nat) (tid : Tid) : List Nat :=
  writeAt (writeAt (writeAt (c8packedFile oid data) 12 tid) 20 (beBytes 4 1))
    44 tid

/-- An empty freshly created storage used as the C8 witness input. -/
def c8fs : FileStorage := ⟨⟨0, fun _ => 0⟩, [], Z64, Z64, ⟨[], [], []⟩, [], 0⟩

/-- Client operations on the lock manager: `LockManager::lock` and
`LockManager::release`. -/
inductive LockOp where
  | lock (id : Tid) (want : List Oid)
  | release (id : Tid)
deriving Repr, DecidableEq

/-- One client operation. -/
def lockStep (lm : LockManager) : LockOp → LockManager × List LockEv
  | .lock id want => lm.lock id want
  | .release id => lm.release id

/-- A sequence of client operations, accumulating the event trace. -/
def lockRun : LockManager → List LockOp → LockManager × List LockEv
  | lm, [] => (lm, [])
  | lm, op :: ops =>
    ((lockRun (lockStep lm op).1 ops).1,
     (lockStep lm op).2 ++ (lockRun (lockStep lm op).1 ops).2)

/-- Client discipline for one operation: `lock` only with a fresh TID
(no current `Locking` entry and never granted) and distinct OIDs, and
`release` only for a TID whose request was fully granted (or that is
unknown) — the storage releases a transaction's locks after its commit
callback ran. -/
def okStep (lm : LockManager) (tr : List LockEv) : LockOp → Bool
  | .lock id want =>
    decide (alGet lm.locking id = none) && decide (LockEv.granted id ∉ tr) &&
      decide want.Nodup
  | .release id =>
    match alGet lm.locking id with
    | none => true
    | some lk => decide (lk.want = [])

/-- Client discipline along a whole operation sequence. -/
def okOps : LockManager → List LockEv → List LockOp → Bool
  | _, _, [] => true
  | lm, tr, op :: ops =>
    okStep lm tr op &&
      okOps (lockStep lm op).1 (tr ++ (lockStep lm op).2) ops

/-- State invariant of the lock manager, established by
`LockManager::new` and preserved by disciplined `lock`/`release` calls:
the waiter queues hold distinct currently-locking TIDs whose pending
`want` ends at the queue's OID, and the held-OID sets `got` are disjoint
across transactions and live inside `locks`. -/
structure LockInv (lm : LockManager) : Prop where
  locksNodup : lm.locks.Nodup
  waitKeys : (lm.waiting.map Prod.fst).Nodup
  lockKeys : (lm.locking.map Prod.fst).Nodup
  idOk : ∀ t lk, alGet lm.locking t = some lk → lk.id = t
  queueEntry : ∀ x q t, alGet lm.waiting x = some q → t ∈ q →
    ∃ lk, alGet lm.locking t = some lk ∧ lk.want.getLast? = some x
  queueNodup : ∀ x q, alGet lm.waiting x = some q → q.Nodup
  queueDisj : ∀ x y qx qy, alGet lm.waiting x = some qx →
    alGet lm.waiting y = some qy → x ≠ y → ∀ t, t ∈ qx → t ∉ qy
  gotSub : ∀ t lk, alGet lm.locking t = some lk → ∀ z ∈ lk.got, z ∈ lm.locks
  gotNodup : ∀ t lk, alGet lm.locking t = some lk → lk.got.Nodup
  gotDisj : ∀ t1 t2 lk1 lk2, alGet lm.locking t1 = some lk1 →
    alGet lm.locking t2 = some lk2 → t1 ≠ t2 → ∀ z ∈ lk1.got, z ∉ lk2.got
  wantNodup : ∀ t lk, alGet lm.locking t = some lk → lk.want.Nodup
  wantGotDisj : ∀ t lk, alGet lm.locking t = some lk → ∀ z ∈ lk.want, z ∉ lk.got

/-- Relation between the lock-manager state and the trace of events that
produced it: each TID's `locked` callback fired at most once, fired
already if its request is fully granted, and not yet if it is still
waiting. -/
structure TraceInv (lm : LockManager) (tr : List LockEv) : Prop where
  count_le : ∀ t, tr.count (.granted t) ≤ 1
  pending : ∀ t lk, alGet lm.locking t = some lk → lk.want ≠ [] →
    LockEv.granted t ∉ tr
  done : ∀ t lk, alGet lm.locking t = some lk → lk.want = [] →
    LockEv.granted t ∈ tr

/-- How a `Locking` entry evolves while it waits: a suffix of `want` is
moved, reversed, onto the end of `got`; the requested OID set
`want ∪ got` never changes. -/
def EntryEvolved (lk lk' : Locking) : Prop :=
  lk'.id = lk.id ∧ ∃ neu, lk.want = lk'.want ++ neu ∧
    lk'.got = lk.got ++ neu.reverse

/-- Transaction `A` is served before `B` on OID `x`: either both wait in
`x`'s queue with `A` strictly ahead, or `A` already holds `x` (it was
dequeued first) while still waiting for the rest of its OIDs, and `B`
waits in `x`'s queue. -/
def Rel (lm : LockManager) (x : Oid) (A B : Tid) : Prop :=
  ∃ q, alGet lm.waiting x = some q ∧ B ∈ q ∧ A ≠ B ∧
    ((∃ l1 l2 l3, q = l1 ++ A :: l2 ++ B :: l3) ∨
     (∃ lk, alGet lm.locking A = some lk ∧ lk.want ≠ [] ∧ x ∈ lk.got))

/-- `z` is held by no transaction. -/
def GotFree (lm : LockManager) (z : Oid) : Prop :=
  ∀ t lk, alGet lm.locking t = some lk → z ∉ lk.got

/-- The scenario of `lock.rs`'s own test, reduced to one OID: `[1]`
locks OID `[10]`, then `[2]` and `[3]` queue up on it in that order. -/
def c6setup : List LockOp :=
  [LockOp.lock [1] [[10]], LockOp.lock [2] [[10]], LockOp.lock [3] [[10]]]

/-- Releasing all three transactions in order. -/
def c6rels : List LockOp :=
  [LockOp.release [1], LockOp.release [2], LockOp.release [3]]

/-! ## Byte-level lemmas -/

theorem beBytes_length (w n : Nat) : (beBytes w n).length = w := by
  induction w generalizing n with
  | zero => rfl
  | succ w ih => simp [beBytes, ih]

theorem leBytes_length (w n : Nat) : (leBytes w n).length = w := by
  simp [leBytes, beBytes_length]

theorem beBytes_valid (w n : Nat) : validBytes (beBytes w n) := by
  induction w generalizing n with
  | zero => intro b hb; simp [beBytes] at hb
  | succ w ih =>
    intro b hb
    simp only [beBytes, List.mem_cons] at hb
    rcases hb with h | h
    · subst h; exact Nat.mod_lt _ (by norm_num)
    · exact ih n b h

theorem readBE_beBytes (w n : Nat) : readBE (beBytes w n) = n % 256 ^ w := by
  induction w generalizing n with
  | zero => simp [beBytes, readBE, Nat.mod_one]
  | succ w ih =>
    have expand : ∀ (a : Nat) (l : List Nat),
        List.foldl (fun acc b => acc * 256 + b) a l =
          a * 256 ^ l.length + List.foldl (fun acc b => acc * 256 + b) 0 l := by
      intro a l
      induction l generalizing a with
      | nil => simp
      | cons x xs ihl =>
        simp only [List.foldl_cons, List.length_cons]
        rw [ihl (a * 256 + x), ihl (0 * 256 + x)]
        ring
    simp only [beBytes, readBE, List.foldl_cons, Nat.zero_mul, Nat.zero_add]
    rw [expand (n / 256 ^ w % 256) (beBytes w n)]
    have hr := ih n
    simp only [readBE] at hr
    rw [hr, beBytes_length]
    have hsplit : n % 256 ^ (w + 1) = n % 256 ^ w + 256 ^ w * (n / 256 ^ w % 256) := by
      rw [pow_succ, Nat.mod_mul]
    rw [hsplit]
    ring

theorem readBE_cons (x : Nat) (xs : List Nat) :
    readBE (x :: xs) = x * 256 ^ xs.length + readBE xs := by
  have expand : ∀ (a : Nat) (l : List Nat),
      List.foldl (fun acc b => acc * 256 + b) a l =
        a * 256 ^ l.length + List.foldl (fun acc b => acc * 256 + b) 0 l := by
    intro a l
    induction l generalizing a with
    | nil => simp
    | cons y ys ihl =>
      simp only [List.foldl_cons, List.length_cons]
      rw [ihl (a * 256 + y), ihl (0 * 256 + y)]
      ring
  simp only [readBE, List.foldl_cons, Nat.zero_mul, Nat.zero_add]
  exact expand x xs

theorem readBE_lt (a : List Nat) (h : validBytes a) :
    readBE a < 256 ^ a.length := by
  induction a with
  | nil => simp [readBE]
  | cons x xs ih =>
    have hx : x < 256 := h x (List.mem_cons_self x xs)
    have hxs : readBE xs < 256 ^ xs.length :=
      ih (fun b hb => h b (List.mem_cons_of_mem x hb))
    rw [readBE_cons]
    calc x * 256 ^ xs.length + readBE xs
        < x * 256 ^ xs.length + 256 ^ xs.length := by omega
      _ = (x + 1) * 256 ^ xs.length := by ring
      _ ≤ 256 * 256 ^ xs.length := by
          exact Nat.mul_le_mul_right _ (by omega)
      _ = 256 ^ (x :: xs).length := by rw [List.length_cons, pow_succ]; ring

theorem beBytes_add_mul (w x m : Nat) :
    beBytes w (x * 256 ^ w + m) = beBytes w m := by
  induction w generalizing x m with
  | zero => rfl
  | succ w ih =>
    simp only [beBytes]
    have h1 : x * 256 ^ (w + 1) + m = (x * 256) * 256 ^ w + m := by ring
    have hhead : (x * 256 ^ (w + 1) + m) / 256 ^ w % 256 = m / 256 ^ w % 256 := by
      rw [h1, Nat.add_comm,
          Nat.add_mul_div_right _ _ (pow_pos (by norm_num : (0:ℕ) < 256) w),
          Nat.add_mul_mod_self_right]
    have htail : beBytes w (x * 256 ^ (w + 1) + m) = beBytes w m := by
      rw [h1, ih]
    rw [hhead, htail]

theorem beBytes_readBE (a : List Nat) (h : validBytes a) :
    beBytes a.length (readBE a) = a := by
  induction a with
  | nil => rfl
  | cons x xs ih =>
    have hx : x < 256 := h x (List.mem_cons_self x xs)
    have hv : validBytes xs := fun b hb => h b (List.mem_cons_of_mem x hb)
    have hxs : readBE xs < 256 ^ xs.length := readBE_lt xs hv
    simp only [List.length_cons, beBytes, readBE_cons]
    have hhead : (x * 256 ^ xs.length + readBE xs) / 256 ^ xs.length % 256 = x := by
      rw [Nat.add_comm,
          Nat.add_mul_div_right _ _ (pow_pos (by norm_num : (0:ℕ) < 256) xs.length),
          Nat.div_eq_of_lt hxs, Nat.zero_add, Nat.mod_eq_of_lt hx]
    rw [hhead, beBytes_add_mul, ih hv]

theorem digit_lt_aux (B x y u v : Nat) (hx : x < B) (hu : u < v) :
    x + B * u < y + B * v :=
  calc x + B * u < B + B * u := by omega
    _ = B * (u + 1) := by ring
    _ ≤ B * v := Nat.mul_le_mul_left B hu
    _ ≤ y + B * v := Nat.le_add_left _ _

theorem lexLt_beBytes (w a b : Nat) :
    lexLt (beBytes w a) (beBytes w b) = decide (a % 256 ^ w < b % 256 ^ w) := by
  induction w generalizing a b with
  | zero => simp [beBytes, lexLt, Nat.mod_one]
  | succ w ih =>
    have ha : a % 256 ^ (w + 1) = a % 256 ^ w + 256 ^ w * (a / 256 ^ w % 256) := by
      rw [pow_succ, Nat.mod_mul]
    have hb : b % 256 ^ (w + 1) = b % 256 ^ w + 256 ^ w * (b / 256 ^ w % 256) := by
      rw [pow_succ, Nat.mod_mul]
    have ham : a % 256 ^ w < 256 ^ w := Nat.mod_lt _ (pow_pos (by norm_num) w)
    have hbm : b % 256 ^ w < 256 ^ w := Nat.mod_lt _ (pow_pos (by norm_num) w)
    simp only [beBytes, lexLt, ih]
    split_ifs with h1 h2
    · symm
      rw [decide_eq_true_eq, ha, hb]
      exact digit_lt_aux _ _ _ _ _ ham h1
    · symm
      rw [decide_eq_false_iff_not, ha, hb]
      exact Nat.not_lt.mpr (Nat.le_of_lt (digit_lt_aux _ _ _ _ _ hbm h2))
    · have heq : a / 256 ^ w % 256 = b / 256 ^ w % 256 := by omega
      rw [ha, hb, heq, decide_eq_decide]
      omega

theorem lexLt_eq_readBE (a b : List Nat) (ha : validBytes a) (hb : validBytes b)
    (hl : a.length = b.length) :
    lexLt a b = decide (readBE a < readBE b) := by
  conv_lhs => rw [← beBytes_readBE a ha, ← beBytes_readBE b hb, hl]
  rw [lexLt_beBytes]
  have h1 : readBE a < 256 ^ b.length := hl ▸ readBE_lt a ha
  have h2 : readBE b < 256 ^ b.length := readBE_lt b hb
  rw [Nat.mod_eq_of_lt h1, Nat.mod_eq_of_lt h2]

theorem lexLt_zeros (a : List Nat) :
    lexLt a (List.replicate a.length 0) = false := by
  induction a with
  | nil => rfl
  | cons x xs ih =>
    simp only [List.length_cons, List.replicate, lexLt]
    split_ifs with h1 h2
    · omega
    · rfl
    · exact ih

/-- C4: the claim asserts that the 8-byte encoding `p64` is order-preserving
under lexicographic byte comparison.  The source writes the integer with
`LittleEndian::write_u64`, so it is not: `1 < 256`, yet `p64 256` is
lexicographically below `p64 1`.  This theorem evaluates the code at that
failing input. -/
theorem p64_little_endian_breaks_lex_order :
    p64 1 = [1, 0, 0, 0, 0, 0, 0, 0] ∧
    p64 256 = [0, 1, 0, 0, 0, 0, 0, 0] ∧
    lexLt (p64 1) (p64 256) = false ∧
    lexLt (p64 256) (p64 1) = true := by decide

/-- C7 counterexample: at `last = 0xFFFFFFFFFFFFFFFF` the big-endian
increment in `tid::next` wraps to zero, so `later_than` does not return a
TID strictly greater than `last`. -/
theorem later_than_wraps_at_max :
    later_than Z64 (List.replicate 8 255) = Z64 ∧
    lexLt (List.replicate 8 255) (later_than Z64 (List.replicate 8 255)) = false := by
  decide

/-- C7 (amended): for 8-byte TIDs with `last` strictly below the maximal
64-bit value, `later_than(candidate, last)` returns `candidate` when it is
numerically (big-endian) greater than `last` and otherwise the big-endian
increment of `last`; in both cases the result is lexicographically strictly
greater than `last`, so `new_tid` returns a TID strictly greater than the
previous one. -/
theorem later_than_spec (cand last : Tid)
    (hcv : validBytes cand) (hcl : cand.length = 8)
    (hlv : validBytes last) (hll : last.length = 8)
    (hmax : readBE last + 1 < 2 ^ 64) :
    (later_than cand last =
      if readBE last < readBE cand then cand else beBytes 8 (readBE last + 1)) ∧
    lexLt last (later_than cand last) = true ∧
    lexLt last (new_tid cand last) = true := by
  have hgt : lexGt cand last = decide (readBE last < readBE cand) := by
    unfold lexGt
    rw [lexLt_eq_readBE last cand hlv hcv (by rw [hcl, hll])]
  have h64 : (256 : ℕ) ^ 8 = 2 ^ 64 := by norm_num
  have hnext : next last = beBytes 8 (readBE last + 1) := by
    unfold next
    rw [Nat.mod_eq_of_lt hmax]
  by_cases h : readBE last < readBE cand
  · have hlater : later_than cand last = cand := by
      unfold later_than
      rw [hgt, decide_eq_true h]
      rfl
    have hlex : lexLt last cand = true := by
      rw [lexLt_eq_readBE last cand hlv hcv (by rw [hcl, hll]), decide_eq_true h]
    refine ⟨?_, ?_, ?_⟩
    · rw [hlater, if_pos h]
    · rw [hlater]; exact hlex
    · show lexLt last (later_than cand last) = true
      rw [hlater]; exact hlex
  · have hlater : later_than cand last = beBytes 8 (readBE last + 1) := by
      unfold later_than
      rw [hgt, decide_eq_false h, hnext]
      rfl
    have hlex : lexLt last (beBytes 8 (readBE last + 1)) = true := by
      rw [lexLt_eq_readBE last _ hlv (beBytes_valid 8 _)
            (by rw [hll, beBytes_length])]
      rw [readBE_beBytes, h64, Nat.mod_eq_of_lt hmax]
      exact decide_eq_true (Nat.lt_succ_self _)
    refine ⟨?_, ?_, ?_⟩
    · rw [hlater, if_neg h]
    · rw [hlater]; exact hlex
    · show lexLt last (later_than cand last) = true
      rw [hlater]; exact hlex

/-- Witness for `later_than_spec` at candidate 5, last 3. -/
theorem later_than_spec_witness :
    (later_than (beBytes 8 5) (beBytes 8 3) =
      if readBE (beBytes 8 3) < readBE (beBytes 8 5) then beBytes 8 5
      else beBytes 8 (readBE (beBytes 8 3) + 1)) ∧
    lexLt (beBytes 8 3) (later_than (beBytes 8 5) (beBytes 8 3)) = true ∧
    lexLt (beBytes 8 3) (new_tid (beBytes 8 5) (beBytes 8 3)) = true :=
  later_than_spec (beBytes 8 5) (beBytes 8 3) (beBytes_valid 8 5) (by decide)
    (beBytes_valid 8 3) (by decide) (by decide)

/-- C10: releasing a TID with no `Locking` entry leaves the whole
lock-manager state (held locks, waiter queues, locking map) unchanged and
fires no callback. -/
theorem release_unknown_tid_noop (lm : LockManager) (id : Tid)
    (h : alGet lm.locking id = none) :
    lm.release id = (lm, []) := by
  unfold LockManager.release
  rw [h]

/-- Witness for `release_unknown_tid_noop`: a state holding locks for
another transaction, released under an unknown TID. -/
theorem release_unknown_tid_noop_witness :
    LockManager.release
      ⟨[p64 7], [(p64 7, [p64 2])], [(p64 1, ⟨p64 1, [], [p64 7]⟩)]⟩
      (p64 3) =
    (⟨[p64 7], [(p64 7, [p64 2])], [(p64 1, ⟨p64 1, [], [p64 7]⟩)]⟩, []) :=
  release_unknown_tid_noop _ (p64 3) (by decide)

/-- C2: evaluated at a transaction that saved OID `p64 10` once (data
`[97]`) and OID `p64 11` twice, `pack` does not keep the latest revision
of every OID: because `wpos` is not advanced past a live record that is
already in place, the live record of `p64 11` is copied over the record
of `p64 10`, whose data is lost — `get_data (p64 10)` afterwards returns
`[99, 99]`, not `[97]`, and both local-index entries point at the same
offset 32. -/
theorem pack_loses_first_live_record :
    (dupPackedTrans.map fun t => t.tdata.needs_to_be_packed) = .ok true ∧
    (dupPackedTrans.bind fun t => t.get_data (p64 10)) = .ok [99, 99] ∧
    (dupPackedTrans.bind fun t => t.get_data (p64 11)) = .ok [99, 99] ∧
    (dupPackedTrans.map fun t => alGet t.index (p64 10)) = .ok (some 32) ∧
    (dupPackedTrans.map fun t => alGet t.index (p64 11)) = .ok (some 32) ∧
    (dupPackedTrans.map fun t => t.tdata.length) = .ok 70 :=
  ⟨rfl, rfl, rfl, rfl, rfl, rfl⟩

/-- C1: after committing a transaction through
tpc_begin/save/lock/stage/tpc_finish, the data is loadable
(`load_before` returns it) and the commit record is `TTTT`-marked; but
calling `open` again on the resulting log bytes (no sidecar present, and
none is ever written) does not succeed: the recovery scan's redundant
trailing-length check reads the trailer with the little-endian
`util::read_u64` while `pack` wrote it big-endian, so the `assert_eq!`
fails and `open` panics instead of reproducing the `load_before`
results. -/
theorem reopen_after_commit_fails :
    (committedStorage.map fun fs => fs.load_before (p64 3) MAXTID) =
      .ok (some (.Loaded [111, 111, 111, 111] (beBytes 8 2) none)) ∧
    (committedStorage.map fun fs => fs.file.readAt HEADER_SIZE 4) =
      .ok TRANSACTION_MARKER ∧
    (committedStorage.bind fun fs =>
      (FileStorage.open fs.file none).mapError Sum.inr) =
    .error (.inr "assert failed: trailing length") := ⟨rfl, rfl, rfl⟩

/-- C3: a transaction whose record was appended under the `PPPP` marker
and never flipped (voted, no `tpc_finish`) is invisible before reopen
(`load_before` returns `PosKeyError`), but `open` on that log does not
succeed as the claim states: after consuming the `PPPP` record's
`total_length` bytes the recovery scan's trailing-length `assert_eq!`
reads little-endian against the big-endian trailer and panics. -/
theorem crash_recovery_scan_fails :
    (stagedStorage.map fun fs => fs.file.readAt HEADER_SIZE 4) =
      .ok PADDING_MARKER ∧
    (stagedStorage.map fun fs => fs.load_before (p64 3) MAXTID) =
      .ok (some .PosKeyError) ∧
    (stagedStorage.map fun fs => fs.file.size) = .ok 4176 ∧
    (stagedStorage.bind fun fs =>
      (FileStorage.open fs.file none).mapError Sum.inr) =
    .error (.inr "assert failed: trailing length") := ⟨rfl, rfl, rfl, rfl⟩

theorem readAt_length (f : FileBytes) (pos n : Nat) (h : pos + n ≤ f.size) :
    (f.readAt pos n).length = n := by
  simp only [FileBytes.readAt, List.length_map, List.length_range]
  omega

theorem lexGe_tid_zero (f : FileBytes) (pos : Nat)
    (h : pos + DATA_HEADER_SIZE ≤ f.size) :
    lexGe (DataHeader.read f pos).tid Z64 = true := by
  have hlen : (DataHeader.read f pos).tid.length = 8 := by
    apply readAt_length
    simp only [DATA_HEADER_SIZE] at h
    omega
  have hz : Z64 = List.replicate (DataHeader.read f pos).tid.length 0 := by
    rw [hlen]; rfl
  unfold lexGe
  rw [hz, lexLt_zeros]
  rfl

theorem loadBeforeWalk_zero_tid (f : FileBytes) (pos : Nat)
    (h : ChainOk f pos) :
    ∀ fuel nx, pos < fuel →
      loadBeforeWalk f Z64 fuel pos nx = some .NoneBefore := by
  induction h with
  | last pos hb hprev =>
    intro fuel nx hf
    match fuel with
    | fuel + 1 =>
      simp only [loadBeforeWalk, lexGe_tid_zero f pos hb, if_true, hprev]
  | prev pos hb hlt _hid _hchain ih =>
    intro fuel nx hf
    match fuel with
    | fuel + 1 =>
      simp only [loadBeforeWalk, lexGe_tid_zero f pos hb, if_true]
      by_cases hzero : (DataHeader.read f pos).previous = 0
      · simp [hzero]
      · simp only [hzero, if_false]
        exact ih fuel _ (by omega)

/-- C9: under the previous-chain invariant, `load_before(oid, 0)` never
returns `Loaded`: it is `PosKeyError` when the OID is absent from the
index and `NoneBefore` when present, because every record's 8-byte TID
is byte-wise ≥ the all-zero TID so the walk only stops at a record with
`previous = 0`. -/
theorem load_before_zero_tid (fs : FileStorage) (oid : Oid)
    (hchain : ∀ pos, alGet fs.index oid = some pos → ChainOk fs.file pos) :
    (alGet fs.index oid = none →
      fs.load_before oid Z64 = some .PosKeyError) ∧
    (∀ pos, alGet fs.index oid = some pos →
      fs.load_before oid Z64 = some .NoneBefore) ∧
    ∀ d t nx, fs.load_before oid Z64 ≠ some (.Loaded d t nx) := by
  refine ⟨?_, ?_, ?_⟩
  · intro hnone
    unfold FileStorage.load_before
    rw [hnone]
  · intro pos hsome
    unfold FileStorage.load_before
    rw [hsome]
    exact loadBeforeWalk_zero_tid fs.file pos (hchain pos hsome) (pos + 1) none
      (Nat.lt_succ_self pos)
  · intro d t nx
    unfold FileStorage.load_before
    cases hidx : alGet fs.index oid with
    | none => simp
    | some pos =>
      simp only
      rw [loadBeforeWalk_zero_tid fs.file pos (hchain pos hidx) (pos + 1) none
        (Nat.lt_succ_self pos)]
      simp

/-- Witness for `load_before_zero_tid` on `tinyFS`. -/
theorem load_before_zero_tid_witness :
    tinyFS.load_before (p64 9) Z64 = some .NoneBefore := by
  have hchain : ∀ pos, alGet tinyFS.index (p64 9) = some pos →
      ChainOk tinyFS.file pos := by
    intro pos hp
    have hp0 : pos = 0 := by
      simp [tinyFS, alGet] at hp
      omega
    subst hp0
    exact ChainOk.last 0 (by decide) (by decide)
  exact (load_before_zero_tid tinyFS (p64 9) hchain).2.1 0 (by decide)

/-! ## Pointwise lemmas about the list-level byte operations -/

theorem length_writeAt (f : List Nat) (pos : Nat) (d : List Nat) :
    (writeAt f pos d).length = max f.length (pos + d.length) := by
  simp [writeAt]
  omega

theorem readAt_get? (f : List Nat) (pos n j : Nat) :
    (readAt f pos n)[j]? = if j < n then f[pos + j]? else none := by
  simp [readAt, List.getElem?_take, List.getElem?_drop]

theorem writeAt_get? (f : List Nat) (pos : Nat) (d : List Nat) (i : Nat) :
    (writeAt f pos d)[i]? =
      if pos ≤ i ∧ i < pos + d.length then d[i - pos]?
      else if i < pos ∧ f.length ≤ i then some 0
      else f[i]? := by
  have hlenA : (f.take pos ++ List.replicate (pos - f.length) 0).length =
      min pos f.length + (pos - f.length) := by
    simp
  unfold writeAt
  rw [show f.take pos ++ List.replicate (pos - f.length) 0 ++ d ++
        f.drop (pos + d.length) =
      (f.take pos ++ List.replicate (pos - f.length) 0) ++
        (d ++ f.drop (pos + d.length)) from by simp]
  by_cases hi : i < min pos f.length + (pos - f.length)
  · rw [List.getElem?_append_left (by rw [hlenA]; exact hi)]
    by_cases hf : i < f.length
    · have hip : i < pos := by omega
      rw [List.getElem?_append_left (by simp; omega),
          List.getElem?_take]
      simp only [hip, if_true]
      have h1 : ¬(pos ≤ i ∧ i < pos + d.length) := by omega
      have h2 : ¬ f.length ≤ i := by omega
      simp only [h1, if_false, h2, and_false, if_false]
    · rw [List.getElem?_append_right (by simp; omega)]
      rw [List.getElem?_replicate]
      have h1 : ¬(pos ≤ i ∧ i < pos + d.length) := by omega
      have h2 : i < pos ∧ f.length ≤ i := by omega
      have h3 : i - (f.take pos).length < pos - f.length := by simp; omega
      rw [if_pos h3, if_neg h1, if_pos h2]
  · rw [List.getElem?_append_right (by rw [hlenA]; omega)]
    rw [hlenA]
    by_cases hd : i - (min pos f.length + (pos - f.length)) < d.length
    · rw [List.getElem?_append_left hd]
      have h1 : pos ≤ i ∧ i < pos + d.length := by omega
      have h2 : i - (min pos f.length + (pos - f.length)) = i - pos := by omega
      simp only [h1, and_self, if_true, h2]
    · rw [List.getElem?_append_right (by omega), List.getElem?_drop]
      have h1 : ¬(pos ≤ i ∧ i < pos + d.length) := by omega
      have h2 : ¬(i < pos ∧ f.length ≤ i) := by omega
      have h3 : pos + d.length + (i - (min pos f.length + (pos - f.length)) - d.length) = i := by
        omega
      simp only [h1, if_false, h2, h3]

theorem readAt_congr_region (f g : List Nat) (pos n : Nat)
    (h : ∀ j, j < n → f[pos + j]? = g[pos + j]?) :
    readAt f pos n = readAt g pos n := by
  apply List.ext_getElem?
  intro j
  rw [readAt_get?, readAt_get?]
  split_ifs with hj
  · exact h j hj
  · rfl

theorem readAt_writeAt_before (f : List Nat) (wpos : Nat) (d : List Nat)
    (rpos n : Nat) (h1 : rpos + n ≤ wpos) (h2 : rpos + n ≤ f.length) :
    readAt (writeAt f wpos d) rpos n = readAt f rpos n := by
  apply readAt_congr_region
  intro j hj
  rw [writeAt_get?]
  have hx : ¬(wpos ≤ rpos + j ∧ rpos + j < wpos + d.length) := by omega
  have hy : ¬(rpos + j < wpos ∧ f.length ≤ rpos + j) := by omega
  simp [hx, hy]

theorem readAt_writeAt_after (f : List Nat) (wpos : Nat) (d : List Nat)
    (rpos n : Nat) (h1 : wpos + d.length ≤ rpos) :
    readAt (writeAt f wpos d) rpos n = readAt f rpos n := by
  apply readAt_congr_region
  intro j hj
  rw [writeAt_get?]
  have hx : ¬(wpos ≤ rpos + j ∧ rpos + j < wpos + d.length) := by omega
  have hy : ¬(rpos + j < wpos ∧ f.length ≤ rpos + j) := by omega
  simp [hx, hy]

theorem readAt_writeAt_self (f : List Nat) (wpos : Nat) (d : List Nat) :
    readAt (writeAt f wpos d) wpos d.length = d := by
  apply List.ext_getElem?
  intro j
  rw [readAt_get?, writeAt_get?]
  by_cases hj : j < d.length
  · have hx : wpos ≤ wpos + j ∧ wpos + j < wpos + d.length := by omega
    have hz : wpos + j - wpos = j := by omega
    simp [hj, hx, hz]
  · have : d.length ≤ j := by omega
    simp [hj, List.getElem?_eq_none_iff.mpr this]

theorem SimTo.refl (t0 : Transaction) (h : t0.state = .Voting) : SimTo t0 t0 :=
  ⟨h, h, rfl, rfl, rfl, fun _ _ _ => ⟨rfl, rfl⟩⟩

theorem get_data_of_simTo (t0 t : Transaction) (hsim : SimTo t0 t) (o : Oid) :
    t.get_data o = t0.get_data o := by
  obtain ⟨hst0, hst, hix, _, _, hrd⟩ := hsim
  unfold Transaction.get_data
  rw [hst, hst0, hix]
  cases halg : alGet t0.index o with
  | none => rfl
  | some p =>
    obtain ⟨h4, hdata⟩ := hrd o p halg
    simp only [h4]
    by_cases hd : readBE (readAt t0.tdata.file p 4) > 0
    · rw [if_pos hd, if_pos hd, hdata]
    · rw [if_neg hd, if_neg hd]

theorem get_data_ok_of_some (t : Transaction) (hst : t.state = .Voting)
    (o : Oid) (p : Nat) (hp : alGet t.index o = some p) :
    t.get_data o = .ok (getDataD t o) := by
  have hmain : t.get_data o =
      if readBE (readAt t.tdata.file p 4) > 0 then
        .ok (readAt t.tdata.file (p + DATA_HEADER_SIZE)
          (readBE (readAt t.tdata.file p 4)))
      else .ok [] := by
    simp only [Transaction.get_data, hst, hp]
  unfold getDataD
  rw [hmain]
  split_ifs <;> rfl

theorem set_previous_simTo (t0 t : Transaction) (hsim : SimTo t0 t)
    (hB : recordsInBounds t0) (hD : recordsDisjoint t0)
    (oid : Oid) (q v : Nat) (hq : alGet t0.index oid = some q) :
    ∃ t2, t.set_previous oid v = .ok t2 ∧ SimTo t0 t2 := by
  obtain ⟨hst0, hst, hix, hlen, hflen, hrd⟩ := hsim
  have hqb := hB oid q hq
  have hwlen : (beBytes 8 v).length = 8 := beBytes_length 8 v
  refine ⟨{ t with tdata := { t.tdata with
      file := writeAt t.tdata.file (q + DATA_PREVIOUS_OFFSET) (beBytes 8 v) } },
    ?_, ?_⟩
  · simp only [Transaction.set_previous, hst, hix, hq]
  · refine ⟨hst0, hst, hix, hlen, ?_, ?_⟩
    · simp only [length_writeAt, hwlen, DATA_PREVIOUS_OFFSET]
      simp only [DATA_HEADER_SIZE] at hqb
      omega
    · intro o p hp
      obtain ⟨h4, hdata⟩ := hrd o p hp
      have hpb := hB o p hp
      simp only [DATA_HEADER_SIZE] at hqb hpb hdata ⊢
      simp only [DATA_PREVIOUS_OFFSET]
      by_cases ho : o = oid
      · subst ho
        have hpq : p = q := by rw [hp] at hq; injection hq
        subst hpq
        constructor
        · rw [readAt_writeAt_before _ _ _ _ _ (by omega) (by omega), h4]
        · rw [readAt_writeAt_after _ _ _ _ _ (by rw [hwlen]; omega), hdata]
      · rcases hD o oid p q ho hp hq with hcase | hcase
        all_goals simp only [DATA_HEADER_SIZE] at hcase
        · constructor
          · rw [readAt_writeAt_before _ _ _ _ _ (by omega) (by omega), h4]
          · rw [readAt_writeAt_before _ _ _ _ _ (by omega) (by omega), hdata]
        · constructor
          · rw [readAt_writeAt_after _ _ _ _ _ (by rw [hwlen]; omega), h4]
          · rw [readAt_writeAt_after _ _ _ _ _ (by rw [hwlen]; omega), hdata]

theorem conflictLoop_nil (file : FileBytes) (t : Transaction)
    (acc : List Conflict) :
    conflictLoop file [] t acc = .ok (acc, t) := rfl

theorem conflictLoop_cons_none (file : FileBytes) (oid : Oid) (serial : Tid)
    (rest : List (Oid × Tid × Option Nat)) (t : Transaction)
    (conflicts : List Conflict) :
    conflictLoop file ((oid, serial, none) :: rest) t conflicts =
      if serial ≠ Z64 then .error (.inl oid)
      else conflictLoop file rest t conflicts := rfl

theorem conflictLoop_cons_some (file : FileBytes) (oid : Oid) (serial : Tid)
    (pos : Nat) (rest : List (Oid × Tid × Option Nat)) (t : Transaction)
    (conflicts : List Conflict) :
    conflictLoop file ((oid, serial, some pos) :: rest) t conflicts =
      (match
        (if file.readAt (pos + 12) 8 ≠ serial then
          match t.get_data oid with
          | .error e => Except.error (Sum.inr e)
          | .ok data =>
            Except.ok (conflicts ++
              [⟨oid, serial, file.readAt (pos + 12) 8, data⟩])
        else Except.ok conflicts) with
      | .error e => .error e
      | .ok conflicts2 =>
        match t.set_previous oid pos with
        | .error e => .error (.inr e)
        | .ok t2 => conflictLoop file rest t2 conflicts2) := rfl

theorem conflictLoop_ok (file : FileBytes) (ix : List (Oid × Nat))
    (t0 : Transaction) (hB : recordsInBounds t0) (hD : recordsDisjoint t0) :
    ∀ (pairs : List (Oid × Tid)) (t : Transaction) (acc : List Conflict),
      SimTo t0 t →
      (∀ p ∈ pairs, (alGet t0.index p.1).isSome) →
      (∀ p ∈ pairs, alGet ix p.1 = none → p.2 = Z64) →
      ∃ t', conflictLoop file (pairs.map fun p => (p.1, p.2, alGet ix p.1)) t acc =
          .ok (acc ++ expectedConflicts file ix t0 pairs, t') ∧ SimTo t0 t' := by
  intro pairs
  induction pairs with
  | nil =>
    intro t acc hsim _ _
    refine ⟨t, ?_, hsim⟩
    rw [show (([] : List (Oid × Tid)).map fun p => (p.1, p.2, alGet ix p.1)) =
      [] from rfl]
    rw [conflictLoop_nil]
    simp [expectedConflicts]
  | cons hd rest ih =>
    intro t acc hsim hidx hz
    obtain ⟨oid, serial⟩ := hd
    cases hix : alGet ix oid with
    | none =>
      have hser : serial = Z64 :=
        hz (oid, serial) (List.mem_cons_self _ _) hix
      have hexp : expectedConflicts file ix t0 ((oid, serial) :: rest) =
          expectedConflicts file ix t0 rest := by
        simp [expectedConflicts, hix]
      rw [hexp]
      simp only [List.map_cons, hix]
      rw [conflictLoop_cons_none, if_neg (by simp [hser])]
      exact ih t acc hsim (fun p hp => hidx p (List.mem_cons_of_mem _ hp))
        (fun p hp => hz p (List.mem_cons_of_mem _ hp))
    | some pos =>
      have hsome := hidx (oid, serial) (List.mem_cons_self _ _)
      obtain ⟨q, hq⟩ : ∃ q, alGet t0.index oid = some q := by
        cases halg : alGet t0.index oid with
        | none => rw [halg] at hsome; simp at hsome
        | some q => exact ⟨q, rfl⟩
      have hget : t.get_data oid = .ok (getDataD t0 oid) := by
        rw [get_data_of_simTo t0 t hsim oid]
        exact get_data_ok_of_some t0 hsim.1 oid q hq
      obtain ⟨t2, hsp, hsim2⟩ := set_previous_simTo t0 t hsim hB hD oid q pos hq
      simp only [List.map_cons, hix]
      rw [conflictLoop_cons_some]
      by_cases hcomm : file.readAt (pos + 12) 8 ≠ serial
      · have hexp : expectedConflicts file ix t0 ((oid, serial) :: rest) =
            ⟨oid, serial, file.readAt (pos + 12) 8, getDataD t0 oid⟩ ::
              expectedConflicts file ix t0 rest := by
          simp [expectedConflicts, hix, hcomm]
        rw [hexp]
        rw [if_pos hcomm]
        simp only [hget, hsp]
        obtain ⟨t', hrun, hsim'⟩ := ih t2
          (acc ++ [⟨oid, serial, file.readAt (pos + 12) 8, getDataD t0 oid⟩])
          hsim2 (fun p hp => hidx p (List.mem_cons_of_mem _ hp))
          (fun p hp => hz p (List.mem_cons_of_mem _ hp))
        refine ⟨t', ?_, hsim'⟩
        rw [hrun]
        simp
      · have hexp : expectedConflicts file ix t0 ((oid, serial) :: rest) =
            expectedConflicts file ix t0 rest := by
          simp only [expectedConflicts, List.filterMap_cons, hix]
          rw [if_neg hcomm]
        rw [hexp]
        rw [if_neg hcomm]
        simp only [hsp]
        exact ih t2 acc hsim2 (fun p hp => hidx p (List.mem_cons_of_mem _ hp))
          (fun p hp => hz p (List.mem_cons_of_mem _ hp))

theorem conflictLoop_err (file : FileBytes) (ix : List (Oid × Nat))
    (t0 : Transaction) (hB : recordsInBounds t0) (hD : recordsDisjoint t0) :
    ∀ (pairs : List (Oid × Tid)) (t : Transaction) (acc : List Conflict),
      SimTo t0 t →
      (∀ p ∈ pairs, (alGet t0.index p.1).isSome) →
      (∃ p ∈ pairs, alGet ix p.1 = none ∧ p.2 ≠ Z64) →
      ∃ oid, conflictLoop file (pairs.map fun p => (p.1, p.2, alGet ix p.1)) t acc =
          .error (.inl oid) ∧
        ∃ s, (oid, s) ∈ pairs ∧ alGet ix oid = none ∧ s ≠ Z64 := by
  intro pairs
  induction pairs with
  | nil =>
    intro t acc _ _ hbad
    obtain ⟨p, hp, _⟩ := hbad
    simp at hp
  | cons hd rest ih =>
    intro t acc hsim hidx hbad
    obtain ⟨oid, serial⟩ := hd
    cases hix : alGet ix oid with
    | none =>
      by_cases hser : serial = Z64
      · obtain ⟨oid', hrun, s, hmem, hnone, hs⟩ := by
          refine ih t acc hsim (fun p hp => hidx p (List.mem_cons_of_mem _ hp)) ?_
          obtain ⟨p, hp, h1, h2⟩ := hbad
          rcases List.mem_cons.mp hp with heq | hmem
          · exfalso; rw [heq] at h2; exact h2 hser
          · exact ⟨p, hmem, h1, h2⟩
        refine ⟨oid', ?_, s, List.mem_cons_of_mem _ hmem, hnone, hs⟩
        simp only [List.map_cons, hix]
        rw [conflictLoop_cons_none, if_neg (by simp [hser])]
        exact hrun
      · refine ⟨oid, ?_, serial, List.mem_cons_self _ _, hix, hser⟩
        simp only [List.map_cons, hix]
        rw [conflictLoop_cons_none, if_pos (by simp [hser])]
    | some pos =>
      have hsome := hidx (oid, serial) (List.mem_cons_self _ _)
      obtain ⟨q, hq⟩ : ∃ q, alGet t0.index oid = some q := by
        cases halg : alGet t0.index oid with
        | none => rw [halg] at hsome; simp at hsome
        | some q => exact ⟨q, rfl⟩
      have hget : t.get_data oid = .ok (getDataD t0 oid) := by
        rw [get_data_of_simTo t0 t hsim oid]
        exact get_data_ok_of_some t0 hsim.1 oid q hq
      obtain ⟨t2, hsp, hsim2⟩ := set_previous_simTo t0 t hsim hB hD oid q pos hq
      have hrest : ∃ p ∈ rest, alGet ix p.1 = none ∧ p.2 ≠ Z64 := by
        obtain ⟨p, hp, h1, h2⟩ := hbad
        rcases List.mem_cons.mp hp with heq | hmem
        · exfalso
          rw [heq] at h1
          simp only at h1
          rw [h1] at hix
          exact Option.noConfusion hix
        · exact ⟨p, hmem, h1, h2⟩
      simp only [List.map_cons, hix]
      rw [conflictLoop_cons_some]
      by_cases hcomm : file.readAt (pos + 12) 8 ≠ serial
      · rw [if_pos hcomm]
        simp only [hget, hsp]
        obtain ⟨oid', hrun, s, hmem, hnone, hs⟩ := ih t2
          (acc ++ [⟨oid, serial, file.readAt (pos + 12) 8, getDataD t0 oid⟩])
          hsim2 (fun p hp => hidx p (List.mem_cons_of_mem _ hp)) hrest
        exact ⟨oid', hrun, s, List.mem_cons_of_mem _ hmem, hnone, hs⟩
      · rw [if_neg hcomm]
        simp only [hsp]
        obtain ⟨oid', hrun, s, hmem, hnone, hs⟩ := ih t2 acc hsim2
          (fun p hp => hidx p (List.mem_cons_of_mem _ hp)) hrest
        exact ⟨oid', hrun, s, List.mem_cons_of_mem _ hmem, hnone, hs⟩

/-- C5: the conflict check of `FileStorage::stage`.  For every
(oid, serial) pair from the serials iterator: when the storage index
maps the OID to `pos`, the committed TID is the 8 bytes at `pos + 12`
and a conflict descriptor (oid, serial, committed, transaction data) is
appended exactly when it differs from the serial; when the index has no
entry, the check passes the OID exactly when the serial is all-zero and
otherwise stage stops with `POSError::Key(oid)`. -/
theorem stage_conflict_detection (file : FileBytes) (ix : List (Oid × Nat))
    (t0 : Transaction) (pairs : List (Oid × Tid))
    (hst : t0.state = .Voting) (hB : recordsInBounds t0)
    (hD : recordsDisjoint t0)
    (hidx : ∀ p ∈ pairs, (alGet t0.index p.1).isSome) :
    ((∀ p ∈ pairs, alGet ix p.1 = none → p.2 = Z64) →
      ∃ t', conflictLoop file (pairs.map fun p => (p.1, p.2, alGet ix p.1)) t0 [] =
          .ok (expectedConflicts file ix t0 pairs, t') ∧
        ∀ c ∈ expectedConflicts file ix t0 pairs,
          t0.get_data c.oid = .ok c.data) ∧
    ((∃ p ∈ pairs, alGet ix p.1 = none ∧ p.2 ≠ Z64) →
      ∃ oid, conflictLoop file (pairs.map fun p => (p.1, p.2, alGet ix p.1)) t0 [] =
          .error (.inl oid) ∧
        ∃ s, (oid, s) ∈ pairs ∧ alGet ix oid = none ∧ s ≠ Z64) := by
  constructor
  · intro hz
    obtain ⟨t', hrun, hsim'⟩ := conflictLoop_ok file ix t0 hB hD pairs t0 []
      (SimTo.refl t0 hst) hidx hz
    refine ⟨t', by simpa using hrun, ?_⟩
    intro c hc
    unfold expectedConflicts at hc
    obtain ⟨p, hp, hfc⟩ := List.mem_filterMap.mp hc
    have hsome := hidx p hp
    obtain ⟨q, hq⟩ : ∃ q, alGet t0.index p.1 = some q := by
      cases halg : alGet t0.index p.1 with
      | none => rw [halg] at hsome; simp at hsome
      | some q => exact ⟨q, rfl⟩
    cases hixp : alGet ix p.1 with
    | none => rw [hixp] at hfc; simp at hfc
    | some pos =>
      rw [hixp] at hfc
      have hfc' : (if file.readAt (pos + 12) 8 ≠ p.2 then
          some (⟨p.1, p.2, file.readAt (pos + 12) 8, getDataD t0 p.1⟩ : Conflict)
        else none) = some c := hfc
      by_cases hcomm : file.readAt (pos + 12) 8 ≠ p.2
      · rw [if_pos hcomm] at hfc'
        injection hfc' with hfc'
        have hc1 : c.oid = p.1 := by rw [← hfc']
        have hc2 : c.data = getDataD t0 p.1 := by rw [← hfc']
        rw [hc1, hc2]
        exact get_data_ok_of_some t0 hst p.1 q hq
      · rw [if_neg hcomm] at hfc'
        exact Option.noConfusion hfc'
  · intro hbad
    exact conflictLoop_err file ix t0 hB hD pairs t0 [] (SimTo.refl t0 hst)
      hidx hbad

/-- Witness for `stage_conflict_detection`: against `tinyFS`'s log
(committed TID `beBytes 8 7` at position 12) a zero serial for `p64 5`
yields exactly one conflict descriptor carrying the transaction's
data. -/
theorem stage_conflict_detection_witness :
    ∃ t', conflictLoop tinyFS.file
        ([(p64 5, Z64)].map fun p => (p.1, p.2, alGet [(p64 5, 0)] p.1)) c5t [] =
        .ok (expectedConflicts tinyFS.file [(p64 5, 0)] c5t [(p64 5, Z64)], t') ∧
      ∀ c ∈ expectedConflicts tinyFS.file [(p64 5, 0)] c5t [(p64 5, Z64)],
        c5t.get_data c.oid = .ok c.data := by
  have hB : recordsInBounds c5t := by
    intro o p h
    have hh : (if p64 5 = o then some 32 else none) = some p := h
    by_cases ho : p64 5 = o
    · rw [if_pos ho] at hh
      injection hh with hh
      subst hh
      decide
    · rw [if_neg ho] at hh
      exact Option.noConfusion hh
  have hD : recordsDisjoint c5t := by
    intro o1 o2 p1 p2 hne h1 h2
    have hh1 : (if p64 5 = o1 then some 32 else none) = some p1 := h1
    have hh2 : (if p64 5 = o2 then some 32 else none) = some p2 := h2
    by_cases ho1 : p64 5 = o1
    · by_cases ho2 : p64 5 = o2
      · exact absurd (ho1 ▸ ho2) hne
      · rw [if_neg ho2] at hh2
        exact Option.noConfusion hh2
    · rw [if_neg ho1] at hh1
      exact Option.noConfusion hh1
  have hidx : ∀ p ∈ [((p64 5 : Oid), Z64)], (alGet c5t.index p.1).isSome := by
    intro p hp
    rw [List.mem_singleton.mp hp]
    decide
  have hz : ∀ p ∈ [((p64 5 : Oid), Z64)],
      alGet [((p64 5 : Oid), 0)] p.1 = none → p.2 = Z64 := by
    intro p hp h
    rw [List.mem_singleton.mp hp] at h
    exact absurd h (by decide)
  exact (stage_conflict_detection tinyFS.file [(p64 5, 0)] c5t [(p64 5, Z64)]
    rfl hB hD hidx).1 hz

theorem serialsLoop_succ (file : List Nat) (index : List (Oid × Nat))
    (length pos fuel : Nat) :
    serialsLoop file index length pos (fuel + 1) =
      if pos < length then
        match alGet index (readAt file (pos + 4) 8) with
        | none => .error "index fail in transaction"
        | some p =>
          if p ≠ pos then
            serialsLoop file index length
              (pos + DATA_HEADER_SIZE + readBE (readAt file pos 4)) fuel
          else
            match serialsLoop file index length
                (pos + DATA_HEADER_SIZE + readBE (readAt file pos 4)) fuel with
            | .error e => .error e
            | .ok rest => .ok ((readAt file (pos + 4) 8, readAt file (pos + 12) 8) :: rest)
      else .ok [] := rfl

theorem saveTidLoop_succ (tid : Tid) (length fuel : Nat) (file : List Nat)
    (wpos : Nat) :
    saveTidLoop tid length (fuel + 1) file wpos =
      if wpos < length then
        saveTidLoop tid length fuel
          (writeAt file (wpos + DATA_TID_OFFSET) tid)
          (wpos + DATA_HEADER_SIZE + readBE (readAt file wpos 4))
      else file := by
  show saveTidLoop tid length (fuel + 1) file wpos = _
  rw [saveTidLoop]

theorem readAt_self (l : List Nat) : readAt l 0 l.length = l := by
  simp [readAt]

theorem readAt_append_left (a b : List Nat) (pos n : Nat)
    (h : pos + n ≤ a.length) :
    readAt (a ++ b) pos n = readAt a pos n := by
  apply List.ext_getElem?
  intro j
  rw [readAt_get?, readAt_get?]
  split_ifs with hj
  · exact List.getElem?_append_left (by omega)
  · rfl

theorem readAt_append_right (a b : List Nat) (pos n : Nat)
    (h : a.length ≤ pos) :
    readAt (a ++ b) pos n = readAt b (pos - a.length) n := by
  apply List.ext_getElem?
  intro j
  rw [readAt_get?, readAt_get?]
  split_ifs with hj
  · rw [List.getElem?_append_right (by omega)]
    congr 1
    omega
  · rfl

theorem alGet_btInsert_self (m : List (Oid × Nat)) (k : Oid) (v : Nat) :
    alGet (btInsert m k v) k = some v := by
  induction m with
  | nil => simp [btInsert, alGet]
  | cons hd rest ih =>
    obtain ⟨k', v'⟩ := hd
    unfold btInsert
    by_cases hlt : lexLt k k'
    · rw [if_pos hlt]
      simp [alGet]
    · rw [if_neg hlt]
      by_cases heq : k = k'
      · rw [if_pos heq]
        simp [alGet]
      · rw [if_neg heq]
        unfold alGet
        rw [if_neg (fun hk => heq hk.symm)]
        exact ih

theorem later_than_length (a b : Tid) (ha : a.length = 8) :
    (later_than a b).length = 8 := by
  unfold later_than
  split_ifs
  · exact ha
  · exact beBytes_length 8 _

theorem serialsLoop_at_end (file : List Nat) (ix : List (Oid × Nat))
    (length pos fuel : Nat) (h : length ≤ pos) (hf : 0 < fuel) :
    serialsLoop file ix length pos fuel = .ok [] := by
  match fuel with
  | 0 => omega
  | fuel + 1 =>
    rw [serialsLoop_succ, if_neg (by omega)]

theorem saveTidLoop_at_end (tid : Tid) (length fuel : Nat) (file : List Nat)
    (wpos : Nat) (h : length ≤ wpos) :
    saveTidLoop tid length fuel file wpos = file := by
  match fuel with
  | 0 => rfl
  | fuel + 1 =>
    rw [saveTidLoop_succ, if_neg (by omega)]

theorem c8_abort (fs : FileStorage) (oid : Oid) (data : List Nat) (now1 : Tid)
    (hlocker : fs.locker = ⟨[], [], []⟩) (hvoted : fs.voted = []) :
    abortAttempt fs oid data now1 =
      .ok { fs with last_tid := later_than now1 fs.last_tid } := by
  obtain ⟨file, index, last_tid, committed, locker, voted, last_oid⟩ := fs
  simp only [FileStorage.mk.injEq] at hlocker hvoted
  subst hlocker
  subst hvoted
  simp [abortAttempt, FileStorage.tpc_begin, Transaction.begin, Transaction.save,
    FileStorage.lock, Transaction.lock_data, Transaction.locked,
    FileStorage.tpc_abort, LockManager.lock, lock_waiting, acquireLoop,
    LockManager.release, releaseLoop, releaseOid, releaseOid.setRemoved,
    handleFinishedLoop,
    alGet, alInsert, alRemove, setInsert, setRemove, pushWaiter, btKeys,
    btInsert, bind, Except.bind, pure, Except.pure, List.erase_cons_head]

theorem c8file1_length (oid : Oid) (data : List Nat) (ho : oid.length = 8) :
    (c8file1 oid data).length = 68 + data.length := by
  have hF0 : FbeginEmpty.length = 32 := rfl
  simp [c8file1, hF0, beBytes_length, leBytes_length, ho, Z64]
  omega

theorem readAt_of_length_eq (l : List Nat) (n : Nat) (h : l.length = n) :
    readAt l 0 n = l := by
  subst h
  exact readAt_self l

theorem c8file1_dlen (oid : Oid) (data : List Nat) (ho : oid.length = 8)
    (hd : data.length < 2 ^ 32) :
    readBE (readAt (c8file1 oid data) 32 4) = data.length := by
  have hF0 : FbeginEmpty.length = 32 := rfl
  unfold c8file1
  rw [readAt_append_left _ _ _ _ (by simp [hF0, beBytes_length, leBytes_length, ho, Z64]; try omega)]
  rw [readAt_append_left _ _ _ _ (by simp [hF0, beBytes_length, leBytes_length, ho, Z64]; try omega)]
  rw [readAt_append_left _ _ _ _ (by simp [hF0, beBytes_length, leBytes_length, ho, Z64]; try omega)]
  rw [readAt_append_left _ _ _ _ (by simp [hF0, beBytes_length, leBytes_length, ho, Z64]; try omega)]
  rw [readAt_append_left _ _ _ _ (by simp [hF0, beBytes_length, ho]; try omega)]
  rw [readAt_append_right _ _ _ _ (by simp [hF0])]
  rw [hF0]
  rw [show (32 : Nat) - 32 = 0 from rfl]
  rw [readAt_of_length_eq _ _ (beBytes_length 4 _), readBE_beBytes]
  have h256 : (256 : Nat) ^ 4 = 2 ^ 32 := by norm_num
  rw [h256, Nat.mod_eq_of_lt hd]

theorem c8file1_oid (oid : Oid) (data : List Nat) (ho : oid.length = 8) :
    readAt (c8file1 oid data) 36 8 = oid := by
  have hF0 : FbeginEmpty.length = 32 := rfl
  unfold c8file1
  rw [readAt_append_left _ _ _ _ (by simp [hF0, beBytes_length, leBytes_length, ho, Z64]; try omega)]
  rw [readAt_append_left _ _ _ _ (by simp [hF0, beBytes_length, leBytes_length, ho, Z64]; try omega)]
  rw [readAt_append_left _ _ _ _ (by simp [hF0, beBytes_length, leBytes_length, ho, Z64]; try omega)]
  rw [readAt_append_left _ _ _ _ (by simp [hF0, beBytes_length, ho, Z64]; try omega)]
  rw [readAt_append_right _ _ _ _ (by simp [hF0, beBytes_length])]
  have h36 : (FbeginEmpty ++ beBytes 4 data.length).length = 36 := by
    simp [hF0, beBytes_length]
  rw [h36, show (36 : Nat) - 36 = 0 from rfl, readAt_of_length_eq _ _ ho]

theorem c8file1_serial (oid : Oid) (data : List Nat) (ho : oid.length = 8) :
    readAt (c8file1 oid data) 44 8 = Z64 := by
  have hF0 : FbeginEmpty.length = 32 := rfl
  unfold c8file1
  rw [readAt_append_left _ _ _ _ (by simp [hF0, beBytes_length, leBytes_length, ho, Z64]; try omega)]
  rw [readAt_append_left _ _ _ _ (by simp [hF0, beBytes_length, leBytes_length, ho, Z64]; try omega)]
  rw [readAt_append_left _ _ _ _ (by simp [hF0, beBytes_length, leBytes_length, ho, Z64]; try omega)]
  rw [readAt_append_right _ _ _ _ (by simp [hF0, beBytes_length, ho])]
  have h44 : (FbeginEmpty ++ beBytes 4 data.length ++ oid).length = 44 := by
    simp [hF0, beBytes_length, ho]
  rw [h44, show (44 : Nat) - 44 = 0 from rfl,
    readAt_of_length_eq _ _ (show (Z64 : List Nat).length = 8 from rfl)]

theorem c8_serials (tid : Tid) (oid : Oid) (data : List Nat)
    (ho : oid.length = 8) (hd : data.length < 2 ^ 32) :
    Transaction.serials
      ⟨tid, .Voting, ⟨c8file1 oid data, 68 + data.length, 32, false⟩,
        [(oid, 32)]⟩ = .ok [(oid, Z64)] := by
  show serialsLoop (c8file1 oid data) [(oid, 32)] (68 + data.length) 32
    (68 + data.length + 1) = .ok [(oid, Z64)]
  rw [serialsLoop_succ, if_pos (by omega)]
  rw [c8file1_oid oid data ho]
  rw [show alGet [((oid : Oid), 32)] oid = some 32 from by simp [alGet]]
  rw [c8file1_dlen oid data ho hd]
  simp only [DATA_HEADER_SIZE]
  rw [show 32 + 36 + data.length = 68 + data.length from by omega]
  rw [serialsLoop_at_end _ _ _ _ _ (by omega) (by omega)]
  rw [c8file1_serial oid data ho]
  simp

theorem c8_pack (tid : Tid) (oid : Oid) (data : List Nat) :
    Transaction.pack
      ⟨tid, .Voting, ⟨c8file1 oid data, 68 + data.length, 32, false⟩,
        [(oid, 32)]⟩ = .ok
      ⟨tid, .Voting, ⟨c8packedFile oid data, 68 + data.length, 32, false⟩,
        [(oid, 32)]⟩ := rfl

theorem c8stagedFile_length (oid : Oid) (data : List Nat) (tid2 : Tid)
    (ho : oid.length = 8) (ht : tid2.length = 8) :
    (c8stagedFile oid data tid2).length = 68 + data.length + 8 := by
  simp [c8stagedFile, c8packedFile, length_writeAt, beBytes_length, ht,
    c8file1_length oid data ho]
  omega

theorem c8_stage (tid tid2 : Tid) (oid : Oid) (data : List Nat)
    (out : FileBytes) (ho : oid.length = 8) (hd : data.length < 2 ^ 32)
    (ht : tid2.length = 8) :
    Transaction.stage
      ⟨tid, .Voting, ⟨c8packedFile oid data, 68 + data.length, 32, false⟩,
        [(oid, 32)]⟩ tid2 out =
    .ok (⟨tid, .Voted, ⟨[], 68 + data.length + 8, 32, false⟩, []⟩,
         [(oid, 32)], 68 + data.length + 8,
         out.writeAt out.size (c8stagedFile oid data tid2)) := by
  have hf1 : (c8file1 oid data).length = 68 + data.length :=
    c8file1_length oid data ho
  have hloop : saveTidLoop tid2 (68 + data.length) (68 + data.length + 1)
      (writeAt (writeAt (c8packedFile oid data) 12 tid2) 20 (beBytes 4 1)) 32 =
      c8stagedFile oid data tid2 := by
    rw [saveTidLoop_succ, if_pos (by omega)]
    have hdlen : readBE (readAt
        (writeAt (writeAt (c8packedFile oid data) 12 tid2) 20 (beBytes 4 1))
        32 4) = data.length := by
      rw [readAt_writeAt_after _ _ _ _ _ (by rw [beBytes_length]; omega)]
      rw [readAt_writeAt_after _ _ _ _ _ (by rw [ht]; omega)]
      unfold c8packedFile
      rw [readAt_writeAt_after _ _ _ _ _ (by rw [beBytes_length]; omega)]
      rw [readAt_writeAt_before _ _ _ _ _ (by omega) (by omega)]
      exact c8file1_dlen oid data ho hd
    rw [hdlen]
    simp only [DATA_HEADER_SIZE, DATA_TID_OFFSET]
    rw [show 32 + 36 + data.length = 68 + data.length from by omega]
    rw [saveTidLoop_at_end _ _ _ _ _ (by omega)]
    rfl
  simp only [Transaction.stage, TransData.save_tid]
  rw [show (([((oid : Oid), 32)] : List (Oid × Nat)).length : Nat) = 1 from rfl]
  rw [hloop]
  rw [if_pos (c8stagedFile_length oid data tid2 ho ht)]

set_option maxHeartbeats 1600000 in
theorem c8_retry (fs : FileStorage) (oid : Oid) (data : List Nat)
    (now2 now3 : Tid) (ho : oid.length = 8) (hd : data.length < 2 ^ 32)
    (hn3 : now3.length = 8) (hlocker : fs.locker = ⟨[], [], []⟩)
    (hvoted : fs.voted = []) (hindex : alGet fs.index oid = none) :
    ∃ fs2, retryAttempt fs oid data now2 now3 = .ok (fs2, []) ∧
      fs2.voted = [] ∧
      alGet fs2.index oid = some (32 + fs.file.size) ∧
      fs2.committed_tid = later_than now3 (later_than now2 fs.last_tid) := by
  obtain ⟨file, index, last_tid, committed, locker, voted, last_oid⟩ := fs
  simp only at hlocker hvoted hindex ⊢
  subst hlocker
  subst hvoted
  have hsave : (Transaction.begin (later_than now2 last_tid) [] [] []).save
      oid Z64 data =
      .ok ⟨later_than now2 last_tid, .Saving,
        ⟨c8file1 oid data, 68 + data.length, 32, false⟩, [(oid, 32)]⟩ := rfl
  have hlocked : Transaction.locked
      ⟨later_than now2 last_tid, .Saving,
        ⟨c8file1 oid data, 68 + data.length, 32, false⟩, [(oid, 32)]⟩ =
      .ok ⟨later_than now2 last_tid, .Voting,
        ⟨c8file1 oid data, 68 + data.length, 32, false⟩, [(oid, 32)]⟩ := rfl
  have ht2 : (later_than now3 (later_than now2 last_tid)).length = 8 :=
    later_than_length _ _ hn3
  have hser := c8_serials (later_than now2 last_tid) oid data ho hd
  have hpack := c8_pack (later_than now2 last_tid) oid data
  have hstage := c8_stage (later_than now2 last_tid)
    (later_than now3 (later_than now2 last_tid)) oid data file ho hd ht2
  refine ⟨⟨FileBytes.writeAt
        (file.writeAt file.size
          (c8stagedFile oid data (later_than now3 (later_than now2 last_tid))))
        file.size TRANSACTION_MARKER,
      btInsert index oid (32 + file.size),
      later_than now3 (later_than now2 last_tid),
      later_than now3 (later_than now2 last_tid),
      ⟨[], [], []⟩, [], last_oid⟩, ?_, ?_, ?_, ?_⟩
  · simp [retryAttempt, FileStorage.tpc_begin, hsave, hlocked, hser, hpack,
      hstage, hindex,
      FileStorage.lock, Transaction.lock_data, LockManager.lock, lock_waiting,
      acquireLoop, alGet, alInsert, alRemove, setInsert, setRemove, pushWaiter,
      btKeys, FileStorage.stage, conflictLoop, FileStorage.tpc_finish,
      markFinished, handleFinishedLoop, LockManager.release, releaseLoop,
      releaseOid, releaseOid.setRemoved, List.erase_cons_head,
      bind, Except.bind, pure, Except.pure, Except.mapError]
  · rfl
  · exact alGet_btInsert_self index oid (32 + file.size)
  · rfl

/-- C8: for a storage with no pending locks or votes, beginning a
transaction, saving one OID, acquiring its lock and then calling
`tpc_abort` succeeds, leaves the log file untouched and the lock manager
empty; an identical second begin/save/lock/stage/finish attempt then
succeeds with no conflicts, committing the record at the end of the log
under a fresh TID. -/
theorem abort_frame_and_retry (fs : FileStorage) (oid : Oid) (data : List Nat)
    (now1 now2 now3 : Tid) (ho : oid.length = 8) (hd : data.length < 2 ^ 32)
    (hn3 : now3.length = 8) (hlocker : fs.locker = ⟨[], [], []⟩)
    (hvoted : fs.voted = []) (hindex : alGet fs.index oid = none) :
    ∃ fs1, abortAttempt fs oid data now1 = .ok fs1 ∧
      fs1.file = fs.file ∧
      fs1.locker = ⟨[], [], []⟩ ∧
      ∃ fs2, retryAttempt fs1 oid data now2 now3 = .ok (fs2, []) ∧
        fs2.voted = [] ∧
        alGet fs2.index oid = some (32 + fs.file.size) ∧
        fs2.committed_tid = later_than now3 (later_than now2 fs1.last_tid) := by
  refine ⟨{ fs with last_tid := later_than now1 fs.last_tid },
    c8_abort fs oid data now1 hlocker hvoted, rfl, hlocker, ?_⟩
  exact c8_retry { fs with last_tid := later_than now1 fs.last_tid } oid data
    now2 now3 ho hd hn3 hlocker hvoted hindex

/-- C8 witness: the abort/retry theorem applied to the empty storage,
OID `p64 3`, data `"o"` and the zero clock. -/
theorem abort_frame_and_retry_witness :
    ([111] : List Nat).length < 2 ^ 32 ∧
    (∃ fs1, abortAttempt c8fs (p64 3) [111] Z64 = .ok fs1 ∧
      fs1.file = c8fs.file ∧
      fs1.locker = ⟨[], [], []⟩ ∧
      ∃ fs2, retryAttempt fs1 (p64 3) [111] Z64 Z64 = .ok (fs2, []) ∧
        fs2.voted = [] ∧
        alGet fs2.index (p64 3) = some (32 + c8fs.file.size) ∧
        fs2.committed_tid = later_than Z64 (later_than Z64 fs1.last_tid)) :=
  ⟨by norm_num,
   abort_frame_and_retry c8fs (p64 3) [111] Z64 Z64 Z64 rfl (by norm_num)
     rfl rfl rfl rfl⟩

/-! ## Claim C6: lock manager FIFO fairness and single grant -/

theorem alGet_alInsert {κ α : Type} [DecidableEq κ] (m : List (κ × α))
    (k k' : κ) (v : α) :
    alGet (alInsert m k v) k' = if k = k' then some v else alGet m k' := by
  induction m with
  | nil => simp [alInsert, alGet]
  | cons hd rest ih =>
    obtain ⟨a, b⟩ := hd
    by_cases hak : a = k
    · subst hak
      by_cases h : a = k' <;> simp [alInsert, alGet, h]
    · simp only [alInsert, if_neg hak, alGet]
      by_cases hak' : a = k'
      · subst hak'
        rw [if_pos rfl, if_pos rfl, if_neg (fun h => hak h.symm)]
      · rw [if_neg hak', if_neg hak', ih]

theorem alGet_alRemove_ne {κ α : Type} [DecidableEq κ] (m : List (κ × α))
    (k k' : κ) (h : k ≠ k') :
    alGet (alRemove m k) k' = alGet m k' := by
  induction m with
  | nil => simp [alRemove]
  | cons hd rest ih =>
    obtain ⟨a, b⟩ := hd
    by_cases hak : a = k
    · subst hak
      simp [alRemove, alGet, h]
    · simp only [alRemove, if_neg hak, alGet]
      by_cases hak' : a = k'
      · rw [if_pos hak', if_pos hak']
      · rw [if_neg hak', if_neg hak', ih]

theorem alGet_eq_none_of_not_mem_keys {κ α : Type} [DecidableEq κ]
    (m : List (κ × α)) (k : κ) (h : k ∉ m.map Prod.fst) :
    alGet m k = none := by
  induction m with
  | nil => rfl
  | cons hd rest ih =>
    obtain ⟨a, b⟩ := hd
    simp only [List.map, List.mem_cons] at h
    push_neg at h
    simp only [alGet, if_neg (fun hk : a = k => h.1 hk.symm), ih h.2]

theorem alGet_alRemove_self {κ α : Type} [DecidableEq κ] (m : List (κ × α))
    (k : κ) (h : (m.map Prod.fst).Nodup) :
    alGet (alRemove m k) k = none := by
  induction m with
  | nil => rfl
  | cons hd rest ih =>
    obtain ⟨a, b⟩ := hd
    simp only [List.map, List.nodup_cons] at h
    by_cases hak : a = k
    · subst hak
      simp only [alRemove, if_pos rfl]
      exact alGet_eq_none_of_not_mem_keys rest a h.1
    · simp only [alRemove, if_neg hak, alGet, if_neg hak]
      exact ih h.2

theorem alRemove_keys_sublist {κ α : Type} [DecidableEq κ] (m : List (κ × α))
    (k : κ) : ((alRemove m k).map Prod.fst).Sublist (m.map Prod.fst) := by
  induction m with
  | nil => simp [alRemove]
  | cons hd rest ih =>
    obtain ⟨a, b⟩ := hd
    by_cases hak : a = k
    · simp only [alRemove, if_pos hak, List.map]
      exact List.sublist_cons_self _ _
    · simp only [alRemove, if_neg hak, List.map]
      exact ih.cons₂ a

theorem alRemove_keys_nodup {κ α : Type} [DecidableEq κ] (m : List (κ × α))
    (k : κ) (h : (m.map Prod.fst).Nodup) :
    ((alRemove m k).map Prod.fst).Nodup :=
  (alRemove_keys_sublist m k).nodup h

theorem alInsert_mem_keys_cases {κ α : Type} [DecidableEq κ] (m : List (κ × α))
    (k : κ) (v : α) (p : κ × α) (h : p ∈ alInsert m k v) : p ∈ m ∨ p.1 = k := by
  induction m with
  | nil =>
    simp only [alInsert, List.mem_singleton] at h
    exact Or.inr (by rw [h])
  | cons hd rest ih =>
    obtain ⟨a, b⟩ := hd
    by_cases hak : a = k
    · simp only [alInsert, if_pos hak, List.mem_cons] at h
      rcases h with h | h
      · exact Or.inr (by rw [h])
      · exact Or.inl (List.mem_cons_of_mem _ h)
    · simp only [alInsert, if_neg hak, List.mem_cons] at h
      rcases h with h | h
      · exact Or.inl (List.mem_cons.2 (Or.inl h))
      · rcases ih h with h2 | h2
        · exact Or.inl (List.mem_cons_of_mem _ h2)
        · exact Or.inr h2

theorem alInsert_keys_nodup {κ α : Type} [DecidableEq κ] (m : List (κ × α))
    (k : κ) (v : α) (h : (m.map Prod.fst).Nodup) :
    ((alInsert m k v).map Prod.fst).Nodup := by
  induction m with
  | nil => simp [alInsert]
  | cons hd rest ih =>
    obtain ⟨a, b⟩ := hd
    simp only [List.map, List.nodup_cons] at h
    by_cases hak : a = k
    · subst hak
      simp only [alInsert, if_pos rfl, List.map, List.nodup_cons]
      exact ⟨h.1, h.2⟩
    · simp only [alInsert, if_neg hak, List.map, List.nodup_cons]
      refine ⟨?_, ih h.2⟩
      intro hmem
      rcases List.mem_map.1 hmem with ⟨⟨c, d⟩, hcd, hc⟩
      rcases alInsert_mem_keys_cases rest k v (c, d) hcd with hck | hck
      · exact h.1 (List.mem_map.2 ⟨(c, d), hck, hc⟩)
      · exact hak (hc ▸ hck)

theorem mem_setInsert (s : List Oid) (o a : Oid) :
    a ∈ setInsert s o ↔ a = o ∨ a ∈ s := by
  unfold setInsert
  split_ifs with h
  · constructor
    · exact Or.inr
    · rintro (rfl | ha)
      · exact h
      · exact ha
  · simp [List.mem_cons]

theorem setInsert_nodup (s : List Oid) (o : Oid) (h : s.Nodup) :
    (setInsert s o).Nodup := by
  unfold setInsert
  split_ifs with hm
  · exact h
  · exact List.nodup_cons.2 ⟨hm, h⟩

theorem setRemove_nodup (s : List Oid) (o : Oid) (h : s.Nodup) :
    (setRemove s o).Nodup := h.erase o

theorem mem_setRemove_iff (s : List Oid) (o a : Oid) (h : s.Nodup) :
    a ∈ setRemove s o ↔ a ∈ s ∧ a ≠ o := by
  unfold setRemove
  rw [h.mem_erase_iff]
  tauto

theorem mem_of_mem_setRemove (s : List Oid) (o a : Oid)
    (ha : a ∈ setRemove s o) : a ∈ s := List.mem_of_mem_erase ha

/-- Full characterization of the acquisition loop of `lock_waiting`: it
splits `want` into an untaken prefix `keep` and an acquired suffix `neu`,
moves `neu` (reversed) onto `got`, adds `neu` to the lock set, and stops
either with `want` exhausted or at a contended OID, namely the last
element of `keep`. -/
theorem acquireLoop_spec (fuel : Nat) : ∀ (locks want got : List Oid),
    want.length ≤ fuel →
    ∃ keep neu,
      want = keep ++ neu ∧
      (acquireLoop fuel locks want got).2.1 = keep ∧
      (acquireLoop fuel locks want got).2.2.1 = got ++ neu.reverse ∧
      (∀ z, z ∈ (acquireLoop fuel locks want got).1 ↔ z ∈ locks ∨ z ∈ neu) ∧
      (∀ z ∈ neu, z ∉ locks) ∧
      neu.Nodup ∧
      (locks.Nodup → (acquireLoop fuel locks want got).1.Nodup) ∧
      ((acquireLoop fuel locks want got).2.2.2 = none → keep = []) ∧
      (∀ c, (acquireLoop fuel locks want got).2.2.2 = some c →
        keep.getLast? = some c ∧ c ∈ (acquireLoop fuel locks want got).1) := by
  induction fuel with
  | zero =>
    intro locks want got hf
    have hw : want = [] := List.eq_nil_of_length_eq_zero (Nat.le_zero.1 hf)
    subst hw
    exact ⟨[], [], rfl, rfl, by simp [acquireLoop], by simp [acquireLoop],
      by simp, List.nodup_nil, fun h => h, fun _ => rfl, fun c hc => by
        simp [acquireLoop] at hc⟩
  | succ fuel ih =>
    intro locks want got hf
    rcases List.eq_nil_or_concat want with rfl | ⟨ys, y, hw⟩
    · exact ⟨[], [], rfl, rfl, by simp [acquireLoop], by simp [acquireLoop],
        by simp, List.nodup_nil, fun h => h, fun _ => rfl, fun c hc => by
          simp [acquireLoop] at hc⟩
    · rw [List.concat_eq_append] at hw
      subst hw
      have hstep : acquireLoop (fuel + 1) locks (ys ++ [y]) got =
          if y ∈ locks then (locks, ys ++ [y], got, some y)
          else acquireLoop fuel (setInsert locks y) ys (got ++ [y]) := by
        show (match (ys ++ [y]).getLast? with
          | none => (locks, ys ++ [y], got, none)
          | some oid =>
            if oid ∈ locks then (locks, ys ++ [y], got, some oid)
            else acquireLoop fuel (setInsert locks oid) (ys ++ [y]).dropLast
              (got ++ [oid])) = _
        rw [List.getLast?_concat, List.dropLast_concat]
      by_cases hy : y ∈ locks
      · rw [hstep, if_pos hy]
        refine ⟨ys ++ [y], [], by simp, rfl, by simp, by simp, by simp,
          List.nodup_nil, fun h => h, fun h => by simp at h, fun c hc => ?_⟩
        have : c = y := by
          have := hc
          simp at this
          exact this.symm
        subst this
        exact ⟨List.getLast?_concat ys, hy⟩
      · rw [hstep, if_neg hy]
        have hlen : ys.length ≤ fuel := by
          have := hf
          simp only [List.length_append, List.length_singleton] at this
          omega
        obtain ⟨keep, neu2, hsplit, h21, h221, hiff, hfresh, hnd, hlknd,
          hnone, hsome⟩ := ih (setInsert locks y) ys (got ++ [y]) hlen
        refine ⟨keep, neu2 ++ [y], ?_, h21, ?_, ?_, ?_, ?_, ?_, hnone, hsome⟩
        · rw [← List.append_assoc, ← hsplit]
        · rw [h221]
          simp
        · intro z
          rw [hiff z, mem_setInsert]
          simp only [List.mem_append, List.mem_singleton]
          tauto
        · intro z hz
          rcases List.mem_append.1 hz with hz2 | hz2
          · have := hfresh z hz2
            rw [mem_setInsert] at this
            push_neg at this
            exact this.2
          · rw [List.mem_singleton.1 hz2]
            exact hy
        · rw [List.nodup_append]
          refine ⟨hnd, List.nodup_singleton y, ?_⟩
          intro a ha hay
          rw [List.mem_singleton.1 hay] at ha
          have := hfresh y ha
          rw [mem_setInsert] at this
          push_neg at this
          exact this.1 rfl
        · intro h
          exact hlknd (setInsert_nodup locks y h)

theorem alGet_pushWaiter (w : List (Oid × List Tid)) (c : Oid) (id : Tid)
    (x : Oid) :
    alGet (pushWaiter w c id) x =
      if c = x then some ((alGet w c).getD [] ++ [id]) else alGet w x := by
  unfold pushWaiter
  cases h : alGet w c <;> simp [alGet_alInsert, h]

theorem pushWaiter_keys_nodup (w : List (Oid × List Tid)) (c : Oid) (id : Tid)
    (h : (w.map Prod.fst).Nodup) : ((pushWaiter w c id).map Prod.fst).Nodup := by
  unfold pushWaiter
  cases alGet w c <;> exact alInsert_keys_nodup _ _ _ h

/-- Full characterization of `lock_waiting` on a well-formed state, for
an entry that is not currently locking or queued: the invariants are
preserved, other entries are untouched, and the call either grants
(want exhausted) or enqueues the TID at the back of the contended OID's
queue. -/
theorem lock_waiting_spec (lm : LockManager) (lk : Locking) (tr : List LockEv)
    (hinv : LockInv lm) (htr : TraceInv lm tr)
    (hid : alGet lm.locking lk.id = none)
    (hgr : LockEv.granted lk.id ∉ tr)
    (hq : ∀ x q, alGet lm.waiting x = some q → lk.id ∉ q)
    (hgn : lk.got.Nodup)
    (hgs : ∀ z ∈ lk.got, z ∈ lm.locks)
    (hgd : ∀ t lk', alGet lm.locking t = some lk' → ∀ z ∈ lk.got, z ∉ lk'.got)
    (hwn : lk.want.Nodup)
    (hwg : ∀ z ∈ lk.want, z ∉ lk.got) :
    LockInv (lock_waiting lm lk).1 ∧
    TraceInv (lock_waiting lm lk).1 (tr ++ (lock_waiting lm lk).2) ∧
    (∀ t, t ≠ lk.id →
      alGet (lock_waiting lm lk).1.locking t = alGet lm.locking t) ∧
    ∃ keep neu,
      lk.want = keep ++ neu ∧
      alGet (lock_waiting lm lk).1.locking lk.id =
        some ⟨lk.id, keep, lk.got ++ neu.reverse⟩ ∧
      (∀ z, z ∈ (lock_waiting lm lk).1.locks ↔ z ∈ lm.locks ∨ z ∈ neu) ∧
      (∀ z ∈ neu, z ∉ lm.locks) ∧
      ((keep = [] ∧ (lock_waiting lm lk).2 = [.granted lk.id] ∧
        (lock_waiting lm lk).1.waiting = lm.waiting) ∨
       (∃ c, keep.getLast? = some c ∧
        c ∈ (lock_waiting lm lk).1.locks ∧
        (lock_waiting lm lk).2 = [.enqueued lk.id c] ∧
        (∀ x, x ≠ c →
          alGet (lock_waiting lm lk).1.waiting x = alGet lm.waiting x) ∧
        alGet (lock_waiting lm lk).1.waiting c =
          some ((alGet lm.waiting c).getD [] ++ [lk.id]))) := by
  obtain ⟨keep, neu, hsplit, h21, h221, hiff, hfresh, hndneu, hlknd, hnone,
    hsome⟩ := acquireLoop_spec lk.want.length lm.locks lk.want lk.got
      (le_refl _)
  have hkeepnd : keep.Nodup := by
    rw [hsplit] at hwn
    exact hwn.of_append_left
  have hkeepneu : ∀ z ∈ keep, z ∉ neu := by
    rw [hsplit, List.nodup_append] at hwn
    exact fun z hz => hwn.2.2 hz
  have hgot'nd : (lk.got ++ neu.reverse).Nodup := by
    rw [List.nodup_append, List.nodup_reverse]
    refine ⟨hgn, hndneu, ?_⟩
    intro a ha har
    rw [List.mem_reverse] at har
    exact hfresh a har (hgs a ha)
  have hgot'sub : ∀ z ∈ lk.got ++ neu.reverse,
      z ∈ (acquireLoop lk.want.length lm.locks lk.want lk.got).1 := by
    intro z hz
    rcases List.mem_append.1 hz with hz | hz
    · exact (hiff z).2 (Or.inl (hgs z hz))
    · exact (hiff z).2 (Or.inr (List.mem_reverse.1 hz))
  have hgot'old : ∀ t lk', alGet lm.locking t = some lk' →
      ∀ z ∈ lk.got ++ neu.reverse, z ∉ lk'.got := by
    intro t lk' ht z hz
    rcases List.mem_append.1 hz with hz | hz
    · exact hgd t lk' ht z hz
    · intro hzin
      exact hfresh z (List.mem_reverse.1 hz) (hinv.gotSub t lk' ht z hzin)
  have hkeepgot : ∀ z ∈ keep, z ∉ lk.got ++ neu.reverse := by
    intro z hz
    rw [List.mem_append, List.mem_reverse]
    push_neg
    exact ⟨hwg z (hsplit ▸ List.mem_append.2 (Or.inl hz)), hkeepneu z hz⟩
  cases hc : (acquireLoop lk.want.length lm.locks lk.want lk.got).2.2.2 with
  | none =>
    have hkeep : keep = [] := hnone hc
    have heq : lock_waiting lm lk =
        (⟨(acquireLoop lk.want.length lm.locks lk.want lk.got).1, lm.waiting,
          alInsert lm.locking lk.id
            ⟨lk.id, (acquireLoop lk.want.length lm.locks lk.want lk.got).2.1,
             (acquireLoop lk.want.length lm.locks lk.want lk.got).2.2.1⟩⟩,
         [.granted lk.id]) := by
      simp only [lock_waiting]
      rw [hc]
    rw [heq, h21, h221]
    refine ⟨?_, ?_, ?_, keep, neu, hsplit, ?_, ?_, hfresh, Or.inl ⟨hkeep, rfl, rfl⟩⟩
    · constructor
      · exact hlknd hinv.locksNodup
      · exact hinv.waitKeys
      · exact alInsert_keys_nodup _ _ _ hinv.lockKeys
      · intro t lk' ht
        rw [alGet_alInsert] at ht
        split_ifs at ht with h
        · cases ht
          exact h
        · exact hinv.idOk t lk' ht
      · intro x q t hx htq
        have htne : t ≠ lk.id := fun h => hq x q hx (h ▸ htq)
        obtain ⟨lk', hlk', hlast⟩ := hinv.queueEntry x q t hx htq
        refine ⟨lk', ?_, hlast⟩
        rw [alGet_alInsert, if_neg (fun h => htne h.symm)]
        exact hlk'
      · exact hinv.queueNodup
      · exact hinv.queueDisj
      · intro t lk' ht
        rw [alGet_alInsert] at ht
        split_ifs at ht with h
        · cases ht
          exact hgot'sub
        · exact fun z hz => (hiff z).2
            (Or.inl (hinv.gotSub t lk' ht z hz))
      · intro t lk' ht
        rw [alGet_alInsert] at ht
        split_ifs at ht with h
        · cases ht
          exact hgot'nd
        · exact hinv.gotNodup t lk' ht
      · intro t1 t2 lk1 lk2 h1 h2 hne
        rw [alGet_alInsert] at h1 h2
        split_ifs at h1 h2 with ha hb hb
        · exact absurd (ha.symm.trans hb) hne
        · cases h1
          exact fun z hz => hgot'old t2 lk2 h2 z hz
        · cases h2
          intro z hz hzin
          exact hgot'old t1 lk1 h1 z hzin hz
        · exact hinv.gotDisj t1 t2 lk1 lk2 h1 h2 hne
      · intro t lk' ht
        rw [alGet_alInsert] at ht
        split_ifs at ht with h
        · cases ht
          exact hkeepnd
        · exact hinv.wantNodup t lk' ht
      · intro t lk' ht
        rw [alGet_alInsert] at ht
        split_ifs at ht with h
        · cases ht
          exact hkeepgot
        · exact hinv.wantGotDisj t lk' ht
    · constructor
      · intro t
        rw [List.count_append]
        by_cases h : t = lk.id
        · subst h
          have h0 : tr.count (LockEv.granted lk.id) = 0 :=
            List.count_eq_zero.2 hgr
          simp [h0]
        · have hcnt : ([LockEv.granted lk.id].count (LockEv.granted t)) = 0 := by
            apply List.count_eq_zero.2
            intro hmem
            rw [List.mem_singleton] at hmem
            cases hmem
            exact h rfl
          rw [hcnt]
          simpa using htr.count_le t
      · intro t lk' ht hw
        rw [alGet_alInsert] at ht
        split_ifs at ht with h
        · cases ht
          simp only [hkeep, ne_eq, not_true_eq_false] at hw
        · intro hmem
          rcases List.mem_append.1 hmem with hmem | hmem
          · exact htr.pending t lk' ht hw hmem
          · rw [List.mem_singleton] at hmem
            cases hmem
            exact h rfl
      · intro t lk' ht hw
        rw [alGet_alInsert] at ht
        split_ifs at ht with h
        · cases ht
          apply List.mem_append.2
          right
          rw [h]
          exact List.mem_singleton.2 rfl
        · exact List.mem_append.2 (Or.inl (htr.done t lk' ht hw))
    · intro t htne
      simp only
      rw [alGet_alInsert, if_neg (fun h => htne h.symm)]
    · simp only
      rw [alGet_alInsert, if_pos rfl]
    · exact hiff
  | some c =>
    have hkeepc : keep.getLast? = some c ∧
        c ∈ (acquireLoop lk.want.length lm.locks lk.want lk.got).1 :=
      hsome c hc
    have heq : lock_waiting lm lk =
        (⟨(acquireLoop lk.want.length lm.locks lk.want lk.got).1,
          pushWaiter lm.waiting c lk.id,
          alInsert lm.locking lk.id
            ⟨lk.id, (acquireLoop lk.want.length lm.locks lk.want lk.got).2.1,
             (acquireLoop lk.want.length lm.locks lk.want lk.got).2.2.1⟩⟩,
         [.enqueued lk.id c]) := by
      simp only [lock_waiting]
      rw [hc]
    rw [heq, h21, h221]
    refine ⟨?_, ?_, ?_, keep, neu, hsplit, ?_, ?_, hfresh,
      Or.inr ⟨c, hkeepc.1, hkeepc.2, rfl, ?_, ?_⟩⟩
    · constructor
      · exact hlknd hinv.locksNodup
      · exact pushWaiter_keys_nodup _ _ _ hinv.waitKeys
      · exact alInsert_keys_nodup _ _ _ hinv.lockKeys
      · intro t lk' ht
        rw [alGet_alInsert] at ht
        split_ifs at ht with h
        · cases ht
          exact h
        · exact hinv.idOk t lk' ht
      · intro x q t hx htq
        simp only at hx
        rw [alGet_pushWaiter] at hx
        split_ifs at hx with hcx
        · cases hx
          rw [← hcx]
          rcases List.mem_append.1 htq with htq | htq
          · cases hqc : alGet lm.waiting c with
            | none =>
              rw [hqc] at htq
              simp at htq
            | some qc =>
              rw [hqc] at htq
              simp only [Option.getD_some] at htq
              have htne : t ≠ lk.id := fun h => hq c qc hqc (h ▸ htq)
              obtain ⟨lk', hlk', hlast⟩ := hinv.queueEntry c qc t hqc htq
              refine ⟨lk', ?_, hlast⟩
              rw [alGet_alInsert, if_neg (fun h => htne h.symm)]
              exact hlk'
          · rw [List.mem_singleton] at htq
            subst htq
            refine ⟨⟨lk.id, keep, lk.got ++ neu.reverse⟩, ?_, hkeepc.1⟩
            rw [alGet_alInsert, if_pos rfl]
        · have htne : t ≠ lk.id := fun h => hq x q hx (h ▸ htq)
          obtain ⟨lk', hlk', hlast⟩ := hinv.queueEntry x q t hx htq
          refine ⟨lk', ?_, hlast⟩
          rw [alGet_alInsert, if_neg (fun h => htne h.symm)]
          exact hlk'
      · intro x q hx
        simp only at hx
        rw [alGet_pushWaiter] at hx
        split_ifs at hx with hcx
        · cases hx
          rw [List.nodup_append]
          refine ⟨?_, List.nodup_singleton _, ?_⟩
          · cases hqc : alGet lm.waiting c with
            | none => simp
            | some qc =>
              simpa using hinv.queueNodup c qc hqc
          · intro a ha hasing
            rw [List.mem_singleton] at hasing
            subst hasing
            cases hqc : alGet lm.waiting c with
            | none =>
              rw [hqc] at ha
              simp at ha
            | some qc =>
              rw [hqc] at ha
              exact hq c qc hqc ha
        · exact hinv.queueNodup x q hx
      · intro x y qx qy hx hy hxy t htx
        simp only at hx hy
        rw [alGet_pushWaiter] at hx hy
        split_ifs at hx hy with hcx hcy hcy
        · exact absurd (hcx.symm.trans hcy) hxy
        · cases hx
          rcases List.mem_append.1 htx with htx | htx
          · cases hqc : alGet lm.waiting c with
            | none =>
              rw [hqc] at htx
              simp at htx
            | some qc =>
              rw [hqc] at htx
              exact hinv.queueDisj c y qc qy hqc hy
                (fun h => hxy (hcx.symm.trans h)) t htx
          · rw [List.mem_singleton] at htx
            subst htx
            exact hq y qy hy
        · cases hy
          intro hty
          rcases List.mem_append.1 hty with hty | hty
          · cases hqc : alGet lm.waiting c with
            | none =>
              rw [hqc] at hty
              simp at hty
            | some qc =>
              rw [hqc] at hty
              exact hinv.queueDisj x c qx qc hx hqc
                (fun h => hxy (h.trans hcy)) t htx hty
          · rw [List.mem_singleton] at hty
            subst hty
            exact hq x qx hx htx
        · exact hinv.queueDisj x y qx qy hx hy hxy t htx
      · intro t lk' ht
        rw [alGet_alInsert] at ht
        split_ifs at ht with h
        · cases ht
          exact hgot'sub
        · exact fun z hz => (hiff z).2
            (Or.inl (hinv.gotSub t lk' ht z hz))
      · intro t lk' ht
        rw [alGet_alInsert] at ht
        split_ifs at ht with h
        · cases ht
          exact hgot'nd
        · exact hinv.gotNodup t lk' ht
      · intro t1 t2 lk1 lk2 h1 h2 hne
        rw [alGet_alInsert] at h1 h2
        split_ifs at h1 h2 with ha hb hb
        · exact absurd (ha.symm.trans hb) hne
        · cases h1
          exact fun z hz => hgot'old t2 lk2 h2 z hz
        · cases h2
          intro z hz hzin
          exact hgot'old t1 lk1 h1 z hzin hz
        · exact hinv.gotDisj t1 t2 lk1 lk2 h1 h2 hne
      · intro t lk' ht
        rw [alGet_alInsert] at ht
        split_ifs at ht with h
        · cases ht
          exact hkeepnd
        · exact hinv.wantNodup t lk' ht
      · intro t lk' ht
        rw [alGet_alInsert] at ht
        split_ifs at ht with h
        · cases ht
          exact hkeepgot
        · exact hinv.wantGotDisj t lk' ht
    · constructor
      · intro t
        rw [List.count_append]
        have : ([LockEv.enqueued lk.id c].count (LockEv.granted t)) = 0 := by
          apply List.count_eq_zero.2
          simp
        rw [this]
        simpa using htr.count_le t
      · intro t lk' ht hw
        rw [alGet_alInsert] at ht
        split_ifs at ht with h
        · cases ht
          intro hmem
          rcases List.mem_append.1 hmem with hmem | hmem
          · exact hgr (h ▸ hmem)
          · simp at hmem
        · intro hmem
          rcases List.mem_append.1 hmem with hmem | hmem
          · exact htr.pending t lk' ht hw hmem
          · simp at hmem
      · intro t lk' ht hw
        rw [alGet_alInsert] at ht
        split_ifs at ht with h
        · cases ht
          exfalso
          have hw2 : keep = [] := hw
          rw [hw2] at hkeepc
          simp at hkeepc
        · exact List.mem_append.2 (Or.inl (htr.done t lk' ht hw))
    · intro t htne
      simp only
      rw [alGet_alInsert, if_neg (fun h => htne h.symm)]
    · simp only
      rw [alGet_alInsert, if_pos rfl]
    · exact hiff
    · intro x hxc
      simp only
      rw [alGet_pushWaiter, if_neg (fun h => hxc h.symm)]
    · simp only
      rw [alGet_pushWaiter, if_pos rfl]

theorem mem_of_getLast?_eq_some {α : Type} {l : List α} {a : α}
    (h : l.getLast? = some a) : a ∈ l := by
  obtain ⟨hne, heq⟩ := List.mem_getLast?_eq_getLast (l := l) (x := a)
    (by rw [h]; rfl)
  rw [heq]
  exact List.getLast_mem hne

theorem not_mem_setRemove_self (s : List Oid) (z : Oid) (h : s.Nodup) :
    z ∉ setRemove s z := fun hm => ((mem_setRemove_iff s z z h).1 hm).2 rfl

/-- One iteration of the release loop, on an OID that no transaction
holds any more (its holder's entry was already removed): all invariants
are preserved, locks other than the released one persist, unheld locked
OIDs stay unheld, every entry evolves, and the service order `Rel` is
preserved unless `A` got granted. -/
theorem releaseOid_spec (lm : LockManager) (z : Oid) (tr : List LockEv)
    (hinv : LockInv lm) (htr : TraceInv lm tr)
    (hzfree : GotFree lm z) :
    LockInv (releaseOid lm z).1 ∧
    TraceInv (releaseOid lm z).1 (tr ++ (releaseOid lm z).2) ∧
    (∀ w ∈ lm.locks, w ≠ z → w ∈ (releaseOid lm z).1.locks) ∧
    (∀ w, GotFree lm w → w ∈ lm.locks → w ≠ z → GotFree (releaseOid lm z).1 w) ∧
    (∀ t lk, alGet lm.locking t = some lk →
      ∃ lk', alGet (releaseOid lm z).1.locking t = some lk' ∧
        EntryEvolved lk lk') ∧
    (∀ x qB Bt, x ≠ z → alGet lm.waiting x = some qB → Bt ∈ qB →
      LockEv.granted Bt ∉ (releaseOid lm z).2 ∧
      ∃ qB', alGet (releaseOid lm z).1.waiting x = some qB' ∧ Bt ∈ qB') ∧
    (∀ x A B, Rel lm x A B →
      LockEv.granted B ∉ (releaseOid lm z).2 ∧
      ((LockEv.granted A ∈ (releaseOid lm z).2 ∧
        (∃ qB', alGet (releaseOid lm z).1.waiting x = some qB' ∧ B ∈ qB') ∧
        (∃ lkA', alGet (releaseOid lm z).1.locking A = some lkA' ∧
          x ∈ lkA'.got)) ∨
       Rel (releaseOid lm z).1 x A B)) ∧
    (∀ t, alGet lm.locking t = none →
      alGet (releaseOid lm z).1.locking t = none) := by
  cases hwq : alGet lm.waiting z with
  | none =>
    have heq : releaseOid lm z =
        (⟨setRemove lm.locks z, lm.waiting, lm.locking⟩, []) := by
      simp only [releaseOid, releaseOid.setRemoved]
      rw [hwq]
    rw [heq]
    refine ⟨?_, ?_, ?_, ?_, ?_, ?_, ?_, fun t ht => ht⟩
    · exact ⟨setRemove_nodup _ _ hinv.locksNodup, hinv.waitKeys, hinv.lockKeys,
        hinv.idOk, hinv.queueEntry, hinv.queueNodup, hinv.queueDisj,
        fun t lk ht w hw => (mem_setRemove_iff _ _ _ hinv.locksNodup).2
          ⟨hinv.gotSub t lk ht w hw,
           fun hzz => hzfree t lk ht (hzz ▸ hw)⟩,
        hinv.gotNodup, hinv.gotDisj, hinv.wantNodup, hinv.wantGotDisj⟩
    · rw [List.append_nil]
      exact ⟨htr.count_le, htr.pending, htr.done⟩
    · intro w hw hwz
      exact (mem_setRemove_iff _ _ _ hinv.locksNodup).2 ⟨hw, hwz⟩
    · intro w hfw _ _ t lk ht
      exact hfw t lk ht
    · intro t lk ht
      exact ⟨lk, ht, rfl, [], by simp, by simp⟩
    · intro x qB Bt _ hqB hBt
      exact ⟨by simp, qB, hqB, hBt⟩
    · intro x A B hrel
      refine ⟨by simp, Or.inr ?_⟩
      obtain ⟨q, hq_x, hB, hAB, hdisj⟩ := hrel
      exact ⟨q, hq_x, hB, hAB, hdisj⟩
  | some q0 =>
    cases q0 with
    | nil =>
      have heq : releaseOid lm z =
          (⟨setRemove lm.locks z, alRemove lm.waiting z, lm.locking⟩, []) := by
        simp only [releaseOid, releaseOid.setRemoved]
        rw [hwq]
      rw [heq]
      have hwx : ∀ y, y ≠ z → alGet (alRemove lm.waiting z) y = alGet lm.waiting y :=
        fun y hy => alGet_alRemove_ne _ _ _ (fun h => hy h.symm)
      have hwz : alGet (alRemove lm.waiting z) z = none :=
        alGet_alRemove_self _ _ hinv.waitKeys
      refine ⟨?_, ?_, ?_, ?_, ?_, ?_, ?_, fun t ht => ht⟩
      · refine ⟨setRemove_nodup _ _ hinv.locksNodup,
          alRemove_keys_nodup _ _ hinv.waitKeys, hinv.lockKeys, hinv.idOk,
          ?_, ?_, ?_,
          fun t lk ht w hw => (mem_setRemove_iff _ _ _ hinv.locksNodup).2
            ⟨hinv.gotSub t lk ht w hw,
             fun hzz => hzfree t lk ht (hzz ▸ hw)⟩,
          hinv.gotNodup, hinv.gotDisj, hinv.wantNodup, hinv.wantGotDisj⟩
        · intro x q t hx htq
          by_cases hxz : x = z
          · rw [hxz, hwz] at hx
            cases hx
          · rw [hwx x hxz] at hx
            exact hinv.queueEntry x q t hx htq
        · intro x q hx
          by_cases hxz : x = z
          · rw [hxz, hwz] at hx
            cases hx
          · rw [hwx x hxz] at hx
            exact hinv.queueNodup x q hx
        · intro x y qx qy hx hy hxy t htx
          by_cases hxz : x = z
          · rw [hxz, hwz] at hx
            cases hx
          · by_cases hyz : y = z
            · rw [hyz, hwz] at hy
              cases hy
            · rw [hwx x hxz] at hx
              rw [hwx y hyz] at hy
              exact hinv.queueDisj x y qx qy hx hy hxy t htx
      · rw [List.append_nil]
        exact ⟨htr.count_le, htr.pending, htr.done⟩
      · intro w hw hwzne
        exact (mem_setRemove_iff _ _ _ hinv.locksNodup).2 ⟨hw, hwzne⟩
      · intro w hfw _ _ t lk ht
        exact hfw t lk ht
      · intro t lk ht
        exact ⟨lk, ht, rfl, [], by simp, by simp⟩
      · intro x qB Bt hxzne hqB hBt
        refine ⟨by simp, qB, ?_, hBt⟩
        rw [hwx x hxzne]
        exact hqB
      · intro x A B hrel
        obtain ⟨q, hq_x, hB, hAB, hdisj⟩ := hrel
        by_cases hxz : x = z
        · exfalso
          rw [hxz, hwq] at hq_x
          cases hq_x
          simp at hB
        · exact ⟨by simp, Or.inr ⟨q, by rw [hwx x hxz]; exact hq_x, hB, hAB,
            hdisj⟩⟩
    | cons tid qrest =>
      obtain ⟨lkD, hlkD, hlastD⟩ := hinv.queueEntry z (tid :: qrest) tid hwq
        (List.mem_cons_self tid qrest)
      have hidD : lkD.id = tid := hinv.idOk tid lkD hlkD
      have hpendD : lkD.want ≠ [] := by
        intro h
        rw [h] at hlastD
        cases hlastD
      have hqnd : (tid :: qrest).Nodup := hinv.queueNodup z _ hwq
      have htidq : tid ∉ qrest := (List.nodup_cons.1 hqnd).1
      have hw'x : ∀ y, y ≠ z →
          alGet (if qrest = [] then alRemove lm.waiting z
            else alInsert lm.waiting z qrest) y = alGet lm.waiting y := by
        intro y hy
        split_ifs
        · exact alGet_alRemove_ne _ _ _ (fun h => hy h.symm)
        · rw [alGet_alInsert, if_neg (fun h => hy h.symm)]
      have hw'z : alGet (if qrest = [] then alRemove lm.waiting z
          else alInsert lm.waiting z qrest) z =
          if qrest = [] then none else some qrest := by
        split_ifs
        · exact alGet_alRemove_self _ _ hinv.waitKeys
        · rw [alGet_alInsert, if_pos rfl]
      have hMidInv : LockInv ⟨setRemove lm.locks z,
          if qrest = [] then alRemove lm.waiting z
          else alInsert lm.waiting z qrest, alRemove lm.locking tid⟩ := by
        have hgetMid : ∀ t lk, alGet (alRemove lm.locking tid) t = some lk →
            alGet lm.locking t = some lk ∧ t ≠ tid := by
          intro t lk ht
          by_cases htt : t = tid
          · rw [htt, alGet_alRemove_self _ _ hinv.lockKeys] at ht
            cases ht
          · rw [alGet_alRemove_ne _ _ _ (fun h => htt h.symm)] at ht
            exact ⟨ht, htt⟩
        refine ⟨setRemove_nodup _ _ hinv.locksNodup, ?_,
          alRemove_keys_nodup _ _ hinv.lockKeys, ?_, ?_, ?_, ?_, ?_, ?_, ?_,
          ?_, ?_⟩
        · split_ifs
          · exact alRemove_keys_nodup _ _ hinv.waitKeys
          · exact alInsert_keys_nodup _ _ _ hinv.waitKeys
        · intro t lk ht
          exact hinv.idOk t lk (hgetMid t lk ht).1
        · intro x q t hx htq
          by_cases hxz : x = z
          · rw [hxz] at hx ⊢
            rw [hw'z] at hx
            by_cases hqr : qrest = []
            · rw [if_pos hqr] at hx
              cases hx
            · rw [if_neg hqr] at hx
              cases hx
              have htt : t ≠ tid := fun h => htidq (h ▸ htq)
              obtain ⟨lk', hlk', hlast'⟩ := hinv.queueEntry z _ t hwq
                (List.mem_cons_of_mem tid htq)
              exact ⟨lk', by
                rw [alGet_alRemove_ne _ _ _ (fun h => htt h.symm)]
                exact hlk', hlast'⟩
          · rw [hw'x x hxz] at hx
            have htt : t ≠ tid := by
              intro h
              subst h
              exact hinv.queueDisj z x _ _ hwq hx
                (fun hh => hxz hh.symm) t (List.mem_cons_self _ _) htq
            obtain ⟨lk', hlk', hlast'⟩ := hinv.queueEntry x _ t hx htq
            exact ⟨lk', by
              rw [alGet_alRemove_ne _ _ _ (fun h => htt h.symm)]
              exact hlk', hlast'⟩
        · intro x q hx
          by_cases hxz : x = z
          · rw [hxz] at hx
            rw [hw'z] at hx
            by_cases hqr : qrest = []
            · rw [if_pos hqr] at hx
              cases hx
            · rw [if_neg hqr] at hx
              cases hx
              exact (List.nodup_cons.1 hqnd).2
          · rw [hw'x x hxz] at hx
            exact hinv.queueNodup x q hx
        · intro x y qx qy hx hy hxy t htx
          by_cases hxz : x = z
          · rw [hxz] at hx hxy
            rw [hw'z] at hx
            by_cases hqr : qrest = []
            · rw [if_pos hqr] at hx
              cases hx
            · rw [if_neg hqr] at hx
              cases hx
              have hyz : y ≠ z := fun h => hxy h.symm
              rw [hw'x y hyz] at hy
              exact hinv.queueDisj z y _ qy hwq hy hxy t
                (List.mem_cons_of_mem tid htx)
          · rw [hw'x x hxz] at hx
            by_cases hyz : y = z
            · rw [hyz] at hy hxy
              rw [hw'z] at hy
              by_cases hqr : qrest = []
              · rw [if_pos hqr] at hy
                cases hy
              · rw [if_neg hqr] at hy
                cases hy
                intro hty
                exact hinv.queueDisj x z qx _ hx hwq hxy t htx
                  (List.mem_cons_of_mem tid hty)
            · rw [hw'x y hyz] at hy
              exact hinv.queueDisj x y qx qy hx hy hxy t htx
        · intro t lk ht w hw
          obtain ⟨ht0, htt⟩ := hgetMid t lk ht
          exact (mem_setRemove_iff _ _ _ hinv.locksNodup).2
            ⟨hinv.gotSub t lk ht0 w hw, fun hzz => hzfree t lk ht0 (hzz ▸ hw)⟩
        · intro t lk ht
          exact hinv.gotNodup t lk (hgetMid t lk ht).1
        · intro t1 t2 lk1 lk2 h1 h2 hne
          exact hinv.gotDisj t1 t2 lk1 lk2 (hgetMid t1 lk1 h1).1
            (hgetMid t2 lk2 h2).1 hne
        · intro t lk ht
          exact hinv.wantNodup t lk (hgetMid t lk ht).1
        · intro t lk ht
          exact hinv.wantGotDisj t lk (hgetMid t lk ht).1
      have hMidTr : TraceInv ⟨setRemove lm.locks z,
          if qrest = [] then alRemove lm.waiting z
          else alInsert lm.waiting z qrest, alRemove lm.locking tid⟩
          (tr ++ [LockEv.dequeued tid z]) := by
        have hgetMid : ∀ t lk, alGet (alRemove lm.locking tid) t = some lk →
            alGet lm.locking t = some lk := by
          intro t lk ht
          by_cases htt : t = tid
          · rw [htt, alGet_alRemove_self _ _ hinv.lockKeys] at ht
            cases ht
          · rw [alGet_alRemove_ne _ _ _ (fun h => htt h.symm)] at ht
            exact ht
        refine ⟨?_, ?_, ?_⟩
        · intro t
          rw [List.count_append]
          have h0 : ([LockEv.dequeued tid z].count (LockEv.granted t)) = 0 := by
            apply List.count_eq_zero.2
            simp
          rw [h0]
          simpa using htr.count_le t
        · intro t lk ht hwne hmem
          rcases List.mem_append.1 hmem with hmem | hmem
          · exact htr.pending t lk (hgetMid t lk ht) hwne hmem
          · simp at hmem
        · intro t lk ht hwe
          exact List.mem_append.2 (Or.inl (htr.done t lk (hgetMid t lk ht) hwe))
      obtain ⟨hInvW, hTrW, hOther, keep, neu, hsplitD, hEntryD, hLocksIff,
        hNeuFresh, hcase⟩ :=
        lock_waiting_spec ⟨setRemove lm.locks z,
          if qrest = [] then alRemove lm.waiting z
          else alInsert lm.waiting z qrest, alRemove lm.locking tid⟩ lkD
          (tr ++ [LockEv.dequeued tid z]) hMidInv hMidTr
          (by
            simp only
            rw [hidD]
            exact alGet_alRemove_self _ _ hinv.lockKeys)
          (by
            rw [hidD]
            intro hmem
            rcases List.mem_append.1 hmem with hmem | hmem
            · exact htr.pending tid lkD hlkD hpendD hmem
            · simp at hmem)
          (by
            intro x q hx htq
            simp only at hx
            rw [hidD] at htq
            by_cases hxz : x = z
            · rw [hxz] at hx
              rw [hw'z] at hx
              by_cases hqr : qrest = []
              · rw [if_pos hqr] at hx
                cases hx
              · rw [if_neg hqr] at hx
                cases hx
                exact htidq htq
            · rw [hw'x x hxz] at hx
              exact hinv.queueDisj z x _ _ hwq hx (fun h => hxz h.symm) tid
                (List.mem_cons_self _ _) htq)
          (hinv.gotNodup tid lkD hlkD)
          (by
            intro w hw
            simp only
            refine (mem_setRemove_iff _ _ _ hinv.locksNodup).2
              ⟨hinv.gotSub tid lkD hlkD w hw, ?_⟩
            intro hzz
            exact hzfree tid lkD hlkD (hzz ▸ hw))
          (by
            intro t lk' ht w hw
            simp only at ht
            by_cases htt : t = tid
            · rw [htt, alGet_alRemove_self _ _ hinv.lockKeys] at ht
              cases ht
            · rw [alGet_alRemove_ne _ _ _ (fun h => htt h.symm)] at ht
              exact hinv.gotDisj tid t lkD lk' hlkD ht
                (fun h => htt h.symm) w hw)
          (hinv.wantNodup tid lkD hlkD)
          (hinv.wantGotDisj tid lkD hlkD)
      have heq : releaseOid lm z =
          ((lock_waiting ⟨setRemove lm.locks z,
            if qrest = [] then alRemove lm.waiting z
            else alInsert lm.waiting z qrest, alRemove lm.locking tid⟩ lkD).1,
           LockEv.dequeued tid z ::
            (lock_waiting ⟨setRemove lm.locks z,
              if qrest = [] then alRemove lm.waiting z
              else alInsert lm.waiting z qrest,
              alRemove lm.locking tid⟩ lkD).2) := by
        simp only [releaseOid, releaseOid.setRemoved, hwq, hlkD]
      rw [heq]
      refine ⟨hInvW, ?_, ?_, ?_, ?_, ?_, ?_, ?_⟩
      · have hmm : tr ++ LockEv.dequeued tid z ::
            (lock_waiting ⟨setRemove lm.locks z,
              if qrest = [] then alRemove lm.waiting z
              else alInsert lm.waiting z qrest,
              alRemove lm.locking tid⟩ lkD).2 =
            (tr ++ [LockEv.dequeued tid z]) ++
            (lock_waiting ⟨setRemove lm.locks z,
              if qrest = [] then alRemove lm.waiting z
              else alInsert lm.waiting z qrest,
              alRemove lm.locking tid⟩ lkD).2 := by
          simp
        rw [hmm]
        exact hTrW
      · intro w hw hwz
        apply (hLocksIff w).2
        left
        exact (mem_setRemove_iff _ _ _ hinv.locksNodup).2 ⟨hw, hwz⟩
      · intro w hfw hwl hwz t lk' ht'
        by_cases htt : t = lkD.id
        · subst htt
          rw [hEntryD] at ht'
          cases ht'
          intro hmem
          rcases List.mem_append.1 hmem with hmem | hmem
          · exact hfw tid lkD hlkD hmem
          · rw [List.mem_reverse] at hmem
            exact hNeuFresh w hmem
              ((mem_setRemove_iff _ _ _ hinv.locksNodup).2 ⟨hwl, hwz⟩)
        · rw [hOther t htt] at ht'
          simp only at ht'
          by_cases htt2 : t = tid
          · exact absurd (htt2.trans hidD.symm) htt
          · rw [alGet_alRemove_ne _ _ _ (fun h => htt2 h.symm)] at ht'
            exact hfw t lk' ht'
      · intro t lk ht
        by_cases htt : t = tid
        · have hlk : lk = lkD := by
            rw [htt] at ht
            exact Option.some.inj (ht.symm.trans hlkD)
          refine ⟨⟨tid, keep, lkD.got ++ neu.reverse⟩, ?_, ?_, neu, ?_, ?_⟩
          · rw [htt]
            have hE := hEntryD
            rw [hidD] at hE
            exact hE
          · rw [hlk]
            exact hidD.symm
          · rw [hlk]
            exact hsplitD
          · rw [hlk]
        · have hne : t ≠ lkD.id := fun h => htt (h.trans hidD)
          refine ⟨lk, ?_, rfl, [], by simp, by simp⟩
          rw [hOther t hne]
          simp only
          rw [alGet_alRemove_ne _ _ _ (fun h => htt h.symm)]
          exact ht
      · intro x qB Bt hxzne hqB hBt
        have hBtid2 : Bt ≠ tid := by
          intro h
          subst h
          exact hinv.queueDisj z x _ qB hwq hqB (fun hh => hxzne hh.symm) Bt
            (List.mem_cons_self _ _) hBt
        have hq_mid2 : alGet (if qrest = [] then alRemove lm.waiting z
            else alInsert lm.waiting z qrest) x = some qB := by
          rw [hw'x x hxzne]
          exact hqB
        rcases hcase with ⟨hkeep, hevs, hwait⟩ |
          ⟨c, hclast, hclocks, hevs, hWother, hWc⟩
        · refine ⟨?_, qB, ?_, hBt⟩
          · rw [hevs]
            intro hmem
            rcases List.mem_cons.1 hmem with hmem | hmem
            · cases hmem
            · rw [List.mem_singleton] at hmem
              cases hmem
              exact hBtid2 hidD
          · rw [hwait]
            exact hq_mid2
        · refine ⟨?_, ?_⟩
          · rw [hevs]
            intro hmem
            rcases List.mem_cons.1 hmem with hmem | hmem
            · cases hmem
            · rw [List.mem_singleton] at hmem
              cases hmem
          · by_cases hcx : c = x
            · subst hcx
              refine ⟨qB ++ [lkD.id], ?_, List.mem_append.2 (Or.inl hBt)⟩
              rw [hWc, hq_mid2]
              rfl
            · refine ⟨qB, ?_, hBt⟩
              rw [hWother x (fun h => hcx h.symm)]
              exact hq_mid2
      · intro x A B hrel
        have hzkeyne : ∀ c, keep.getLast? = some c →
            c ∈ (lock_waiting ⟨setRemove lm.locks z,
              if qrest = [] then alRemove lm.waiting z
              else alInsert lm.waiting z qrest,
              alRemove lm.locking tid⟩ lkD).1.locks →
            z ∈ neu ∧ c ≠ z := by
          intro c hclast hclocks
          have hzneu : z ∈ neu := by
            by_cases hneu : neu = []
            · exfalso
              rw [hneu, List.append_nil] at hsplitD
              rw [← hsplitD] at hclast
              have hcz : c = z := Option.some.inj (hclast.symm.trans hlastD)
              subst hcz
              rcases (hLocksIff c).1 hclocks with hh | hh
              · exact not_mem_setRemove_self _ _ hinv.locksNodup hh
              · rw [hneu] at hh
                simp at hh
            · have hlast2 : lkD.want.getLast? = neu.getLast? := by
                rw [hsplitD]
                exact List.getLast?_append_of_ne_nil keep hneu
              rw [hlastD] at hlast2
              exact mem_of_getLast?_eq_some hlast2.symm
          refine ⟨hzneu, ?_⟩
          intro h
          have hckeep : c ∈ keep := mem_of_getLast?_eq_some hclast
          have hwnn := hinv.wantNodup tid lkD hlkD
          rw [hsplitD, List.nodup_append] at hwnn
          exact hwnn.2.2 hckeep (h.symm ▸ hzneu)
        obtain ⟨q, hq_x, hB, hAB, hdisj⟩ := hrel
        by_cases hxz : x = z
        · rw [hxz] at hq_x hdisj ⊢
          have hqeq : q = tid :: qrest := Option.some.inj (hq_x.symm.trans hwq)
          subst hqeq
          have hBtid : B ≠ tid := by
            intro h
            subst h
            rcases hdisj with ⟨l1, l2, l3, hqs⟩ | ⟨lkA, hlkA, _, hxgot⟩
            · rcases l1 with _ | ⟨F, l1'⟩
              · simp only [List.nil_append] at hqs
                injection hqs with h1 h2
                exact hAB h1.symm
              · rw [List.cons_append] at hqs
                injection hqs with h1 h2
                apply htidq
                rw [h2]
                simp
            · exact hzfree A lkA hlkA hxgot
          rcases hdisj with ⟨l1, l2, l3, hqs⟩ | ⟨lkA, hlkA, _, hxgot⟩
          · rcases l1 with _ | ⟨F, l1'⟩
            · simp only [List.nil_append] at hqs
              injection hqs with h1 h2
              have hAtid : A = tid := h1.symm
              have hqrest : qrest = l2 ++ B :: l3 := h2
              have hqrne : qrest ≠ [] := by
                rw [hqrest]
                simp
              rcases hcase with ⟨hkeep, hevs, hwait⟩ |
                ⟨c, hclast, hclocks, hevs, hWother, hWc⟩
              · have hzneu2 : z ∈ neu := by
                  have hneu : neu ≠ [] := by
                    intro h
                    apply hpendD
                    rw [hsplitD, hkeep, h]
                    rfl
                  have hlast2 : lkD.want.getLast? = neu.getLast? := by
                    rw [hsplitD]
                    exact List.getLast?_append_of_ne_nil keep hneu
                  rw [hlastD] at hlast2
                  exact mem_of_getLast?_eq_some hlast2.symm
                refine ⟨?_, Or.inl ⟨?_, ⟨qrest, ?_, ?_⟩,
                  ⟨⟨tid, keep, lkD.got ++ neu.reverse⟩, ?_, ?_⟩⟩⟩
                · rw [hevs]
                  intro hmem
                  rcases List.mem_cons.1 hmem with hmem | hmem
                  · cases hmem
                  · rw [List.mem_singleton] at hmem
                    cases hmem
                    exact hBtid hidD
                · rw [hevs, hidD, hAtid]
                  simp
                · rw [hwait]
                  simp only
                  rw [hw'z, if_neg hqrne]
                · rw [hqrest]
                  simp
                · rw [hAtid]
                  have hE := hEntryD
                  rw [hidD] at hE
                  exact hE
                · simp only
                  exact List.mem_append.2 (Or.inr (List.mem_reverse.2 hzneu2))
              · obtain ⟨hzneu, hczne⟩ := hzkeyne c hclast hclocks
                refine ⟨?_, Or.inr ?_⟩
                · rw [hevs]
                  intro hmem
                  rcases List.mem_cons.1 hmem with hmem | hmem
                  · cases hmem
                  · rw [List.mem_singleton] at hmem
                    cases hmem
                · refine ⟨qrest, ?_, ?_, hAB, Or.inr
                    ⟨⟨tid, keep, lkD.got ++ neu.reverse⟩, ?_, ?_, ?_⟩⟩
                  · rw [hWother z (fun h => hczne h.symm)]
                    simp only
                    rw [hw'z, if_neg hqrne]
                  · rw [hqrest]
                    simp
                  · rw [hAtid]
                    have hE := hEntryD
                    rw [hidD] at hE
                    exact hE
                  · simp only
                    intro h
                    rw [h] at hclast
                    cases hclast
                  · simp only
                    exact List.mem_append.2 (Or.inr (List.mem_reverse.2 hzneu))
            · rw [List.cons_append] at hqs
              injection hqs with h1 h2
              have hqrest : qrest = l1' ++ A :: l2 ++ B :: l3 := h2
              have hqrne : qrest ≠ [] := by
                rw [hqrest]
                simp
              have hBq : B ∈ qrest := by
                rw [hqrest]
                simp
              rcases hcase with ⟨hkeep, hevs, hwait⟩ |
                ⟨c, hclast, hclocks, hevs, hWother, hWc⟩
              · refine ⟨?_, Or.inr ⟨qrest, ?_, hBq, hAB,
                  Or.inl ⟨l1', l2, l3, hqrest⟩⟩⟩
                · rw [hevs]
                  intro hmem
                  rcases List.mem_cons.1 hmem with hmem | hmem
                  · cases hmem
                  · rw [List.mem_singleton] at hmem
                    cases hmem
                    exact hBtid hidD
                · rw [hwait]
                  simp only
                  rw [hw'z, if_neg hqrne]
              · obtain ⟨hzneu, hczne⟩ := hzkeyne c hclast hclocks
                refine ⟨?_, Or.inr ⟨qrest, ?_, hBq, hAB,
                  Or.inl ⟨l1', l2, l3, hqrest⟩⟩⟩
                · rw [hevs]
                  intro hmem
                  rcases List.mem_cons.1 hmem with hmem | hmem
                  · cases hmem
                  · rw [List.mem_singleton] at hmem
                    cases hmem
                · rw [hWother z (fun h => hczne h.symm)]
                  simp only
                  rw [hw'z, if_neg hqrne]
          · exact absurd hxgot (hzfree A lkA hlkA)
        · have hq_mid : alGet (if qrest = [] then alRemove lm.waiting z
              else alInsert lm.waiting z qrest) x = some q := by
            rw [hw'x x hxz]
            exact hq_x
          have htidB : B ≠ tid := by
            intro h
            subst h
            exact hinv.queueDisj z x _ q hwq hq_x (fun hh => hxz hh.symm) B
              (List.mem_cons_self _ _) hB
          rcases hdisj with ⟨l1, l2, l3, hqs⟩ | ⟨lkA, hlkA, hpendA, hxgot⟩
          · rcases hcase with ⟨hkeep, hevs, hwait⟩ |
              ⟨c, hclast, hclocks, hevs, hWother, hWc⟩
            · refine ⟨?_, Or.inr ⟨q, ?_, hB, hAB, Or.inl ⟨l1, l2, l3, hqs⟩⟩⟩
              · rw [hevs]
                intro hmem
                rcases List.mem_cons.1 hmem with hmem | hmem
                · cases hmem
                · rw [List.mem_singleton] at hmem
                  cases hmem
                  exact htidB hidD
              · rw [hwait]
                exact hq_mid
            · have hgB : LockEv.granted B ∉ LockEv.dequeued tid z ::
                  (lock_waiting ⟨setRemove lm.locks z,
                    if qrest = [] then alRemove lm.waiting z
                    else alInsert lm.waiting z qrest,
                    alRemove lm.locking tid⟩ lkD).2 := by
                rw [hevs]
                intro hmem
                rcases List.mem_cons.1 hmem with hmem | hmem
                · cases hmem
                · rw [List.mem_singleton] at hmem
                  cases hmem
              by_cases hcx : c = x
              · subst hcx
                have hqc2 : alGet (lock_waiting ⟨setRemove lm.locks z,
                    if qrest = [] then alRemove lm.waiting z
                    else alInsert lm.waiting z qrest,
                    alRemove lm.locking tid⟩ lkD).1.waiting c =
                    some (q ++ [lkD.id]) := by
                  rw [hWc, hq_mid]
                  rfl
                refine ⟨hgB, Or.inr ⟨q ++ [lkD.id], hqc2,
                  List.mem_append.2 (Or.inl hB), hAB,
                  Or.inl ⟨l1, l2, l3 ++ [lkD.id], ?_⟩⟩⟩
                rw [hqs]
                simp
              · refine ⟨hgB, Or.inr ⟨q, ?_, hB, hAB,
                  Or.inl ⟨l1, l2, l3, hqs⟩⟩⟩
                rw [hWother x (fun h => hcx h.symm)]
                exact hq_mid
          · by_cases hAtid : A = tid
            · subst hAtid
              have hlkeq : lkA = lkD := Option.some.inj (hlkA.symm.trans hlkD)
              subst hlkeq
              rcases hcase with ⟨hkeep, hevs, hwait⟩ |
                ⟨c, hclast, hclocks, hevs, hWother, hWc⟩
              · refine ⟨?_, Or.inl ⟨?_, ⟨q, ?_, hB⟩,
                  ⟨⟨A, keep, lkA.got ++ neu.reverse⟩, ?_, ?_⟩⟩⟩
                · rw [hevs]
                  intro hmem
                  rcases List.mem_cons.1 hmem with hmem | hmem
                  · cases hmem
                  · rw [List.mem_singleton] at hmem
                    cases hmem
                    exact htidB hidD
                · rw [hevs, hidD]
                  simp
                · rw [hwait]
                  exact hq_mid
                · have hE := hEntryD
                  rw [hidD] at hE
                  exact hE
                · simp only
                  exact List.mem_append.2 (Or.inl hxgot)
              · have hcxne : c ≠ x := by
                  intro h
                  have hckeep : c ∈ keep := mem_of_getLast?_eq_some hclast
                  have hcw : c ∈ lkA.want := by
                    rw [hsplitD]
                    exact List.mem_append.2 (Or.inl hckeep)
                  exact hinv.wantGotDisj A lkA hlkA c hcw (h ▸ hxgot)
                refine ⟨?_, Or.inr ⟨q, ?_, hB, hAB, Or.inr
                  ⟨⟨A, keep, lkA.got ++ neu.reverse⟩, ?_, ?_, ?_⟩⟩⟩
                · rw [hevs]
                  intro hmem
                  rcases List.mem_cons.1 hmem with hmem | hmem
                  · cases hmem
                  · rw [List.mem_singleton] at hmem
                    cases hmem
                · rw [hWother x (fun h => hcxne h.symm)]
                  exact hq_mid
                · have hE := hEntryD
                  rw [hidD] at hE
                  exact hE
                · simp only
                  intro h
                  rw [h] at hclast
                  cases hclast
                · simp only
                  exact List.mem_append.2 (Or.inl hxgot)
            · have hAid : A ≠ lkD.id := fun h => hAtid (h.trans hidD)
              have hlkA' : alGet (lock_waiting ⟨setRemove lm.locks z,
                  if qrest = [] then alRemove lm.waiting z
                  else alInsert lm.waiting z qrest,
                  alRemove lm.locking tid⟩ lkD).1.locking A = some lkA := by
                rw [hOther A hAid]
                simp only
                rw [alGet_alRemove_ne _ _ _ (fun h => hAtid h.symm)]
                exact hlkA
              rcases hcase with ⟨hkeep, hevs, hwait⟩ |
                ⟨c, hclast, hclocks, hevs, hWother, hWc⟩
              · refine ⟨?_, Or.inr ⟨q, ?_, hB, hAB, Or.inr
                  ⟨lkA, hlkA', hpendA, hxgot⟩⟩⟩
                · rw [hevs]
                  intro hmem
                  rcases List.mem_cons.1 hmem with hmem | hmem
                  · cases hmem
                  · rw [List.mem_singleton] at hmem
                    cases hmem
                    exact htidB hidD
                · rw [hwait]
                  exact hq_mid
              · have hgB : LockEv.granted B ∉ LockEv.dequeued tid z ::
                    (lock_waiting ⟨setRemove lm.locks z,
                      if qrest = [] then alRemove lm.waiting z
                      else alInsert lm.waiting z qrest,
                      alRemove lm.locking tid⟩ lkD).2 := by
                  rw [hevs]
                  intro hmem
                  rcases List.mem_cons.1 hmem with hmem | hmem
                  · cases hmem
                  · rw [List.mem_singleton] at hmem
                    cases hmem
                by_cases hcx : c = x
                · subst hcx
                  have hqc2 : alGet (lock_waiting ⟨setRemove lm.locks z,
                      if qrest = [] then alRemove lm.waiting z
                      else alInsert lm.waiting z qrest,
                      alRemove lm.locking tid⟩ lkD).1.waiting c =
                      some (q ++ [lkD.id]) := by
                    rw [hWc, hq_mid]
                    rfl
                  refine ⟨hgB, Or.inr ⟨q ++ [lkD.id], hqc2,
                    List.mem_append.2 (Or.inl hB), hAB, Or.inr
                    ⟨lkA, hlkA', hpendA, hxgot⟩⟩⟩
                · refine ⟨hgB, Or.inr ⟨q, ?_, hB, hAB, Or.inr
                    ⟨lkA, hlkA', hpendA, hxgot⟩⟩⟩
                  rw [hWother x (fun h => hcx h.symm)]
                  exact hq_mid
      · intro t ht
        have htt : t ≠ tid := by
          intro h
          rw [h, hlkD] at ht
          cases ht
        rw [hOther t (fun h => htt (h.trans hidD))]
        simp only
        rw [alGet_alRemove_ne _ _ _ (fun h => htt h.symm)]
        exact ht

theorem entryEvolved_refl (lk : Locking) : EntryEvolved lk lk :=
  ⟨rfl, [], by simp, by simp⟩

theorem EntryEvolved.trans {a b c : Locking} (h1 : EntryEvolved a b)
    (h2 : EntryEvolved b c) : EntryEvolved a c := by
  obtain ⟨hid1, n1, hw1, hg1⟩ := h1
  obtain ⟨hid2, n2, hw2, hg2⟩ := h2
  refine ⟨hid2.trans hid1, n2 ++ n1, ?_, ?_⟩
  · rw [hw1, hw2, List.append_assoc]
  · rw [hg2, hg1, List.reverse_append, List.append_assoc]

theorem EntryEvolved.got_mem {a b : Locking} (h : EntryEvolved a b)
    {x : Oid} (hx : x ∈ a.got) : x ∈ b.got := by
  obtain ⟨_, n, _, hg⟩ := h
  rw [hg]
  exact List.mem_append.2 (Or.inl hx)

theorem releaseLoop_concat (fuel : Nat) (lm : LockManager) (ys : List Oid)
    (y : Oid) :
    releaseLoop (fuel + 1) lm (ys ++ [y]) =
      ((releaseLoop fuel (releaseOid lm y).1 ys).1,
       (releaseOid lm y).2 ++ (releaseLoop fuel (releaseOid lm y).1 ys).2) := by
  cases hRO : releaseOid lm y with
  | mk lm1 evs1 =>
    cases hRL : releaseLoop fuel lm1 ys with
    | mk lm2 evs2 =>
      simp only [releaseLoop, List.getLast?_concat, List.dropLast_concat, hRO,
        hRL]

/-- The whole release loop preserves the invariants, evolves every
entry, keeps waiters of unreleased OIDs enqueued, and preserves the
service order `Rel` unless `A` got granted — in which case `B` still
waits on `x` and `A` holds `x`. -/
theorem releaseLoop_spec (fuel : Nat) : ∀ (lm : LockManager)
    (rem : List Oid) (tr : List LockEv),
    LockInv lm → TraceInv lm tr → rem.Nodup →
    (∀ w ∈ rem, w ∈ lm.locks) →
    (∀ w ∈ rem, GotFree lm w) →
    rem.length ≤ fuel →
    LockInv (releaseLoop fuel lm rem).1 ∧
    TraceInv (releaseLoop fuel lm rem).1 (tr ++ (releaseLoop fuel lm rem).2) ∧
    (∀ t lk, alGet lm.locking t = some lk →
      ∃ lk', alGet (releaseLoop fuel lm rem).1.locking t = some lk' ∧
        EntryEvolved lk lk') ∧
    (∀ x qB Bt, x ∉ rem → alGet lm.waiting x = some qB → Bt ∈ qB →
      LockEv.granted Bt ∉ (releaseLoop fuel lm rem).2 ∧
      ∃ qB', alGet (releaseLoop fuel lm rem).1.waiting x = some qB' ∧
        Bt ∈ qB') ∧
    (∀ x A B, Rel lm x A B →
      LockEv.granted B ∉ (releaseLoop fuel lm rem).2 ∧
      ((LockEv.granted A ∈ (releaseLoop fuel lm rem).2 ∧
        (∃ qB', alGet (releaseLoop fuel lm rem).1.waiting x = some qB' ∧
          B ∈ qB') ∧
        (∃ lkA', alGet (releaseLoop fuel lm rem).1.locking A = some lkA' ∧
          x ∈ lkA'.got)) ∨
       Rel (releaseLoop fuel lm rem).1 x A B)) ∧
    (∀ t, alGet lm.locking t = none →
      alGet (releaseLoop fuel lm rem).1.locking t = none) := by
  induction fuel with
  | zero =>
    intro lm rem tr hinv htr _ _ _ hlen
    have hrem : rem = [] := List.eq_nil_of_length_eq_zero (Nat.le_zero.1 hlen)
    subst hrem
    refine ⟨hinv, ?_, ?_, ?_, ?_, fun t ht => ht⟩
    · show TraceInv lm (tr ++ [])
      rw [List.append_nil]
      exact htr
    · intro t lk ht
      exact ⟨lk, ht, entryEvolved_refl lk⟩
    · intro x qB Bt _ hqB hBt
      exact ⟨by simp [releaseLoop], qB, hqB, hBt⟩
    · intro x A B hrel
      exact ⟨by simp [releaseLoop], Or.inr hrel⟩
  | succ fuel ih =>
    intro lm rem tr hinv htr hnd hremL hremG hlen
    rcases List.eq_nil_or_concat rem with rfl | ⟨ys, y, hw⟩
    · refine ⟨hinv, ?_, ?_, ?_, ?_, fun t ht => ht⟩
      · show TraceInv lm (tr ++ [])
        rw [List.append_nil]
        exact htr
      · intro t lk ht
        exact ⟨lk, ht, entryEvolved_refl lk⟩
      · intro x qB Bt _ hqB hBt
        exact ⟨by simp [releaseLoop], qB, hqB, hBt⟩
      · intro x A B hrel
        exact ⟨by simp [releaseLoop], Or.inr hrel⟩
    · rw [List.concat_eq_append] at hw
      subst hw
      rw [releaseLoop_concat]
      have hymem : y ∈ ys ++ [y] := List.mem_append.2 (Or.inr (by simp))
      obtain ⟨ROinv, ROtr, ROlocks, ROfree, ROev, ROwq, ROrel, ROnone⟩ :=
        releaseOid_spec lm y tr hinv htr (hremG y hymem)
      have hndy := hnd
      rw [List.nodup_append] at hndy
      have hyne : ∀ w ∈ ys, w ≠ y := by
        intro w hwm he
        exact hndy.2.2 hwm (by rw [he]; exact List.mem_singleton.2 rfl)
      have hysm : ∀ w ∈ ys, w ∈ ys ++ [y] :=
        fun w hwm => List.mem_append.2 (Or.inl hwm)
      have hlen2 : ys.length ≤ fuel := by
        have := hlen
        simp only [List.length_append, List.length_singleton] at this
        omega
      have hysfree : ∀ w ∈ ys, GotFree (releaseOid lm y).1 w :=
        fun w hwm => ROfree w (hremG w (hysm w hwm)) (hremL w (hysm w hwm))
          (hyne w hwm)
      obtain ⟨Linv, Ltr, Lev, Lwq, Lrel, Lnone⟩ :=
        ih (releaseOid lm y).1 ys (tr ++ (releaseOid lm y).2) ROinv ROtr
          hndy.1
          (fun w hwm => ROlocks w (hremL w (hysm w hwm)) (hyne w hwm))
          hysfree hlen2
      refine ⟨Linv, ?_, ?_, ?_, ?_, fun t ht => Lnone t (ROnone t ht)⟩
      · have hmm : tr ++ ((releaseOid lm y).2 ++
            (releaseLoop fuel (releaseOid lm y).1 ys).2) =
            (tr ++ (releaseOid lm y).2) ++
            (releaseLoop fuel (releaseOid lm y).1 ys).2 := by
          rw [List.append_assoc]
        rw [hmm]
        exact Ltr
      · intro t lk ht
        obtain ⟨lk1, hlk1, he1⟩ := ROev t lk ht
        obtain ⟨lk2, hlk2, he2⟩ := Lev t lk1 hlk1
        exact ⟨lk2, hlk2, he1.trans he2⟩
      · intro x qB Bt hxm hqB hBt
        have hxy : x ≠ y := fun he => hxm (by rw [he]; exact hymem)
        have hxys : x ∉ ys :=
          fun hm => hxm (List.mem_append.2 (Or.inl hm))
        obtain ⟨hg1, qB1, hq1, hB1⟩ := ROwq x qB Bt hxy hqB hBt
        obtain ⟨hg2, qB2, hq2, hB2⟩ := Lwq x qB1 Bt hxys hq1 hB1
        refine ⟨?_, qB2, hq2, hB2⟩
        intro hmem
        rcases List.mem_append.1 hmem with hmem | hmem
        · exact hg1 hmem
        · exact hg2 hmem
      · intro x A B hrel
        obtain ⟨hgB1, hdisj1⟩ := ROrel x A B hrel
        rcases hdisj1 with ⟨hA1, ⟨qB1, hq1, hB1⟩, ⟨lkA1, hlkA1, hx1⟩⟩ | hrel1
        · have hxys : x ∉ ys := by
            intro hm
            exact hysfree x hm A lkA1 hlkA1 hx1
          obtain ⟨hgB2, qB2, hq2, hB2⟩ := Lwq x qB1 B hxys hq1 hB1
          obtain ⟨lkA2, hlkA2, he2⟩ := Lev A lkA1 hlkA1
          refine ⟨?_, Or.inl ⟨List.mem_append.2 (Or.inl hA1),
            ⟨qB2, hq2, hB2⟩, ⟨lkA2, hlkA2, he2.got_mem hx1⟩⟩⟩
          intro hmem
          rcases List.mem_append.1 hmem with hmem | hmem
          · exact hgB1 hmem
          · exact hgB2 hmem
        · obtain ⟨hgB2, hdisj2⟩ := Lrel x A B hrel1
          refine ⟨?_, ?_⟩
          · intro hmem
            rcases List.mem_append.1 hmem with hmem | hmem
            · exact hgB1 hmem
            · exact hgB2 hmem
          · rcases hdisj2 with ⟨hA2, hq2, hlk2⟩ | hrel2
            · exact Or.inl ⟨List.mem_append.2 (Or.inr hA2), hq2, hlk2⟩
            · exact Or.inr hrel2

/-- `LockManager::release` of a fully granted (or unknown) TID: the
invariants are preserved, other entries evolve, the released TID's entry
is gone, and the service order is preserved unless `A` got granted. -/
theorem release_spec (lm : LockManager) (E : Tid) (tr : List LockEv)
    (hinv : LockInv lm) (htr : TraceInv lm tr)
    (hokE : ∀ lk, alGet lm.locking E = some lk → lk.want = []) :
    LockInv (lm.release E).1 ∧
    TraceInv (lm.release E).1 (tr ++ (lm.release E).2) ∧
    (∀ t lk, t ≠ E → alGet lm.locking t = some lk →
      ∃ lk', alGet (lm.release E).1.locking t = some lk' ∧
        EntryEvolved lk lk') ∧
    (∀ x A B, Rel lm x A B →
      LockEv.granted B ∉ (lm.release E).2 ∧
      (LockEv.granted A ∈ (lm.release E).2 ∨ Rel (lm.release E).1 x A B)) ∧
    (∀ t, alGet lm.locking t = none →
      alGet (lm.release E).1.locking t = none) ∧
    alGet (lm.release E).1.locking E = none := by
  cases hE : alGet lm.locking E with
  | none =>
    have heq : lm.release E = (lm, []) := by
      simp only [LockManager.release, hE]
    rw [heq]
    refine ⟨hinv, ?_, ?_, ?_, fun t ht => ht, hE⟩
    · show TraceInv lm (tr ++ [])
      rw [List.append_nil]
      exact htr
    · intro t lk _ ht
      exact ⟨lk, ht, entryEvolved_refl lk⟩
    · intro x A B hrel
      exact ⟨by simp, Or.inr hrel⟩
  | some lkE =>
    have hwE : lkE.want = [] := hokE lkE hE
    have hget0 : ∀ t lk, alGet (alRemove lm.locking E) t = some lk →
        alGet lm.locking t = some lk ∧ t ≠ E := by
      intro t lk ht
      by_cases htE : t = E
      · rw [htE, alGet_alRemove_self _ _ hinv.lockKeys] at ht
        cases ht
      · rw [alGet_alRemove_ne _ _ _ (fun h => htE h.symm)] at ht
        exact ⟨ht, htE⟩
    have h0inv : LockInv ⟨lm.locks, lm.waiting, alRemove lm.locking E⟩ := by
      refine ⟨hinv.locksNodup, hinv.waitKeys,
        alRemove_keys_nodup _ _ hinv.lockKeys, ?_, ?_, hinv.queueNodup,
        hinv.queueDisj, ?_, ?_, ?_, ?_, ?_⟩
      · intro t lk ht
        exact hinv.idOk t lk (hget0 t lk ht).1
      · intro x q t hx htq
        obtain ⟨lk', hlk', hlast'⟩ := hinv.queueEntry x q t hx htq
        have htE : t ≠ E := by
          intro h
          rw [h] at hlk'
          have : lk' = lkE := Option.some.inj (hlk'.symm.trans hE)
          rw [this, hwE] at hlast'
          cases hlast'
        refine ⟨lk', ?_, hlast'⟩
        rw [alGet_alRemove_ne _ _ _ (fun h => htE h.symm)]
        exact hlk'
      · intro t lk ht
        exact hinv.gotSub t lk (hget0 t lk ht).1
      · intro t lk ht
        exact hinv.gotNodup t lk (hget0 t lk ht).1
      · intro t1 t2 lk1 lk2 h1 h2 hne
        exact hinv.gotDisj t1 t2 lk1 lk2 (hget0 t1 lk1 h1).1
          (hget0 t2 lk2 h2).1 hne
      · intro t lk ht
        exact hinv.wantNodup t lk (hget0 t lk ht).1
      · intro t lk ht
        exact hinv.wantGotDisj t lk (hget0 t lk ht).1
    have h0tr : TraceInv ⟨lm.locks, lm.waiting, alRemove lm.locking E⟩ tr := by
      refine ⟨htr.count_le, ?_, ?_⟩
      · intro t lk ht hw
        exact htr.pending t lk (hget0 t lk ht).1 hw
      · intro t lk ht hw
        exact htr.done t lk (hget0 t lk ht).1 hw
    obtain ⟨Linv, Ltr, Lev, Lwq, Lrel, Lnone⟩ :=
      releaseLoop_spec lkE.got.length
        ⟨lm.locks, lm.waiting, alRemove lm.locking E⟩ lkE.got tr h0inv h0tr
        (hinv.gotNodup E lkE hE)
        (fun w hw => hinv.gotSub E lkE hE w hw)
        (by
          intro w hw t lk ht
          obtain ⟨ht0, htE⟩ := hget0 t lk ht
          exact hinv.gotDisj E t lkE lk hE ht0 (fun h => htE h.symm) w hw)
        (le_refl _)
    have heq : lm.release E =
        releaseLoop lkE.got.length
          ⟨lm.locks, lm.waiting, alRemove lm.locking E⟩ lkE.got := by
      simp only [LockManager.release, hE]
    rw [heq]
    refine ⟨Linv, Ltr, ?_, ?_, ?_, ?_⟩
    · intro t lk htE ht
      apply Lev
      simp only
      rw [alGet_alRemove_ne _ _ _ (fun h => htE h.symm)]
      exact ht
    · intro x A B hrel
      obtain ⟨q, hq_x, hB, hAB, hdisj⟩ := hrel
      have hrel0 : Rel ⟨lm.locks, lm.waiting, alRemove lm.locking E⟩ x A B := by
        refine ⟨q, hq_x, hB, hAB, ?_⟩
        rcases hdisj with h | ⟨lkA, hlkA, hpend, hxg⟩
        · exact Or.inl h
        · have hAE : A ≠ E := by
            intro h
            rw [h] at hlkA
            have : lkA = lkE := Option.some.inj (hlkA.symm.trans hE)
            rw [this, hwE] at hpend
            exact hpend rfl
          refine Or.inr ⟨lkA, ?_, hpend, hxg⟩
          simp only
          rw [alGet_alRemove_ne _ _ _ (fun h => hAE h.symm)]
          exact hlkA
      obtain ⟨hgB, hdisj2⟩ := Lrel x A B hrel0
      refine ⟨hgB, ?_⟩
      rcases hdisj2 with ⟨hA, _, _⟩ | hrel2
      · exact Or.inl hA
      · exact Or.inr hrel2
    · intro t ht
      apply Lnone
      simp only
      by_cases htE : t = E
      · rw [htE]
        exact alGet_alRemove_self _ _ hinv.lockKeys
      · rw [alGet_alRemove_ne _ _ _ (fun h => htE h.symm)]
        exact ht
    · apply Lnone
      simp only
      exact alGet_alRemove_self _ _ hinv.lockKeys

/-- One disciplined client operation preserves the invariants, evolves
surviving entries, and preserves the service order unless `A` got
granted. -/
theorem lockStep_spec (lm : LockManager) (tr : List LockEv) (op : LockOp)
    (hinv : LockInv lm) (htr : TraceInv lm tr)
    (hok : okStep lm tr op = true) :
    LockInv (lockStep lm op).1 ∧
    TraceInv (lockStep lm op).1 (tr ++ (lockStep lm op).2) ∧
    (∀ t lk, op ≠ LockOp.release t → alGet lm.locking t = some lk →
      ∃ lk', alGet (lockStep lm op).1.locking t = some lk' ∧
        EntryEvolved lk lk') ∧
    (∀ x A B, Rel lm x A B →
      LockEv.granted B ∉ (lockStep lm op).2 ∧
      (LockEv.granted A ∈ (lockStep lm op).2 ∨ Rel (lockStep lm op).1 x A B)) ∧
    (∀ t, alGet lm.locking t = none →
      (∀ id want, op = LockOp.lock id want → id ≠ t) →
      alGet (lockStep lm op).1.locking t = none) ∧
    (∀ E, op = LockOp.release E →
      alGet (lockStep lm op).1.locking E = none) ∧
    (∀ id want, op = LockOp.lock id want →
      ∃ keep neu, want = keep ++ neu ∧
        alGet (lockStep lm op).1.locking id = some ⟨id, keep, neu.reverse⟩) := by
  cases op with
  | lock id want =>
    simp only [okStep, Bool.and_eq_true, decide_eq_true_eq] at hok
    obtain ⟨⟨hfresh, hgr⟩, hwn⟩ := hok
    simp only [lockStep, LockManager.lock]
    obtain ⟨Winv, Wtr, WOther, keep, neu, hsplit, hEntry, hLocks, hFresh,
      hcase⟩ :=
      lock_waiting_spec lm ⟨id, want, []⟩ tr hinv htr hfresh hgr
        (by
          intro x q hx hq2
          obtain ⟨lk', hlk', _⟩ := hinv.queueEntry x q id hx hq2
          rw [hfresh] at hlk'
          cases hlk')
        List.nodup_nil
        (by intro z hz; cases hz)
        (by intro t lk' _ z hz; cases hz)
        hwn
        (by intro z _ hz; cases hz)
    refine ⟨Winv, Wtr, ?_, ?_, ?_, ?_, ?_⟩
    · intro t lk _ ht
      have htid : t ≠ id := by
        intro h
        rw [h, hfresh] at ht
        cases ht
      refine ⟨lk, ?_, entryEvolved_refl lk⟩
      rw [WOther t htid]
      exact ht
    · intro x A B hrel
      obtain ⟨q, hq_x, hB, hAB, hdisj⟩ := hrel
      obtain ⟨lkB, hlkB, _⟩ := hinv.queueEntry x q B hq_x hB
      have hBid : B ≠ id := by
        intro h
        rw [h, hfresh] at hlkB
        cases hlkB
      have hAid : A ≠ id := by
        rcases hdisj with ⟨l1, l2, l3, hqs⟩ | ⟨lkA, hlkA, _, _⟩
        · have hAq : A ∈ q := by
            rw [hqs]
            exact List.mem_append.2 (Or.inl
              (List.mem_append.2 (Or.inr (List.mem_cons_self _ _))))
          obtain ⟨lkA, hlkA, _⟩ := hinv.queueEntry x q A hq_x hAq
          intro h
          rw [h, hfresh] at hlkA
          cases hlkA
        · intro h
          rw [h, hfresh] at hlkA
          cases hlkA
      have hAeq : ∀ lkA, alGet lm.locking A = some lkA →
          alGet (lock_waiting lm ⟨id, want, []⟩).1.locking A = some lkA := by
        intro lkA hlkA
        rw [WOther A hAid]
        exact hlkA
      rcases hcase with ⟨hkeep, hevs, hwait⟩ |
        ⟨c, hclast, hclocks, hevs, hWother, hWc⟩
      · refine ⟨?_, Or.inr ⟨q, ?_, hB, hAB, ?_⟩⟩
        · rw [hevs]
          intro hmem
          rw [List.mem_singleton] at hmem
          cases hmem
          exact hBid rfl
        · rw [hwait]
          exact hq_x
        · rcases hdisj with h | ⟨lkA, hlkA, hpend, hxg⟩
          · exact Or.inl h
          · exact Or.inr ⟨lkA, hAeq lkA hlkA, hpend, hxg⟩
      · refine ⟨?_, Or.inr ?_⟩
        · rw [hevs]
          intro hmem
          rw [List.mem_singleton] at hmem
          cases hmem
        · by_cases hcx : c = x
          · subst hcx
            refine ⟨q ++ [id], ?_, List.mem_append.2 (Or.inl hB), hAB, ?_⟩
            · rw [hWc, hq_x]
              rfl
            · rcases hdisj with ⟨l1, l2, l3, hqs⟩ | ⟨lkA, hlkA, hpend, hxg⟩
              · refine Or.inl ⟨l1, l2, l3 ++ [id], ?_⟩
                rw [hqs]
                simp
              · exact Or.inr ⟨lkA, hAeq lkA hlkA, hpend, hxg⟩
          · refine ⟨q, ?_, hB, hAB, ?_⟩
            · rw [hWother x (fun h => hcx h.symm)]
              exact hq_x
            · rcases hdisj with h | ⟨lkA, hlkA, hpend, hxg⟩
              · exact Or.inl h
              · exact Or.inr ⟨lkA, hAeq lkA hlkA, hpend, hxg⟩
    · intro t ht hne
      rw [WOther t (fun h => hne id want rfl h.symm)]
      exact ht
    · intro E hE
      cases hE
    · intro id' want' heq
      injection heq with h1 h2
      subst h1
      subst h2
      exact ⟨keep, neu, hsplit, hEntry⟩
  | release E =>
    have hokE : ∀ lk, alGet lm.locking E = some lk → lk.want = [] := by
      intro lk h
      simp only [okStep, h, decide_eq_true_eq] at hok
      exact hok
    simp only [lockStep]
    obtain ⟨Rinv, Rtr, Rev, Rrel, Rnone, Rown⟩ :=
      release_spec lm E tr hinv htr hokE
    refine ⟨Rinv, Rtr, ?_, Rrel, ?_, ?_, ?_⟩
    · intro t lk hne ht
      exact Rev t lk (fun h => hne (by rw [h])) ht
    · intro t ht _
      exact Rnone t ht
    · intro E' hE'
      injection hE' with h1
      subst h1
      exact Rown
    · intro id want heq
      cases heq

theorem append_split {α : Type} (evs : List α) : ∀ (e1 t e2 : List α) (b : α),
    e1 ++ b :: e2 = evs ++ t → b ∉ evs →
    ∃ e1', e1 = evs ++ e1' ∧ t = e1' ++ b :: e2 := by
  induction evs with
  | nil =>
    intro e1 t e2 b h _
    refine ⟨e1, by simp, ?_⟩
    rw [List.nil_append] at h
    exact h.symm
  | cons a evs' ih =>
    intro e1 t e2 b h hb
    cases e1 with
    | nil =>
      simp only [List.nil_append, List.cons_append] at h
      injection h with h1 h2
      exfalso
      apply hb
      rw [h1]
      exact List.mem_cons_self _ _
    | cons c e1' =>
      simp only [List.cons_append] at h
      injection h with h1 h2
      subst h1
      have hb' : b ∉ evs' := fun hm => hb (List.mem_cons_of_mem _ hm)
      obtain ⟨e1'', he1, ht⟩ := ih e1' t e2 b h2 hb'
      refine ⟨e1'', ?_, ht⟩
      rw [he1, List.cons_append]

/-- The invariants hold at the end of every disciplined run. -/
theorem lockRun_spec (ops : List LockOp) : ∀ (lm : LockManager)
    (tr : List LockEv),
    LockInv lm → TraceInv lm tr → okOps lm tr ops = true →
    LockInv (lockRun lm ops).1 ∧
    TraceInv (lockRun lm ops).1 (tr ++ (lockRun lm ops).2) := by
  induction ops with
  | nil =>
    intro lm tr hinv htr _
    refine ⟨hinv, ?_⟩
    show TraceInv lm (tr ++ [])
    rw [List.append_nil]
    exact htr
  | cons op rest ih =>
    intro lm tr hinv htr hok
    simp only [okOps, Bool.and_eq_true] at hok
    obtain ⟨hok1, hok2⟩ := hok
    obtain ⟨Sinv, Str, _, _, _, _, _⟩ := lockStep_spec lm tr op hinv htr hok1
    obtain ⟨Linv, Ltr⟩ := ih (lockStep lm op).1 (tr ++ (lockStep lm op).2)
      Sinv Str hok2
    refine ⟨Linv, ?_⟩
    show TraceInv (lockRun (lockStep lm op).1 rest).1
      (tr ++ ((lockStep lm op).2 ++ (lockRun (lockStep lm op).1 rest).2))
    rw [← List.append_assoc]
    exact Ltr

/-- FIFO service: if `A` is served before `B` on `x` in the current
state, every grant of `B` in the run's trace is preceded by a grant of
`A`. -/
theorem fifo_run (ops : List LockOp) : ∀ (lm : LockManager)
    (tr : List LockEv) (x : Oid) (A B : Tid),
    LockInv lm → TraceInv lm tr → okOps lm tr ops = true →
    Rel lm x A B →
    ∀ e1 e2, (lockRun lm ops).2 = e1 ++ LockEv.granted B :: e2 →
      LockEv.granted A ∈ e1 := by
  induction ops with
  | nil =>
    intro lm tr x A B _ _ _ _ e1 e2 h
    have h2 : ([] : List LockEv) = e1 ++ LockEv.granted B :: e2 := h
    cases e1 <;> simp at h2
  | cons op rest ih =>
    intro lm tr x A B hinv htr hok hrel e1 e2 h
    simp only [okOps, Bool.and_eq_true] at hok
    obtain ⟨hok1, hok2⟩ := hok
    obtain ⟨Sinv, Str, _, Srel, _, _, _⟩ := lockStep_spec lm tr op hinv htr hok1
    obtain ⟨hgB, hdisj⟩ := Srel x A B hrel
    have h2 : e1 ++ LockEv.granted B :: e2 =
        (lockStep lm op).2 ++ (lockRun (lockStep lm op).1 rest).2 := h.symm
    obtain ⟨e1', he1, ht⟩ := append_split (lockStep lm op).2 e1 _ e2 _ h2 hgB
    rcases hdisj with hA | hrel'
    · rw [he1]
      exact List.mem_append.2 (Or.inl hA)
    · rw [he1]
      exact List.mem_append.2 (Or.inr
        (ih (lockStep lm op).1 (tr ++ (lockStep lm op).2) x A B Sinv Str hok2
          hrel' e1' e2 ht))

/-- A TID that is not locking and was already granted never becomes a
locking entry again. -/
theorem none_run (ops : List LockOp) : ∀ (lm : LockManager)
    (tr : List LockEv),
    LockInv lm → TraceInv lm tr → okOps lm tr ops = true →
    ∀ id, alGet lm.locking id = none → LockEv.granted id ∈ tr →
      alGet (lockRun lm ops).1.locking id = none := by
  induction ops with
  | nil =>
    intro lm tr _ _ _ id hid _
    exact hid
  | cons op rest ih =>
    intro lm tr hinv htr hok id hid hmem
    simp only [okOps, Bool.and_eq_true] at hok
    obtain ⟨hok1, hok2⟩ := hok
    obtain ⟨Sinv, Str, _, _, Snone, _, _⟩ := lockStep_spec lm tr op hinv htr hok1
    have hid1 : alGet (lockStep lm op).1.locking id = none := by
      apply Snone id hid
      intro id' want heq hidq
      subst heq
      subst hidq
      simp only [okStep, Bool.and_eq_true, decide_eq_true_eq] at hok1
      exact hok1.1.2 hmem
    exact ih (lockStep lm op).1 (tr ++ (lockStep lm op).2) Sinv Str hok2 id
      hid1 (List.mem_append.2 (Or.inl hmem))

/-- A locking entry present at both ends of a run evolved: it only moved
a suffix of its `want` onto its `got`. -/
theorem entry_run (ops : List LockOp) : ∀ (lm : LockManager)
    (tr : List LockEv),
    LockInv lm → TraceInv lm tr → okOps lm tr ops = true →
    ∀ id lk0, alGet lm.locking id = some lk0 →
    ∀ lk, alGet (lockRun lm ops).1.locking id = some lk →
      EntryEvolved lk0 lk := by
  induction ops with
  | nil =>
    intro lm tr _ _ _ id lk0 h0 lk h1
    have h2 : alGet lm.locking id = some lk := h1
    have : lk0 = lk := Option.some.inj (h0.symm.trans h2)
    rw [← this]
    exact entryEvolved_refl lk0
  | cons op rest ih =>
    intro lm tr hinv htr hok id lk0 h0 lk h1
    simp only [okOps, Bool.and_eq_true] at hok
    obtain ⟨hok1, hok2⟩ := hok
    obtain ⟨Sinv, Str, Sev, _, _, Sown, _⟩ := lockStep_spec lm tr op hinv htr hok1
    by_cases hopr : op = LockOp.release id
    · exfalso
      have hw0 : lk0.want = [] := by
        subst hopr
        simp only [okStep, h0, decide_eq_true_eq] at hok1
        exact hok1
      have hdone : LockEv.granted id ∈ tr := htr.done id lk0 h0 hw0
      have hid1 : alGet (lockStep lm op).1.locking id = none := Sown id hopr
      have hfin : alGet (lockRun (lockStep lm op).1 rest).1.locking id = none :=
        none_run rest (lockStep lm op).1 (tr ++ (lockStep lm op).2) Sinv Str
          hok2 id hid1 (List.mem_append.2 (Or.inl hdone))
      have h2 : alGet (lockRun (lockStep lm op).1 rest).1.locking id =
          some lk := h1
      rw [hfin] at h2
      cases h2
    · obtain ⟨lk1, hlk1, he1⟩ := Sev id lk0 hopr h0
      exact he1.trans (ih (lockStep lm op).1 (tr ++ (lockStep lm op).2) Sinv
        Str hok2 id lk1 hlk1 lk h1)

/-- If every transaction is gone from the locking map at the end of the
run, every transaction that was locking or locked during the run was
granted. -/
theorem drained_run (ops : List LockOp) : ∀ (lm : LockManager)
    (tr : List LockEv),
    LockInv lm → TraceInv lm tr → okOps lm tr ops = true →
    (lockRun lm ops).1.locking = [] →
    (∀ id lk, alGet lm.locking id = some lk →
      LockEv.granted id ∈ tr ++ (lockRun lm ops).2) ∧
    (∀ id want, LockOp.lock id want ∈ ops →
      LockEv.granted id ∈ (lockRun lm ops).2) := by
  induction ops with
  | nil =>
    intro lm tr _ _ _ hnil
    constructor
    · intro id lk h
      have hnil2 : lm.locking = [] := hnil
      rw [hnil2] at h
      simp [alGet] at h
    · intro id want hmem
      cases hmem
  | cons op rest ih =>
    intro lm tr hinv htr hok hnil
    simp only [okOps, Bool.and_eq_true] at hok
    obtain ⟨hok1, hok2⟩ := hok
    obtain ⟨Sinv, Str, Sev, _, _, _, Slock⟩ := lockStep_spec lm tr op hinv htr hok1
    have hnil2 : (lockRun (lockStep lm op).1 rest).1.locking = [] := hnil
    obtain ⟨IH1, IH2⟩ := ih (lockStep lm op).1 (tr ++ (lockStep lm op).2)
      Sinv Str hok2 hnil2
    constructor
    · intro id lk h0
      by_cases hopr : op = LockOp.release id
      · have hw0 : lk.want = [] := by
          subst hopr
          simp only [okStep, h0, decide_eq_true_eq] at hok1
          exact hok1
        exact List.mem_append.2 (Or.inl (htr.done id lk h0 hw0))
      · obtain ⟨lk1, hlk1, _⟩ := Sev id lk hopr h0
        have := IH1 id lk1 hlk1
        rw [List.append_assoc] at this
        exact this
    · intro id want hmem
      rcases List.mem_cons.1 hmem with heq | hrest
      · obtain ⟨keep, neu, _, hEntry⟩ := Slock id want heq.symm
        have hg := IH1 id ⟨id, keep, neu.reverse⟩ hEntry
        have hgr : LockEv.granted id ∉ tr := by
          rw [heq.symm] at hok1
          simp only [okStep, Bool.and_eq_true, decide_eq_true_eq] at hok1
          exact hok1.1.2
        rw [List.append_assoc] at hg
        rcases List.mem_append.1 hg with hg | hg
        · exact absurd hg hgr
        · exact hg
      · exact List.mem_append.2 (Or.inr (IH2 id want hrest))

theorem EntryEvolved.mem_iff {a b : Locking} (h : EntryEvolved a b) (z : Oid) :
    (z ∈ b.want ∨ z ∈ b.got) ↔ (z ∈ a.want ∨ z ∈ a.got) := by
  obtain ⟨_, n, hw, hg⟩ := h
  rw [hw, hg]
  simp only [List.mem_append, List.mem_reverse]
  tauto

theorem lockInv_new : LockInv LockManager.new :=
  ⟨List.nodup_nil, List.nodup_nil, List.nodup_nil,
   fun _ _ ht => absurd ht (by simp [LockManager.new, alGet]),
   fun _ _ _ hx _ => absurd hx (by simp [LockManager.new, alGet]),
   fun _ _ hx => absurd hx (by simp [LockManager.new, alGet]),
   fun _ _ _ _ hx _ _ _ _ => absurd hx (by simp [LockManager.new, alGet]),
   fun _ _ ht => absurd ht (by simp [LockManager.new, alGet]),
   fun _ _ ht => absurd ht (by simp [LockManager.new, alGet]),
   fun _ _ _ _ h1 _ _ _ _ => absurd h1 (by simp [LockManager.new, alGet]),
   fun _ _ ht => absurd ht (by simp [LockManager.new, alGet]),
   fun _ _ ht => absurd ht (by simp [LockManager.new, alGet])⟩

theorem traceInv_new : TraceInv LockManager.new [] :=
  ⟨fun _ => by simp,
   fun _ _ ht _ => absurd ht (by simp [LockManager.new, alGet]),
   fun _ _ ht _ => absurd ht (by simp [LockManager.new, alGet])⟩

/-- C6: for every disciplined sequence of `lock`/`release` calls on a
well-formed lock manager (locks are requested under fresh TIDs with
distinct OIDs and released only after the `locked` callback ran), (a)
per-OID waiter queues are FIFO: if `A` sits ahead of `B` in `x`'s queue,
every later grant of `B` is preceded by a grant of `A`; (b) each
transaction's `locked` callback fires at most once; (c) it fires exactly
once for every transaction locked during a run that ends with all
transactions released; (d) a transaction's callback has fired exactly
when its `want` list is exhausted and every OID it holds is in the lock
set; (e) a transaction's requested OID set `want ∪ got` never changes
while it waits. -/
theorem lock_fifo_single_grant (lm : LockManager) (tr : List LockEv)
    (ops : List LockOp) (hinv : LockInv lm) (htr : TraceInv lm tr)
    (hok : okOps lm tr ops = true) :
    (∀ x q A B l1 l2 l3, alGet lm.waiting x = some q → A ≠ B →
      q = l1 ++ A :: l2 ++ B :: l3 →
      ∀ e1 e2, (lockRun lm ops).2 = e1 ++ LockEv.granted B :: e2 →
        LockEv.granted A ∈ e1) ∧
    (∀ t, (tr ++ (lockRun lm ops).2).count (LockEv.granted t) ≤ 1) ∧
    (∀ id want, LockOp.lock id want ∈ ops →
      (lockRun lm ops).1.locking = [] →
      LockEv.granted id ∈ (lockRun lm ops).2) ∧
    (∀ t lk, alGet (lockRun lm ops).1.locking t = some lk →
      (LockEv.granted t ∈ tr ++ (lockRun lm ops).2 ↔ lk.want = []) ∧
      ∀ z ∈ lk.got, z ∈ (lockRun lm ops).1.locks) ∧
    (∀ id lk0 lk, alGet lm.locking id = some lk0 →
      alGet (lockRun lm ops).1.locking id = some lk →
      ∀ z, (z ∈ lk.want ∨ z ∈ lk.got) ↔ (z ∈ lk0.want ∨ z ∈ lk0.got)) := by
  obtain ⟨Finv, Ftr⟩ := lockRun_spec ops lm tr hinv htr hok
  refine ⟨?_, Ftr.count_le, ?_, ?_, ?_⟩
  · intro x q A B l1 l2 l3 hq hAB hqs e1 e2 h
    apply fifo_run ops lm tr x A B hinv htr hok ?_ e1 e2 h
    refine ⟨q, hq, ?_, hAB, Or.inl ⟨l1, l2, l3, hqs⟩⟩
    rw [hqs]
    exact List.mem_append.2 (Or.inr (List.mem_cons_self _ _))
  · intro id want hmem hnil
    exact (drained_run ops lm tr hinv htr hok hnil).2 id want hmem
  · intro t lk hlk
    refine ⟨⟨?_, Ftr.done t lk hlk⟩, Finv.gotSub t lk hlk⟩
    intro hmem
    by_contra hw
    exact Ftr.pending t lk hlk hw hmem
  · intro id lk0 lk h0 h1
    exact fun z => (entry_run ops lm tr hinv htr hok id lk0 h0 lk h1).mem_iff z

/-- Witness: with `[2]` queued ahead of `[3]` on OID `[10]`, the trace
of the three releases grants `[2]` strictly before `[3]`. -/
theorem lock_fifo_single_grant_witness :
    ([2] : Tid) ≠ [3] ∧
    LockEv.granted [2] ∈ [LockEv.dequeued [2] [10], LockEv.granted [2],
      LockEv.dequeued [3] [10]] :=
  ⟨by decide,
   (lock_fifo_single_grant (lockRun LockManager.new c6setup).1
      ([] ++ (lockRun LockManager.new c6setup).2) c6rels
      (lockRun_spec c6setup LockManager.new [] lockInv_new traceInv_new rfl).1
      (lockRun_spec c6setup LockManager.new [] lockInv_new traceInv_new rfl).2
      rfl).1
     [10] [[2], [3]] [2] [3] [] [] [] rfl (by decide) rfl
     [LockEv.dequeued [2] [10], LockEv.granted [2], LockEv.dequeued [3] [10]]
     [] rfl⟩

end ByteServer
